import Mathlib

/-!
# pthread-adventure: room-graph builder and player

A shallow embedding of `kilgorep.buildrooms.c` (namespace `Buildrooms`) and
`kilgorep.adventure.c` (namespace `Adventure`).

Conventions of the embedding

* A C string (a `char` array read up to its terminating NUL) is a `List Char`.
* A `Room*` that points into the room array is the index of the room it points
  to.  In `Buildrooms` the connection slots are never initialised by the
  program, so a slot holds an arbitrary `Nat`; a value that is not the index of
  a room stands for a pointer to something else.
* `rand()` is a list of the values the successive calls return.  A function
  that calls `rand()` consumes the head of the list and hands back the rest;
  `none` means that the call had not completed when the listed values were used
  up.
* `int` counters only ever count up from zero here and are natural numbers.
-/

/-- The enum `RoomType`, declared alike by both programs. -/
inductive RoomType where
  | START_ROOM
  | MID_ROOM
  | END_ROOM
deriving DecidableEq

/-- The text of a file made of the given lines, each ended by a newline. -/
def unlines (lines : List (List Char)) : List Char :=
  (lines.map (fun l => l ++ ['\n'])).flatten

namespace Buildrooms

/-- The macro `NUM_ROOMS`. -/
def NUM_ROOMS : Nat := 7

/-- The struct `room` of the builder.  `outboundConnections` is the array of six
pointer slots, `numOutboundConnections` the number of slots in use. -/
structure Room where
  id : Nat
  name : List Char
  numOutboundConnections : Nat
  outboundConnections : List Nat
  rType : RoomType
deriving DecidableEq

/-- `IsGraphFull`: true unless one of the first `numRooms` rooms has fewer than
three connections. -/
def IsGraphFull (roomGraph : List Room) (numRooms : Nat) : Bool :=
  (roomGraph.take numRooms).all (fun r => !decide (r.numOutboundConnections < 3))

/-- `GetRandomRoom`, given the value `r` that its call of `rand()` returns: the
pointer to room `r % numRooms`. -/
def GetRandomRoom (r : Nat) (numRooms : Nat) : Nat :=
  r % numRooms

/-- `CanAddConnectionFrom`. -/
def CanAddConnectionFrom (x : Room) : Bool :=
  if x.numOutboundConnections < NUM_ROOMS - 1 then true else false

/-- `ConnectionAlreadyExists`: when `x` has a connection, the loop runs over
`i = 0, ..., numOutboundConnections` (the bound is `<=`) and stops at the first
slot equal to `y`.  An index past the six slots, met only when all six are in
use, compares unequal. -/
def ConnectionAlreadyExists (x : Room) (y : Nat) : Bool :=
  if x.numOutboundConnections > 0 then
    (List.range (x.numOutboundConnections + 1)).any
      (fun i => decide (x.outboundConnections[i]? = some y))
  else false

/-- `ConnectRoom`: store `y` in the slot of index `numOutboundConnections`, then
increment the counter. -/
def ConnectRoom (x : Room) (y : Nat) : Room :=
  { x with
    outboundConnections := x.outboundConnections.set x.numOutboundConnections y
    numOutboundConnections := x.numOutboundConnections + 1 }

/-- `IsSameRoom`: pointer equality. -/
def IsSameRoom (x y : Nat) : Bool :=
  if x = y then true else false

/-- The effect of `ConnectRoom(x, y)` on the array, `x` and `y` being pointers
into it. -/
def connectAt (roomList : List Room) (x y : Nat) : List Room :=
  match roomList[x]? with
  | some rx => roomList.set x (ConnectRoom rx y)
  | none => roomList

/-- The first loop of `AddRandomConnection`:
`while (true) { A = GetRandomRoom(..); if (CanAddConnectionFrom(A) == true) break; }`. -/
def chooseA (roomList : List Room) (numRooms : Nat) : List Nat → Option (Nat × List Nat)
  | [] => none
  | r :: rs =>
    match roomList[GetRandomRoom r numRooms]? with
    | none => none
    | some a =>
      if CanAddConnectionFrom a = true then some (GetRandomRoom r numRooms, rs)
      else chooseA roomList numRooms rs

/-- The second loop of `AddRandomConnection`:
`do { B = GetRandomRoom(..); } while (CanAddConnectionFrom(B) == false ||
IsSameRoom(A, B) == true || ConnectionAlreadyExists(A, B) == true);`. -/
def chooseB (roomList : List Room) (numRooms : Nat) (A : Nat) (a : Room) :
    List Nat → Option (Nat × List Nat)
  | [] => none
  | r :: rs =>
    match roomList[GetRandomRoom r numRooms]? with
    | none => none
    | some b =>
      if CanAddConnectionFrom b = false || IsSameRoom A (GetRandomRoom r numRooms) = true
          || ConnectionAlreadyExists a (GetRandomRoom r numRooms) = true then
        chooseB roomList numRooms A a rs
      else some (GetRandomRoom r numRooms, rs)

/-- The two rooms `AddRandomConnection` settles on, with the unused `rand()`
values. -/
def chooseRooms (rs : List Nat) (roomList : List Room) (numRooms : Nat) :
    Option (Nat × Nat × List Nat) :=
  match chooseA roomList numRooms rs with
  | none => none
  | some (A, rs1) =>
    match roomList[A]? with
    | none => none
    | some a =>
      match chooseB roomList numRooms A a rs1 with
      | none => none
      | some (B, rs2) => some (A, B, rs2)

/-- `AddRandomConnection`.  The result lists the array after `ConnectRoom(A, B)`,
the array after `ConnectRoom(B, A)` (the array the call leaves behind) and the
unused `rand()` values. -/
def AddRandomConnection (rs : List Nat) (roomList : List Room) (numRooms : Nat) :
    Option (List Room × List Room × List Nat) :=
  match chooseRooms rs roomList numRooms with
  | none => none
  | some (A, B, rs2) =>
    some (connectAt roomList A B, connectAt (connectAt roomList A B) B A, rs2)

/-- The build loop of `main`:
`while (IsGraphFull(roomsList, NUM_ROOMS) == false) AddRandomConnection(roomsList, NUM_ROOMS);`
run for at most `fuel` iterations.  The result lists every array the loop went
through after a `ConnectRoom`, in order, then the array at loop exit and the
unused `rand()` values. -/
def buildLoop : Nat → List Nat → List Room → Option (List (List Room) × List Room × List Nat)
  | 0, _, _ => none
  | fuel + 1, rs, roomsList =>
    if IsGraphFull roomsList NUM_ROOMS = false then
      match AddRandomConnection rs roomsList NUM_ROOMS with
      | none => none
      | some (mid, next, rs1) =>
        match buildLoop fuel rs1 next with
        | none => none
        | some (trace, final, rs2) => some (mid :: next :: trace, final, rs2)
    else some ([], roomsList, rs)

/-- The initialisation loop of `main` for room `i`: id, name and counter are
set, the type is fixed by the position, the connection slots keep whatever the
stack held (`slots`). -/
def initRoom (i : Nat) (name : List Char) (slots : List Nat) : Room :=
  { id := i
    name := name
    numOutboundConnections := 0
    outboundConnections := slots
    rType := if i = 0 then RoomType.START_ROOM
             else if i = NUM_ROOMS - 1 then RoomType.END_ROOM
             else RoomType.MID_ROOM }

/-- The array `roomsList` after the initialisation loop of `main`: room `i` takes
entry `i` of the shuffled name list; `stack i` is the uninitialised content of
its six connection slots. -/
def initRooms (roomNames : List (List Char)) (stack : Nat → List Nat) : List Room :=
  (List.range NUM_ROOMS).map (fun i => initRoom i (roomNames.getD i []) (stack i))

/-- Seven rooms with zero connections, each with its six connection slots. -/
def EmptyGraph (g : List Room) : Prop :=
  g.length = 7 ∧ ∀ r ∈ g, r.numOutboundConnections = 0 ∧ r.outboundConnections.length = 6

/-- The connections of room `x`: the first `numOutboundConnections` entries of
its `outboundConnections`. -/
def connections (g : List Room) (x : Nat) : List Nat :=
  match g[x]? with
  | some r => r.outboundConnections.take r.numOutboundConnections
  | none => []

/-- The states reachable from `g0` by completed calls of `AddRandomConnection`. -/
inductive Reachable (g0 : List Room) : List Room → Prop where
  | start : Reachable g0 g0
  | call {g mid next : List Room} {rs rs1 : List Nat} :
      Reachable g0 g → AddRandomConnection rs g NUM_ROOMS = some (mid, next, rs1) →
      Reachable g0 next

/-- The ten room names `main` copies into `roomNames`, in that order. -/
def roomNames : List (List Char) :=
  ["Altuve".toList, "Beltran".toList, "Bregman".toList, "Correa".toList, "Gattis".toList,
   "Gonzalez".toList, "Gurriel".toList, "Keuchel".toList, "Springer".toList,
   "Verlander".toList]

/-- The loop of `RoomNameListShuffle`, `k` iterations from index `i` on:
`j = i + rand() / (RAND_MAX / (n - i) + 1)`, then entries `i` and `j` are
swapped through `tmp`. -/
def shuffleLoop (RAND_MAX n : Nat) :
    Nat → Nat → List Nat → List (List Char) → Option (List (List Char) × List Nat)
  | 0, _, rs, list => some (list, rs)
  | _ + 1, _, [], _ => none
  | k + 1, i, r :: rs, list =>
    match list[i + r / (RAND_MAX / (n - i) + 1)]?, list[i]? with
    | some tmp, some li =>
      shuffleLoop RAND_MAX n k (i + 1) rs
        ((list.set (i + r / (RAND_MAX / (n - i) + 1)) li).set i tmp)
    | _, _ => none

/-- `RoomNameListShuffle`: for `n > 1` the loop runs for `i = 0, ..., n - 2`. -/
def RoomNameListShuffle (RAND_MAX : Nat) (rs : List Nat) (list : List (List Char)) (n : Nat) :
    Option (List (List Char) × List Nat) :=
  if n > 1 then shuffleLoop RAND_MAX n (n - 1) 0 rs list else some (list, rs)

/-- The start of `main` up to the build loop: the name list is shuffled and the
seven rooms are initialised from its first seven entries. -/
def mainInit (RAND_MAX : Nat) (rs : List Nat) (stack : Nat → List Nat) :
    Option (List Room × List Nat) :=
  match RoomNameListShuffle RAND_MAX rs roomNames 10 with
  | none => none
  | some (names, rs1) => some (initRooms names stack, rs1)

/-- Seven rooms, each with six connection slots of which at most six are in use. -/
structure SlotsOK (g : List Room) : Prop where
  len : g.length = 7
  room : ∀ (x : Nat) (r : Room), g[x]? = some r →
    r.outboundConnections.length = 6 ∧ r.numOutboundConnections ≤ 6

/-- The invariant of the builder: connections point to rooms, no room is
connected to itself, connections are symmetric and no connection is listed
twice. -/
structure Inv (g : List Room) : Prop where
  slots : SlotsOK g
  range : ∀ x y, y ∈ connections g x → y < 7
  noSelf : ∀ x, x ∉ connections g x
  sym : ∀ x y, y ∈ connections g x → x ∈ connections g y
  nodup : ∀ x, (connections g x).Nodup

/-- Room `x` lists room `y` among its connections. -/
def Connected (g : List Room) (x y : Nat) : Prop :=
  y ∈ connections g x

/-- There is a path of connections from room `u` to room `v`. -/
def Path (g : List Room) (u v : Nat) : Prop :=
  Relation.ReflTransGen (Connected g) u v

/-- The number of rooms that room `x` is connected to. -/
def degree (g : List Room) (x : Nat) : Nat :=
  (connections g x).toFinset.card

/-- Connection slots that hold no pointer to a room. -/
def demoSlots : List Nat := [1000, 1001, 1002, 1003, 1004, 1005]

/-- A concrete initial array: the unshuffled names, no slot pointing to a room. -/
def demoRooms : List Room := initRooms roomNames (fun _ => demoSlots)

/-- A concrete reachable state: `demoRooms` after one call of
`AddRandomConnection` that connects rooms 0 and 1. -/
def demoGraph : List Room := connectAt (connectAt demoRooms 0 1) 1 0

/-- A concrete sequence of `rand()` values: twelve calls of
`AddRandomConnection`, each accepting its first two picks. -/
def demoRand : List Nat :=
  [0, 1, 0, 2, 0, 3, 1, 2, 1, 3, 2, 3, 4, 5, 4, 6, 5, 6, 4, 0, 5, 1, 6, 2]

end Buildrooms

namespace Buildrooms

/-- `RoomTypeString`. -/
def RoomTypeString : RoomType → List Char
  | RoomType.START_ROOM => "START_ROOM".toList
  | RoomType.MID_ROOM => "MID_ROOM".toList
  | RoomType.END_ROOM => "END_ROOM".toList

/-- The array `fileNames` of `WriteRoomFiles`. -/
def fileNames : List (List Char) :=
  ["room0".toList, "room1".toList, "room2".toList, "room3".toList, "room4".toList,
   "room5".toList, "room6".toList]

/-- What `fprintf` writes for `%d` and a value that is not negative. -/
def decimal (n : Nat) : List Char :=
  Nat.toDigits 10 n

/-- The connection loop of `WriteRoomFiles` for room `x`, `k` iterations from
index `j` on; `file` is what the file holds so far.  Each iteration appends
`fprintf(fp, "CONNECTION %d: %s\n", j + 1, outboundConnections[j]->name)`; `none`
when slot `j` does not point to a room. -/
def writeConnections (roomList : List Room) (x : Room) :
    Nat → Nat → List Char → Option (List Char)
  | 0, _, file => some file
  | k + 1, j, file =>
    match x.outboundConnections[j]? with
    | none => none
    | some p =>
      match roomList[p]? with
      | none => none
      | some y =>
        writeConnections roomList x k (j + 1)
          (file ++ ("CONNECTION ".toList ++ decimal (j + 1) ++ ": ".toList ++ y.name
            ++ "\n".toList))

/-- The body of the loop of `WriteRoomFiles` for room `x`: the content of its
file after the three `fprintf` steps. -/
def writeRoomFile (roomList : List Room) (x : Room) : Option (List Char) :=
  match writeConnections roomList x x.numOutboundConnections 0
      ("ROOM NAME: ".toList ++ x.name ++ "\n".toList) with
  | none => none
  | some file => some (file ++ ("ROOM TYPE: ".toList ++ RoomTypeString x.rType ++ "\n".toList))

/-- The loop of `WriteRoomFiles`, `k` iterations from index `i` on: the files
written, each with its name and content, in the order of writing. -/
def writeRoomFilesFrom (roomList : List Room) :
    Nat → Nat → Option (List (List Char × List Char))
  | 0, _ => some []
  | k + 1, i =>
    match fileNames[i]?, roomList[i]? with
    | some fileName, some x =>
      match writeRoomFile roomList x with
      | none => none
      | some content =>
        match writeRoomFilesFrom roomList k (i + 1) with
        | none => none
        | some files => some ((fileName, content) :: files)
    | _, _ => none

/-- `WriteRoomFiles`: the files it leaves in the working directory (every
`fopen` is taken to succeed). -/
def WriteRoomFiles (roomList : List Room) (listSize : Nat) :
    Option (List (List Char × List Char)) :=
  writeRoomFilesFrom roomList listSize 0

/-- The connection lines of a room file for the given neighbour names, numbered
from `j` on. -/
def connectionLines : Nat → List (List Char) → List (List Char)
  | _, [] => []
  | j, n :: ns =>
    ("CONNECTION ".toList ++ decimal j ++ ": ".toList ++ n) :: connectionLines (j + 1) ns

/-- The room file as the format describes it, a list of lines: the name line,
one line per connection numbered from 1, the type line. -/
def roomFileLines (name : List Char) (neighbours : List (List Char)) (type : List Char) :
    List (List Char) :=
  ("ROOM NAME: ".toList ++ name)
    :: (connectionLines 1 neighbours ++ ["ROOM TYPE: ".toList ++ type])

/-- The name of the room a connection slot points to. -/
def nameAt (g : List Room) (p : Nat) : List Char :=
  match g[p]? with
  | some y => y.name
  | none => []

/-- The names of the rooms that room `x` is connected to, in list order. -/
def neighbourNames (g : List Room) (x : Nat) : List (List Char) :=
  (connections g x).map (nameAt g)

end Buildrooms

namespace Adventure

/-- The macro `NUM_ROOMS`. -/
def NUM_ROOMS : Nat := 7

/-- The struct `room` of the player.  A door is `NULL` (`none`) or a pointer to
a room of the dungeon (its index); `numDoors` is the number of doors in use. -/
structure Room where
  id : Nat
  name : List Char
  numDoors : Nat
  doors : List (Option Nat)
  rt : RoomType
deriving DecidableEq

/-- `isspace` of the C library. -/
def isspace (c : Char) : Bool :=
  c = ' ' || c = '\t' || c = '\n' || c = '\x0b' || c = '\x0c' || c = '\r'

/-- What one call of `fgets` takes from a stream that is not at its end: at most
`n` characters, stopping after a newline.  The result is the characters stored
and the rest of the stream. -/
def readLine : Nat → List Char → List Char × List Char
  | 0, s => ([], s)
  | _ + 1, [] => ([], [])
  | n + 1, c :: s =>
    if c = '\n' then ([c], s) else (c :: (readLine n s).1, (readLine n s).2)

/-- `fgets(buf, size, fp)`: `none` (the `NULL` result, the buffer is left as it
was) at the end of the stream, otherwise the line stored and the rest of the
stream. -/
def fgets (size : Nat) (fp : List Char) : Option (List Char × List Char) :=
  match fp with
  | [] => none
  | _ :: _ => some (readLine (size - 1) fp)

/-- The buffer after a call of `fgets` with result `r`: the line stored, or the
former content `buf` when the result is `NULL`. -/
def bufferAfter (buf : List Char) (r : Option (List Char × List Char)) : List Char :=
  match r with
  | some (line, _) => line
  | none => buf

/-- The stream after a call of `fgets` with result `r`. -/
def streamAfter (fp : List Char) (r : Option (List Char × List Char)) : List Char :=
  match r with
  | some (_, rest) => rest
  | none => fp

/-- The C string held by a buffer: its bytes up to the first NUL byte. -/
def cstr (buf : List Char) : List Char :=
  buf.takeWhile (fun c => c ≠ '\x00')

/-- `strstr(haystack, needle) != NULL`. -/
def strstr : List Char → List Char → Bool
  | [], needle => needle.isEmpty
  | c :: haystack, needle => needle.isPrefixOf (c :: haystack) || strstr haystack needle

/-- The directives of the `sscanf` formats the program uses. -/
inductive Directive where
  | lit (c : Char)
  | space
  | str
  | skipInt
deriving DecidableEq

/-- A format string read as directives: `%s`, `%*d`, white space, and any other
character standing for itself. -/
def parseFormat : List Char → List Directive
  | [] => []
  | '%' :: 's' :: f => Directive.str :: parseFormat f
  | '%' :: '*' :: 'd' :: f => Directive.skipInt :: parseFormat f
  | c :: f => (if isspace c = true then Directive.space else Directive.lit c) :: parseFormat f

/-- The conversion `%*d`: white space is skipped, then an optional sign and at
least one digit are consumed.  `none` when no digit follows. -/
def scanInt (s : List Char) : Option (List Char) :=
  match (match s.dropWhile isspace with
         | '+' :: t => t
         | '-' :: t => t
         | t => t) with
  | [] => none
  | c :: t => if c.isDigit = true then some ((c :: t).dropWhile Char.isDigit) else none

/-- `sscanf(s, format, buf)` for a format with one storing conversion `%s`: the
string stored in `buf`, or `none` when matching stops before anything is
stored. -/
def sscanf : List Char → List Directive → Option (List Char)
  | _, [] => none
  | s, Directive.space :: f => sscanf (s.dropWhile isspace) f
  | s, Directive.lit c :: f =>
    match s with
    | [] => none
    | d :: t => if d = c then sscanf t f else none
  | s, Directive.skipInt :: f =>
    match scanInt s with
    | none => none
    | some t => sscanf t f
  | s, Directive.str :: _ =>
    match (s.dropWhile isspace).takeWhile (fun c => !isspace c) with
    | [] => none
    | c :: w => some (c :: w)

/-- The buffer after `sscanf(line, format, buf)`: the string stored, or the
former content when nothing was stored. -/
def scanInto (buf line : List Char) (format : String) : List Char :=
  match sscanf line (parseFormat format.toList) with
  | some w => w
  | none => buf

/-- A string that `%s` reads back whole: not empty, free of white space and of
NUL bytes. -/
def Word (w : List Char) : Prop :=
  w ≠ [] ∧ (∀ c ∈ w, isspace c = false) ∧ '\x00' ∉ w

/-- A string of decimal digits, not empty. -/
def Digits (d : List Char) : Prop :=
  d ≠ [] ∧ ∀ c ∈ d, c.isDigit = true

instance (w : List Char) : Decidable (Word w) := by
  unfold Word
  exact inferInstance

instance (d : List Char) : Decidable (Digits d) := by
  unfold Digits
  exact inferInstance

/-- `GetRoomTypeFromString`. -/
def GetRoomTypeFromString (rts : List Char) : RoomType :=
  if rts = "START_ROOM".toList then RoomType.START_ROOM
  else if rts = "MID_ROOM".toList then RoomType.MID_ROOM
  else RoomType.END_ROOM

/-- `GetRoomPtrFromName`: the pointer to the first of the `NUM_ROOMS` rooms whose
name compares equal to `rName`, `NULL` when there is none. -/
def GetRoomPtrFromName (rName : List Char) (dungeon : List Room) : Option Nat :=
  (dungeon.take NUM_ROOMS).findIdx? (fun r => decide (rName = r.name))

/-- The loop `while (fgets(curLine, ..)) { if (strstr(curLine, "ROOM TYPE") != NULL) break; }`
of `ParseRoomFile`: the content of `curLine` when the loop is left. -/
def skipToRoomType : Nat → List Char → List Char → List Char
  | 0, _, curLine => curLine
  | fuel + 1, fp, curLine =>
    match fgets 80 fp with
    | none => curLine
    | some (line, fp1) =>
      if strstr (cstr line) "ROOM TYPE".toList = true then line
      else skipToRoomType fuel fp1 line

/-- `ParseRoomFile` on a stream `fp`.  The buffers are read as C strings.  The
three buffers start cleared by the `memset` calls; the calls on `roomName` and
`roomType` are given `sizeof(curLine)`, 80 bytes for arrays of 20, and the
embedding takes the 60 bytes cleared past each array to hold nothing the function
uses afterwards, as where the program runs.  `none` when the word scanned into
`roomName[20]` or `roomType[20]` does not fit its array with the NUL byte, the
overrun that `strcpy` then carries into `name[20]` of the struct.  Every `fgets`
of the loop takes at least one character, so `fp.length + 1` iterations reach the
end of the stream. -/
def ParseRoomFile (fp : List Char) (roomStruct : Room) : Option Room :=
  let curLine := bufferAfter [] (fgets 80 fp)
  let fp1 := streamAfter fp (fgets 80 fp)
  let roomName := scanInto [] (cstr curLine) "ROOM NAME: %s\n"
  let roomType :=
    scanInto [] (cstr (skipToRoomType (fp1.length + 1) fp1 curLine)) "ROOM TYPE: %s\n"
  if roomName.length < 20 ∧ roomType.length < 20 then
    some { roomStruct with name := roomName, rt := GetRoomTypeFromString roomType }
  else none

/-- The loop of `ParseRoomConnections`.  A line whose C string has the marker
`CONNECTION` is scanned into `doorRoom`, and the pointer found for that name is stored in door
slot `conIndex` of room `roomIndex`; `none` when that slot lies outside the six
slots of the array. -/
def connectionsLoop (roomIndex : Nat) :
    Nat → List Char → List Room → Nat → List Char → Option (List Room)
  | 0, _, dungeon, _, _ => some dungeon
  | fuel + 1, fp, dungeon, conIndex, doorRoom =>
    match fgets 80 fp with
    | none => some dungeon
    | some (curLine, fp1) =>
      if strstr (cstr curLine) "CONNECTION".toList = true then
        match dungeon[roomIndex]? with
        | none => none
        | some x =>
          if conIndex < x.doors.length then
            connectionsLoop roomIndex fuel fp1
              (dungeon.set roomIndex
                { x with
                  doors := x.doors.set conIndex
                    (GetRoomPtrFromName (scanInto doorRoom (cstr curLine) "CONNECTION %*d: %s\n")
                      dungeon)
                  numDoors := x.numDoors + 1 })
              (conIndex + 1) (scanInto doorRoom (cstr curLine) "CONNECTION %*d: %s\n")
          else none
      else connectionsLoop roomIndex fuel fp1 dungeon conIndex doorRoom

/-- `ParseRoomConnections`: the first `fgets` skips the name line, then the loop
runs to the end of the stream. -/
def ParseRoomConnections (fp : List Char) (dungeon : List Room) (roomIndex : Nat) :
    Option (List Room) :=
  match fgets 80 fp with
  | none => connectionsLoop roomIndex 1 fp dungeon 0 []
  | some (_, fp1) => connectionsLoop roomIndex (fp1.length + 1) fp1 dungeon 0 []

/-- The file name `sprintf(roomFile, "room%d", i)` builds. -/
def roomFileName (i : Nat) : List Char :=
  "room".toList ++ Nat.toDigits 10 i

/-- The first loop of `BuildDungeon`, `k` iterations from index `i` on; `dir`
gives the content of a file of the rooms directory by name.  `none` when a file
cannot be opened. -/
def readRooms (dir : List Char → Option (List Char)) :
    Nat → Nat → List Room → Option (List Room)
  | 0, _, dungeon => some dungeon
  | k + 1, i, dungeon =>
    match dungeon[i]?, dir (roomFileName i) with
    | some x, some fp =>
      match ParseRoomFile fp { x with id := i, numDoors := 0 } with
      | some x1 => readRooms dir k (i + 1) (dungeon.set i x1)
      | none => none
    | _, _ => none

/-- The second loop of `BuildDungeon`, `k` iterations from index `i` on. -/
def connectRooms (dir : List Char → Option (List Char)) :
    Nat → Nat → List Room → Option (List Room)
  | 0, _, dungeon => some dungeon
  | k + 1, i, dungeon =>
    match dir (roomFileName i) with
    | none => none
    | some fp =>
      match ParseRoomConnections fp dungeon i with
      | none => none
      | some dungeon1 => connectRooms dir k (i + 1) dungeon1

/-- The two loops of `BuildDungeon` over the files of the rooms directory. -/
def BuildDungeon (dir : List Char → Option (List Char)) (dungeon : List Room) :
    Option (List Room) :=
  match readRooms dir NUM_ROOMS 0 dungeon with
  | none => none
  | some dungeon1 => connectRooms dir NUM_ROOMS 0 dungeon1

/-- A directory holding the given files: the content of the first file of that
name. -/
def directory (files : List (List Char × List Char)) (name : List Char) : Option (List Char) :=
  match files.find? (fun f => decide (f.1 = name)) with
  | some f => some f.2
  | none => none

/-- The doors of room `x`: the first `numDoors` entries of its `doors`. -/
def doorsOf (dungeon : List Room) (x : Nat) : List (Option Nat) :=
  match dungeon[x]? with
  | some r => r.doors.take r.numDoors
  | none => []

/-- The name of the room a door points to. -/
def doorName (dungeon : List Room) (door : Option Nat) : Option (List Char) :=
  match door with
  | none => none
  | some p =>
    match dungeon[p]? with
    | some y => some y.name
    | none => none

/-- A line of a room file below the name line: a connection line
`CONNECTION <number>: <name>`, or a line with some other text. -/
inductive FileLine where
  | connection (number name : List Char)
  | other (text : List Char)

/-- The text of a line, without its newline. -/
def FileLine.text : FileLine → List Char
  | FileLine.connection number name =>
    "CONNECTION ".toList ++ number ++ ": ".toList ++ name
  | FileLine.other text => text

/-- The names on the connection lines, in file order. -/
def connectionNames : List FileLine → List (List Char)
  | [] => []
  | FileLine.connection _ name :: ls => name :: connectionNames ls
  | FileLine.other _ :: ls => connectionNames ls

/-- A line the decoder is meant for.  A connection line carries a number and
names a room of the dungeon, and with its newline it fits the line buffer
`curLine[80]` (as it does whenever the number is an `int` and the name fits
`name[20]`).  Any other line is free of the marker `CONNECTION`; it may have any
length. -/
def FileLine.WellFormed (dungeon : List Room) : FileLine → Prop
  | FileLine.connection number name =>
    Digits number ∧ Word name ∧ GetRoomPtrFromName name dungeon ≠ none
      ∧ (FileLine.connection number name).text.length < 79
  | FileLine.other text =>
    '\n' ∉ text ∧ strstr text "CONNECTION".toList = false

instance (dungeon : List Room) : (l : FileLine) → Decidable (l.WellFormed dungeon)
  | FileLine.connection number name => by
    unfold FileLine.WellFormed
    exact inferInstance
  | FileLine.other text => by
    unfold FileLine.WellFormed
    exact inferInstance

/-- The connection lines the generator writes for the given neighbour names,
numbered from `j` on. -/
def writtenConnections : Nat → List (List Char) → List FileLine
  | _, [] => []
  | j, n :: ns => FileLine.connection (Nat.toDigits 10 j) n :: writtenConnections (j + 1) ns

/-- The names of the rooms behind the doors of room `x`, in door order. -/
def neighbourNames (dungeon : List Room) (x : Nat) : List (List Char) :=
  (doorsOf dungeon x).map (fun door => match doorName dungeon door with
    | some n => n
    | none => [])

/-- The door loop of `GetUserResponse`, `k` iterations from index `i` on:
`true` as soon as `uEntry` compares equal to the name of door `i`, `false` when
the loop ends; `none` when a door is not a pointer to a room. -/
def doorLoop (dungeon : List Room) (location : Room) (uEntry : List Char) :
    Nat → Nat → Option Bool
  | 0, _ => some false
  | k + 1, i =>
    match location.doors[i]? with
    | some (some p) =>
      match dungeon[p]? with
      | some y => if uEntry = y.name then some true else doorLoop dungeon location uEntry k (i + 1)
      | none => none
    | _ => none

/-- The message `GetUserResponse` prints for an entry it rejects. -/
def huh : List Char :=
  "\nHUH? I DON'T UNDERSTAND THAT ROOM. TRY AGAIN.\n".toList

/-- The result of `GetUserResponse`: the value returned, the content of `uEntry`,
the rest of `stdin` and what was printed. -/
structure Response where
  result : Bool
  uEntry : List Char
  stdin : List Char
  printed : List Char
deriving DecidableEq

/-- `GetUserResponse`; `uEntry` is the content of the buffer on entry and
`location` the pointer to the current room.  The entry is the C string of the
buffer cut at its first newline (`strcspn`). -/
def GetUserResponse (uEntry : List Char) (stdin : List Char) (dungeon : List Room)
    (location : Nat) : Option Response :=
  let line := bufferAfter uEntry (fgets 200 stdin)
  let rest := streamAfter stdin (fgets 200 stdin)
  let entry := (cstr line).takeWhile (fun c => c ≠ '\n')
  match dungeon[location]? with
  | none => none
  | some loc =>
    match (if GetRoomPtrFromName entry dungeon ≠ none then
             doorLoop dungeon loc entry loc.numDoors 0
           else some false) with
    | none => none
    | some true => some { result := true, uEntry := entry, stdin := rest, printed := [] }
    | some false =>
      if entry = "time".toList then
        some { result := true, uEntry := entry, stdin := rest, printed := [] }
      else some { result := false, uEntry := entry, stdin := rest, printed := huh }

/-- A dungeon array before `BuildDungeon`: seven rooms with arbitrary content. -/
def demoDungeon0 : List Room :=
  List.replicate 7
    { id := 42, name := "junk".toList, numDoors := 9, doors := List.replicate 6 (some 3),
      rt := RoomType.MID_ROOM }

/-- A concrete loaded dungeon: seven rooms in a ring, room 0 also leading to
room 3. -/
def demoDungeon : List Room :=
  [ { id := 0, name := "Altuve".toList, numDoors := 3,
      doors := [some 1, some 6, some 3, none, none, none], rt := RoomType.START_ROOM },
    { id := 1, name := "Beltran".toList, numDoors := 2,
      doors := [some 0, some 2, none, none, none, none], rt := RoomType.MID_ROOM },
    { id := 2, name := "Bregman".toList, numDoors := 2,
      doors := [some 1, some 3, none, none, none, none], rt := RoomType.MID_ROOM },
    { id := 3, name := "Correa".toList, numDoors := 3,
      doors := [some 2, some 4, some 0, none, none, none], rt := RoomType.MID_ROOM },
    { id := 4, name := "Gattis".toList, numDoors := 2,
      doors := [some 3, some 5, none, none, none, none], rt := RoomType.MID_ROOM },
    { id := 5, name := "Gonzalez".toList, numDoors := 2,
      doors := [some 4, some 6, none, none, none, none], rt := RoomType.MID_ROOM },
    { id := 6, name := "Gurriel".toList, numDoors := 2,
      doors := [some 5, some 0, none, none, none, none], rt := RoomType.END_ROOM } ]

/-- A room as `BuildDungeon` hands it to `ParseRoomConnections`: named, with no
door yet. -/
def demoRoom : Room :=
  { id := 4, name := "Gattis".toList, numDoors := 0,
    doors := [some 9, none, some 9, none, some 9, none], rt := RoomType.MID_ROOM }

/-- The lines below the name line of a room file: a line of 100 characters that
is no field of the format, then the type line between two connection lines. -/
def demoLines : List FileLine :=
  [ FileLine.other (List.replicate 100 '#'),
    FileLine.connection "1".toList "Correa".toList,
    FileLine.other "ROOM TYPE: MID_ROOM".toList,
    FileLine.connection "2".toList "Gonzalez".toList ]

end Adventure

namespace Buildrooms

/-- The types as the initialisation loop of `main` sets them: seven rooms, room
`i` with id `i`, room 0 of type `START_ROOM`, room 6 of type `END_ROOM`, rooms 1
to 5 of type `MID_ROOM`. -/
def TypedByPosition (g : List Room) : Prop :=
  g.length = 7 ∧ ∀ (i : Nat) (r : Room), g[i]? = some r →
    r.id = i ∧ (r.rType = RoomType.START_ROOM ↔ i = 0) ∧ (r.rType = RoomType.END_ROOM ↔ i = 6)
      ∧ (r.rType = RoomType.MID_ROOM ↔ 1 ≤ i ∧ i ≤ 5)

/-- The array after `k` calls of `AddRandomConnection` one after the other, with
the unused `rand()` values; `none` when one of the calls does not complete. -/
def runCalls : Nat → List Nat → List Room → Option (List Room × List Nat)
  | 0, rs, g => some (g, rs)
  | k + 1, rs, g =>
    match AddRandomConnection rs g NUM_ROOMS with
    | none => none
    | some (_, next, rs1) => runCalls k rs1 next

/-- A room with one connection, to room 3, whose next slot happens to hold a
pointer to room 5. -/
def staleRoom : Room :=
  { id := 0, name := "Altuve".toList, numOutboundConnections := 1,
    outboundConnections := [3, 5, 1002, 1003, 1004, 1005], rType := RoomType.START_ROOM }

/-- The room `staleRoom` with another value in the slot after its connection. -/
def freshRoom : Room :=
  { staleRoom with outboundConnections := [3, 1001, 1002, 1003, 1004, 1005] }

/-- A concrete initial array: no connections, and the last slot of room 0
happens to hold a pointer to room 6. -/
def staleRooms : List Room :=
  initRooms roomNames (fun i => if i = 0 then [1000, 1001, 1002, 1003, 1004, 6] else demoSlots)

/-- The `rand()` values of five calls that connect room 0 to rooms 1 to 5. -/
def staleRand : List Nat := [0, 1, 0, 2, 0, 3, 0, 4, 0, 5]

/-- The array five calls on `staleRand` lead to from `staleRooms`. -/
def staleState : List Room :=
  match runCalls 5 staleRand staleRooms with
  | some (g, _) => g
  | none => []

/-- The swap index of `RoomNameListShuffle` at loop index `i` for the `rand()`
value `r`: `j = i + r / (RAND_MAX / (n - i) + 1)`, with integer division. -/
def swapIndex (RAND_MAX n i r : Nat) : Nat :=
  i + r / (RAND_MAX / (n - i) + 1)

/-- The loop of `RoomNameListShuffle` as `shuffleLoop`, which also records the
pair `(i, j)` of every iteration, in order. -/
def shuffleSteps (RAND_MAX n : Nat) :
    Nat → Nat → List Nat → List (List Char)
      → Option (List (Nat × Nat) × List (List Char) × List Nat)
  | 0, _, rs, list => some ([], list, rs)
  | _ + 1, _, [], _ => none
  | k + 1, i, r :: rs, list =>
    match list[swapIndex RAND_MAX n i r]?, list[i]? with
    | some tmp, some li =>
      match shuffleSteps RAND_MAX n k (i + 1) rs
          ((list.set (swapIndex RAND_MAX n i r) li).set i tmp) with
      | some (steps, out, rest) => some ((i, swapIndex RAND_MAX n i r) :: steps, out, rest)
      | none => none
    | _, _ => none

/-- `RoomNameListShuffle` with the record of its iterations: none when
`n <= 1`. -/
def shuffleRun (RAND_MAX : Nat) (rs : List Nat) (list : List (List Char)) (n : Nat) :
    Option (List (Nat × Nat) × List (List Char) × List Nat) :=
  if n > 1 then shuffleSteps RAND_MAX n (n - 1) 0 rs list else some ([], list, rs)

/-- Nine concrete `rand()` values below `RAND_MAX = 32767`. -/
def shuffleRand : List Nat := [5, 32767, 0, 20000, 7, 12345, 30000, 1, 2]

/-- The sum of `numOutboundConnections` over the rooms of the array. -/
def totalConnections (g : List Room) : Nat :=
  (g.map Room.numOutboundConnections).sum

/-- The room file as the format describes it, a list of lines: the line
`ROOM NAME: <name>`, then a line `CONNECTION <j>: <name>` for each neighbour,
`j` counting from 1 in decimal, then the line `ROOM TYPE: ` with `START_ROOM`,
`MID_ROOM` or `END_ROOM` according to the type. -/
def formatLines (name : List Char) (neighbours : List (List Char)) (type : RoomType) :
    List (List Char) :=
  ("ROOM NAME: ".toList ++ name)
    :: ((neighbours.enumFrom 1).map
          (fun p => "CONNECTION ".toList ++ (Nat.repr p.1).toList ++ ": ".toList ++ p.2)
        ++ ["ROOM TYPE: ".toList ++
              (match type with
               | RoomType.START_ROOM => "START_ROOM".toList
               | RoomType.MID_ROOM => "MID_ROOM".toList
               | RoomType.END_ROOM => "END_ROOM".toList)])

end Buildrooms

namespace Adventure

/-- The conversion `(int)` of a `time_t` value: the value modulo `2 ^ 32`, taken
in the range of a 32-bit `int`. -/
def toInt32 (t : Int) : Int :=
  (t + 2147483648) % 4294967296 - 2147483648

/-- The loop of `GetRoomsDirectoryName` over the entries `readdir` returns, each
with its `d_name` and the `st_mtime` that `stat` reports for it; `newestDirTime`
and `newestDirName` are the two variables the loop updates.  The result is
`newestDirName` when the loop ends. -/
def newestLoop : List (List Char × Int) → Int → List Char → List Char
  | [], _, newestDirName => newestDirName
  | (d_name, st_mtime) :: entries, newestDirTime, newestDirName =>
    if strstr d_name "kilgorep.rooms".toList = true then
      if st_mtime > newestDirTime then newestLoop entries (toInt32 st_mtime) d_name
      else newestLoop entries newestDirTime newestDirName
    else newestLoop entries newestDirTime newestDirName

/-- `GetRoomsDirectoryName`: the string copied to `dirName`, given the entries of
the directory in scan order. -/
def GetRoomsDirectoryName (entries : List (List Char × Int)) : List Char :=
  newestLoop entries (-1) []

/-- The name `name` is the choice the directory contract describes: it is the
name of an entry that contains `kilgorep.rooms`, no such entry has a greater
modification time, and every such entry earlier in scan order has a smaller
one. -/
def Newest (entries : List (List Char × Int)) (name : List Char) : Prop :=
  ∃ (i : Nat) (t : Int), entries[i]? = some (name, t)
    ∧ strstr name "kilgorep.rooms".toList = true
    ∧ (∀ e ∈ entries, strstr e.1 "kilgorep.rooms".toList = true → e.2 ≤ t)
    ∧ ∀ (j : Nat) (e : List Char × Int), j < i → entries[j]? = some e →
        strstr e.1 "kilgorep.rooms".toList = true → e.2 < t

/-- Two rooms directories, the first modified at second `2 ^ 31` (in January
2038), the second at second 0. -/
def lateEntries : List (List Char × Int) :=
  [("kilgorep.rooms.1".toList, 2147483648), ("kilgorep.rooms.2".toList, 0)]

/-- Four directory entries with times an `int` holds, two of them sharing the
greatest time. -/
def demoEntries : List (List Char × Int) :=
  [("notes".toList, 900), ("kilgorep.rooms.7".toList, 500), ("kilgorep.rooms.8".toList, 700),
   ("kilgorep.rooms.9".toList, 700)]

/-- A room file whose first line has 99 characters, the last 20 of them reading
`CONNECTION 1: Correa`; no line below the first has the marker. -/
def longFirstFile : List Char :=
  unlines [ "ROOM NAME: Gattis".toList ++ List.replicate 62 ' ' ++ "CONNECTION 1: Correa".toList,
            "ROOM TYPE: MID_ROOM".toList ]

/-- A room file whose connection line, with a number of 71 digits, has 90
characters. -/
def longNumberFile : List Char :=
  unlines [ "ROOM NAME: Gattis".toList,
            "CONNECTION ".toList ++ List.replicate 70 '0' ++ "1: Correa".toList,
            "ROOM TYPE: MID_ROOM".toList ]

/-- A room file with one connection line, to room `Correa`. -/
def plainFile : List Char :=
  unlines [ "ROOM NAME: Gattis".toList, "CONNECTION 1: Correa".toList,
            "ROOM TYPE: MID_ROOM".toList ]

/-- A room file whose only line with `ROOM TYPE` does not start with it. -/
def offsetTypeFile : List Char :=
  unlines [ "ROOM NAME: Gattis".toList, "xROOM TYPE: MID_ROOM".toList ]

/-- A room file whose name has 20 characters. -/
def longNameFile : List Char :=
  unlines [ "ROOM NAME: ".toList ++ List.replicate 20 'A', "ROOM TYPE: MID_ROOM".toList ]

/-- A room file whose type word has 20 characters. -/
def longTypeFile : List Char :=
  unlines [ "ROOM NAME: Gattis".toList, "ROOM TYPE: ".toList ++ List.replicate 20 'A' ]

/-- The dungeon `demoDungeon` with room 4 as `demoRoom` and the name of room 3
written in two words. -/
def spaceDungeon : List Room :=
  (demoDungeon.set 4 demoRoom).set 3
    { id := 3, name := "Cor rea".toList, numDoors := 3,
      doors := [some 2, some 4, some 0, none, none, none], rt := RoomType.MID_ROOM }

/-- A room file with one connection line, to the room named `Cor rea`. -/
def spaceFile : List Char :=
  unlines [ "ROOM NAME: Gattis".toList, "CONNECTION 1: Cor rea".toList,
            "ROOM TYPE: MID_ROOM".toList ]

/-- A room file whose first line has the words `ROOM NAME:` but does not start
with them. -/
def offsetNameFile : List Char :=
  unlines [ "xROOM NAME: Gattis".toList, "ROOM TYPE: MID_ROOM".toList ]

/-- A room file with a NUL byte inside the name. -/
def nulNameFile : List Char :=
  unlines [ "ROOM NAME: Gat\x00tis".toList, "ROOM TYPE: MID_ROOM".toList ]

end Adventure

/-! ## Files as lists of lines -/

theorem unlines_cons (l : List Char) (ls : List (List Char)) :
    unlines (l :: ls) = l ++ '\n' :: unlines ls := by
  simp [unlines]

theorem length_le_unlines (ls : List (List Char)) : ls.length ≤ (unlines ls).length := by
  induction ls with
  | nil => simp [unlines]
  | cons l ls ih =>
    rw [unlines_cons]
    simp only [List.length_cons, List.length_append]
    omega

theorem unlines_nil : unlines [] = [] := rfl

theorem unlines_append (a b : List (List Char)) : unlines (a ++ b) = unlines a ++ unlines b := by
  simp [unlines]

theorem unlines_singleton (l : List Char) : unlines [l] = l ++ ['\n'] := by
  simp [unlines]

/-! ## The builder: invariants of the room graph -/

namespace Buildrooms

theorem take_set_self {α : Type} (l : List α) (k : Nat) (y : α) : (l.set k y).take k = l.take k := by
  apply List.ext_getElem?
  intro i
  simp only [List.getElem?_take, List.getElem?_set]
  by_cases h : i < k
  · have : k ≠ i := by omega
    simp [h, this]
  · simp [h]

theorem take_set_succ {α : Type} (l : List α) (k : Nat) (y : α) (h : k < l.length) :
    (l.set k y).take (k + 1) = l.take k ++ [y] := by
  rw [List.take_succ, take_set_self]
  simp [h]

theorem connections_eq {g : List Room} {x : Nat} {r : Room} (h : g[x]? = some r) :
    connections g x = r.outboundConnections.take r.numOutboundConnections := by
  simp [connections, h]

theorem connections_connectAt {g : List Room} {x y : Nat} {rx : Room}
    (hx : g[x]? = some rx) (hk : rx.numOutboundConnections < rx.outboundConnections.length)
    (z : Nat) :
    connections (connectAt g x y) z
      = if z = x then connections g x ++ [y] else connections g z := by
  have hlt : x < g.length := by
    rcases List.getElem?_eq_some_iff.1 hx with ⟨h, _⟩
    exact h
  by_cases hz : z = x
  · subst hz
    simp only [connectAt, hx, connections, List.getElem?_set, hlt, if_true]
    simp [ConnectRoom, take_set_succ _ _ _ hk]
  · have hz2 : ¬ x = z := fun h => hz h.symm
    simp only [connectAt, hx, connections, List.getElem?_set, hz, hz2, if_false]

theorem not_mem_of_ConnectionAlreadyExists {a : Room} {y : Nat}
    (h : ConnectionAlreadyExists a y = false) :
    y ∉ a.outboundConnections.take a.numOutboundConnections := by
  unfold ConnectionAlreadyExists at h
  by_cases hk : a.numOutboundConnections > 0
  · rw [if_pos hk] at h
    rw [List.any_eq_false] at h
    intro hmem
    rcases List.mem_take_iff_getElem.1 hmem with ⟨i, hi, hy⟩
    have hi1 : i < a.numOutboundConnections := lt_of_lt_of_le hi (min_le_left _ _)
    have hi2 : i < a.outboundConnections.length := lt_of_lt_of_le hi (min_le_right _ _)
    have := h i (List.mem_range.2 (by omega))
    apply this
    simp [List.getElem?_eq_getElem hi2, hy]
  · have : a.numOutboundConnections = 0 := by omega
    simp [this]

theorem chooseA_spec {g : List Room} {n : Nat} {rs rs1 : List Nat} {A : Nat}
    (h : chooseA g n rs = some (A, rs1)) :
    ∃ a, g[A]? = some a ∧ a.numOutboundConnections < 6 := by
  induction rs with
  | nil => simp [chooseA] at h
  | cons r rs ih =>
    unfold chooseA at h
    cases hr : g[GetRandomRoom r n]? with
    | none => simp [hr] at h
    | some a =>
      rw [hr] at h
      simp only at h
      by_cases hc : CanAddConnectionFrom a = true
      · rw [if_pos hc] at h
        simp only [Option.some.injEq, Prod.mk.injEq] at h
        refine ⟨a, ?_, ?_⟩
        · rw [← h.1]; exact hr
        · unfold CanAddConnectionFrom at hc
          by_contra hn
          simp [NUM_ROOMS, hn] at hc
      · rw [if_neg hc] at h
        exact ih h

theorem chooseB_spec {g : List Room} {n : Nat} {rs rs2 : List Nat} {A B : Nat} {a : Room}
    (h : chooseB g n A a rs = some (B, rs2)) :
    ∃ b, g[B]? = some b ∧ b.numOutboundConnections < 6 ∧ A ≠ B
      ∧ ConnectionAlreadyExists a B = false := by
  induction rs with
  | nil => simp [chooseB] at h
  | cons r rs ih =>
    unfold chooseB at h
    cases hr : g[GetRandomRoom r n]? with
    | none => simp [hr] at h
    | some b =>
      rw [hr] at h
      simp only at h
      split at h
      · exact ih h
      · rename_i hc
        simp only [Option.some.injEq, Prod.mk.injEq] at h
        simp only [Bool.or_eq_true, not_or, Bool.not_eq_true] at hc
        obtain ⟨⟨h1, h2⟩, h3⟩ := hc
        rw [h.1] at h2 h3 hr
        refine ⟨b, hr, ?_, ?_, by simpa using h3⟩
        · unfold CanAddConnectionFrom at h1
          by_contra hn
          simp [NUM_ROOMS, hn] at h1
        · intro hab
          simp [IsSameRoom, hab] at h2

theorem getElem?_connectAt {g : List Room} {x y : Nat} {rx : Room} (hx : g[x]? = some rx)
    (z : Nat) :
    (connectAt g x y)[z]? = if z = x then some (ConnectRoom rx y) else g[z]? := by
  have hlt : x < g.length := (List.getElem?_eq_some_iff.1 hx).1
  by_cases hz : z = x
  · subst hz
    simp [connectAt, hx, List.getElem?_set, hlt]
  · have hz2 : ¬ x = z := fun h => hz h.symm
    simp [connectAt, hx, List.getElem?_set, hz, hz2]

theorem length_connectAt (g : List Room) (x y : Nat) : (connectAt g x y).length = g.length := by
  unfold connectAt
  split <;> simp

theorem SlotsOK_connectAt {g : List Room} {x y : Nat} {rx : Room} (hg : SlotsOK g)
    (hx : g[x]? = some rx) (hk : rx.numOutboundConnections < 6) :
    SlotsOK (connectAt g x y) := by
  refine ⟨by rw [length_connectAt]; exact hg.len, ?_⟩
  intro z r hz
  rw [getElem?_connectAt hx] at hz
  by_cases hzx : z = x
  · rw [if_pos hzx] at hz
    have hr : r = ConnectRoom rx y := by injection hz with h; exact h.symm
    subst hr
    have := hg.room x rx hx
    simp only [ConnectRoom, List.length_set]
    omega
  · rw [if_neg hzx] at hz
    exact hg.room z r hz

theorem chooseRooms_spec {g : List Room} {n : Nat} {rs rs2 : List Nat} {A B : Nat}
    (h : chooseRooms rs g n = some (A, B, rs2)) :
    ∃ a b, g[A]? = some a ∧ g[B]? = some b ∧ a.numOutboundConnections < 6
      ∧ b.numOutboundConnections < 6 ∧ A ≠ B ∧ B ∉ connections g A := by
  unfold chooseRooms at h
  cases hA : chooseA g n rs with
  | none => simp [hA] at h
  | some p =>
    obtain ⟨A1, rs1⟩ := p
    rw [hA] at h
    simp only at h
    obtain ⟨a, ha, hak⟩ := chooseA_spec hA
    rw [ha] at h
    simp only at h
    cases hB : chooseB g n A1 a rs1 with
    | none => simp [hB] at h
    | some q =>
      obtain ⟨B1, rs3⟩ := q
      rw [hB] at h
      simp only [Option.some.injEq, Prod.mk.injEq] at h
      obtain ⟨b, hb, hbk, hne, hc⟩ := chooseB_spec hB
      obtain ⟨h1, h2, _⟩ := h
      subst h1; subst h2
      refine ⟨a, b, ha, hb, hak, hbk, hne, ?_⟩
      rw [connections_eq ha]
      exact not_mem_of_ConnectionAlreadyExists hc

theorem connections_connect_both {g : List Room} {A B : Nat} {a b : Room}
    (hg : SlotsOK g) (ha : g[A]? = some a) (hb : g[B]? = some b)
    (hak : a.numOutboundConnections < 6) (hbk : b.numOutboundConnections < 6) (hne : A ≠ B)
    (z : Nat) :
    connections (connectAt (connectAt g A B) B A) z
      = if z = B then connections g B ++ [A]
        else if z = A then connections g A ++ [B] else connections g z := by
  have hb1 : (connectAt g A B)[B]? = some b := by
    rw [getElem?_connectAt ha, if_neg (Ne.symm hne)]; exact hb
  have hla := (hg.room A a ha).1
  have hlb := (hg.room B b hb).1
  rw [connections_connectAt hb1 (by omega), connections_connectAt ha (by omega),
    connections_connectAt ha (by omega), if_neg (Ne.symm hne)]

theorem Inv_connect_both {g : List Room} {A B : Nat} {a b : Room}
    (hg : Inv g) (ha : g[A]? = some a) (hb : g[B]? = some b)
    (hak : a.numOutboundConnections < 6) (hbk : b.numOutboundConnections < 6) (hne : A ≠ B)
    (hnc : B ∉ connections g A) :
    Inv (connectAt (connectAt g A B) B A) := by
  have hb1 : (connectAt g A B)[B]? = some b := by
    rw [getElem?_connectAt ha, if_neg (Ne.symm hne)]; exact hb
  have hA7 : A < 7 := by
    have := (List.getElem?_eq_some_iff.1 ha).1; rw [hg.slots.len] at this; exact this
  have hB7 : B < 7 := by
    have := (List.getElem?_eq_some_iff.1 hb).1; rw [hg.slots.len] at this; exact this
  have hnc2 : A ∉ connections g B := fun h => hnc (hg.sym B A h)
  have key := connections_connect_both hg.slots ha hb hak hbk hne
  refine ⟨SlotsOK_connectAt (SlotsOK_connectAt hg.slots ha hak) hb1 hbk, ?_, ?_, ?_, ?_⟩
  · intro x y hy
    rw [key] at hy
    split at hy
    · rcases List.mem_append.1 hy with h | h
      · exact hg.range _ _ h
      · simp at h; omega
    · split at hy
      · rcases List.mem_append.1 hy with h | h
        · exact hg.range _ _ h
        · simp at h; omega
      · exact hg.range _ _ hy
  · intro x hx
    rw [key] at hx
    split at hx
    · rename_i hxB
      subst hxB
      rcases List.mem_append.1 hx with h | h
      · exact hg.noSelf _ h
      · simp at h; exact hne h.symm
    · split at hx
      · rename_i hxA
        subst hxA
        rcases List.mem_append.1 hx with h | h
        · exact hg.noSelf _ h
        · simp at h; exact hne h
      · exact hg.noSelf _ hx
  · intro x y hy
    rw [key] at hy
    rw [key]
    by_cases hxB : x = B
    · subst hxB
      rw [if_pos rfl] at hy
      rcases List.mem_append.1 hy with h | h
      · have hyx := hg.sym _ _ h
        have hyB : y ≠ x := fun e => hg.noSelf x (e ▸ h)
        rw [if_neg hyB]
        by_cases hyA : y = A
        · rw [if_pos hyA]; subst hyA; exact List.mem_append_left _ hyx
        · rw [if_neg hyA]; exact hyx
      · simp at h
        subst h
        rw [if_neg hne, if_pos rfl]
        simp
    · rw [if_neg hxB] at hy
      by_cases hxA : x = A
      · subst hxA
        rw [if_pos rfl] at hy
        rcases List.mem_append.1 hy with h | h
        · have hyx := hg.sym _ _ h
          by_cases hyB : y = B
          · rw [if_pos hyB]; subst hyB; exact List.mem_append_left _ hyx
          · rw [if_neg hyB]
            have hyA : y ≠ x := fun e => hg.noSelf x (e ▸ h)
            rw [if_neg hyA]; exact hyx
        · simp at h
          subst h
          rw [if_pos rfl]
          simp
      · rw [if_neg hxA] at hy
        have hyx := hg.sym _ _ hy
        by_cases hyB : y = B
        · rw [if_pos hyB]; subst hyB; exact List.mem_append_left _ hyx
        · rw [if_neg hyB]
          by_cases hyA : y = A
          · rw [if_pos hyA]; subst hyA; exact List.mem_append_left _ hyx
          · rw [if_neg hyA]; exact hyx
  · intro x
    rw [key]
    split
    · rw [List.nodup_append]
      refine ⟨hg.nodup _, by simp, ?_⟩
      intro y hy1 hy2
      simp at hy2; subst hy2; exact hnc2 hy1
    · split
      · rw [List.nodup_append]
        refine ⟨hg.nodup _, by simp, ?_⟩
        intro y hy1 hy2
        simp at hy2; subst hy2; exact hnc hy1
      · exact hg.nodup _

theorem Inv_of_EmptyGraph {g : List Room} (h : EmptyGraph g) : Inv g := by
  have hc : ∀ x, connections g x = [] := by
    intro x
    unfold connections
    cases hx : g[x]? with
    | none => rfl
    | some r =>
      have := (h.2 r (List.getElem?_mem hx)).1
      simp [this]
  refine ⟨⟨h.1, ?_⟩, ?_, ?_, ?_, ?_⟩
  · intro x r hx
    have := h.2 r (List.getElem?_mem hx)
    omega
  · intro x y hy; rw [hc] at hy; simp at hy
  · intro x hx; rw [hc] at hx; simp at hx
  · intro x y hy; rw [hc] at hy; simp at hy
  · intro x; rw [hc]; exact List.nodup_nil

theorem Inv_AddRandomConnection {g mid next : List Room} {rs rs1 : List Nat}
    (hg : Inv g) (h : AddRandomConnection rs g NUM_ROOMS = some (mid, next, rs1)) :
    SlotsOK mid ∧ Inv next := by
  unfold AddRandomConnection at h
  cases hc : chooseRooms rs g NUM_ROOMS with
  | none => simp [hc] at h
  | some p =>
    obtain ⟨A, B, rs2⟩ := p
    rw [hc] at h
    simp only [Option.some.injEq, Prod.mk.injEq] at h
    obtain ⟨a, b, ha, hb, hak, hbk, hne, hnc⟩ := chooseRooms_spec hc
    obtain ⟨h1, h2, _⟩ := h
    subst h1; subst h2
    exact ⟨SlotsOK_connectAt hg.slots ha hak, Inv_connect_both hg ha hb hak hbk hne hnc⟩

theorem Inv_of_Reachable {g0 g : List Room} (h0 : EmptyGraph g0) (h : Reachable g0 g) :
    Inv g := by
  induction h with
  | start => exact Inv_of_EmptyGraph h0
  | call _ hcall ih => exact (Inv_AddRandomConnection ih hcall).2

theorem connections_lt_length {g : List Room} {x y : Nat}
    (hsym : ∀ x y, y ∈ connections g x → x ∈ connections g y)
    (h : y ∈ connections g x) : y < g.length := by
  have h2 := hsym x y h
  unfold connections at h2
  cases hy : g[y]? with
  | none => simp [hy] at h2
  | some r => exact (List.getElem?_eq_some_iff.1 hy).1

theorem path_of_min_degree {g : List Room} (hlen : g.length = 7)
    (hsym : ∀ x y, y ∈ connections g x → x ∈ connections g y)
    (hself : ∀ x, x ∉ connections g x)
    (hdeg : ∀ x, x < 7 → 3 ≤ degree g x)
    (u v : Nat) (hu : u < 7) (hv : v < 7) : Path g u v := by
  by_cases huv : u = v
  · subst huv; exact Relation.ReflTransGen.refl
  by_cases hadj : v ∈ connections g u
  · exact Relation.ReflTransGen.single hadj
  have hsub : ∀ x, (connections g x).toFinset ⊆ Finset.range 7 := by
    intro x y hy
    rw [List.mem_toFinset] at hy
    have := connections_lt_length hsym hy
    rw [hlen] at this
    exact Finset.mem_range.2 this
  have hU : (connections g u).toFinset ⊆ (Finset.range 7 \ {u, v}) := by
    intro y hy
    have hy1 := hsub u hy
    rw [List.mem_toFinset] at hy
    simp only [Finset.mem_sdiff, Finset.mem_insert, Finset.mem_singleton, not_or]
    refine ⟨hy1, ?_, ?_⟩
    · intro e; exact hself u (e ▸ hy)
    · intro e; exact hadj (e ▸ hy)
  have hV : (connections g v).toFinset ⊆ (Finset.range 7 \ {u, v}) := by
    intro y hy
    have hy1 := hsub v hy
    rw [List.mem_toFinset] at hy
    simp only [Finset.mem_sdiff, Finset.mem_insert, Finset.mem_singleton, not_or]
    refine ⟨hy1, ?_, ?_⟩
    · intro e; exact hadj (hsym v u (e ▸ hy))
    · intro e; exact hself v (e ▸ hy)
  have hcard : (Finset.range 7 \ {u, v}).card = 5 := by
    have hs : ({u, v} : Finset Nat) ⊆ Finset.range 7 := by
      intro y hy
      simp only [Finset.mem_insert, Finset.mem_singleton] at hy
      rcases hy with e | e <;> · rw [e]; exact Finset.mem_range.2 ‹_›
    rw [Finset.card_sdiff hs, Finset.card_range, Finset.card_pair huv]
  have hne : ((connections g u).toFinset ∩ (connections g v).toFinset).Nonempty := by
    apply Finset.inter_nonempty_of_card_lt_card_add_card hU hV
    have h1 := hdeg u hu
    have h2 := hdeg v hv
    unfold degree at h1 h2
    omega
  obtain ⟨w, hw⟩ := hne
  rw [Finset.mem_inter, List.mem_toFinset, List.mem_toFinset] at hw
  exact Relation.ReflTransGen.tail (Relation.ReflTransGen.single hw.1) (hsym v w hw.2)

theorem degree_eq_of_nodup {g : List Room} {x : Nat} {r : Room} (hx : g[x]? = some r)
    (hk : r.numOutboundConnections ≤ r.outboundConnections.length)
    (hnd : (connections g x).Nodup) : degree g x = r.numOutboundConnections := by
  unfold degree
  rw [List.toFinset_card_of_nodup hnd, connections_eq hx, List.length_take]
  omega
theorem swap_perm {α : Type} [DecidableEq α] (l : List α) (i j : Nat) (a b : α)
    (hi : l[i]? = some a) (hj : l[j]? = some b) :
    ((l.set j a).set i b).Perm l := by
  have hil : i < l.length := (List.getElem?_eq_some_iff.1 hi).1
  have hjl : j < l.length := (List.getElem?_eq_some_iff.1 hj).1
  have hia : l[i] = a := by rw [List.getElem?_eq_getElem hil] at hi; injection hi
  have hjb : l[j] = b := by rw [List.getElem?_eq_getElem hjl] at hj; injection hj
  rw [List.perm_iff_count]
  intro c
  rw [List.count_set _ _ _ _ (by simpa using hil), List.count_set _ _ _ _ hjl]
  by_cases hij : i = j
  · subst hij
    have hab : a = b := by rw [← hia, ← hjb]
    subst hab
    simp only [List.getElem_set_self, hjb]
    have hpos : (a == c) = true → 0 < List.count c l := by
      intro h
      have : a = c := by simpa using h
      subst this
      exact List.count_pos_iff.2 (List.getElem?_mem hi)
    by_cases hac : (a == c) = true
    · have := hpos hac
      simp only [hac, if_true]; omega
    · simp only [hac]; simp
  · have hil2 : i < (l.set j a).length := by simpa using hil
    have h1 : (l.set j a)[i] = a := by
      rw [List.getElem_set_ne (Ne.symm hij)]; exact hia
    simp only [h1, hjb]
    have hposa : (a == c) = true → 0 < List.count c l := by
      intro h
      have : a = c := by simpa using h
      subst this
      exact List.count_pos_iff.2 (List.getElem?_mem hi)
    have hposb : (b == c) = true → 0 < List.count c l := by
      intro h
      have : b = c := by simpa using h
      subst this
      exact List.count_pos_iff.2 (List.getElem?_mem hj)
    by_cases hac : (a == c) = true <;> by_cases hbc : (b == c) = true
    · have := hposa hac
      simp only [hac, hbc, if_true]; omega
    · have := hposa hac
      simp only [hac, hbc, if_true]; simp
    · have := hposb hbc
      simp only [hac, hbc, if_true]; simp; omega
    · simp only [hac, hbc]; simp

theorem swap_index_le (RAND_MAX n i r : Nat) (hi : i + 1 < n) (hr : r ≤ RAND_MAX) :
    i + r / (RAND_MAX / (n - i) + 1) < n := by
  have hpos : 0 < n - i := by omega
  have h1 : RAND_MAX < (n - i) * (RAND_MAX / (n - i) + 1) := by
    have := Nat.lt_mul_div_succ RAND_MAX hpos
    simpa [Nat.mul_comm] using this
  have h2 : r / (RAND_MAX / (n - i) + 1) < n - i := by
    rw [Nat.div_lt_iff_lt_mul (Nat.succ_pos _)]
    exact lt_of_le_of_lt hr h1
  omega

theorem shuffleLoop_perm (RAND_MAX n : Nat) :
    ∀ (k i : Nat) (rs : List Nat) (list : List (List Char)),
      list.length = n → i + k + 1 = n → (∀ r ∈ rs, r ≤ RAND_MAX) → k ≤ rs.length →
      ∃ out, shuffleLoop RAND_MAX n k i rs list = some (out, rs.drop k) ∧ out.Perm list := by
  intro k
  induction k with
  | zero =>
    intro i rs list _ _ _ _
    exact ⟨list, by simp [shuffleLoop], List.Perm.refl _⟩
  | succ k ih =>
    intro i rs list hlen hik hrs hk
    cases rs with
    | nil => simp at hk
    | cons r rs =>
      have hr : r ≤ RAND_MAX := hrs r (List.mem_cons_self _ _)
      have hj := swap_index_le RAND_MAX n i r (by omega) hr
      have hjl : i + r / (RAND_MAX / (n - i) + 1) < list.length := by omega
      have hil : i < list.length := by omega
      have e1 := List.getElem?_eq_getElem hjl
      have e2 := List.getElem?_eq_getElem hil
      have hp := swap_perm list i _ _ _ e2 e1
      obtain ⟨out, ho, hperm⟩ := ih (i + 1) rs _ (by rw [hp.length_eq]; exact hlen) (by omega)
        (fun x hx => hrs x (List.mem_cons_of_mem _ hx)) (by simpa using hk)
      refine ⟨out, ?_, hperm.trans hp⟩
      simp only [shuffleLoop, e1, e2, List.drop_succ_cons]
      exact ho

theorem writeConnections_spec (g : List Room) (x : Room) :
    ∀ (k j : Nat) (file : List Char),
      j + k ≤ x.outboundConnections.length →
      (∀ p ∈ (x.outboundConnections.drop j).take k, p < g.length) →
      writeConnections g x k j file
        = some (file ++ unlines (connectionLines (j + 1)
            (((x.outboundConnections.drop j).take k).map (nameAt g)))) := by
  intro k
  induction k with
  | zero =>
    intro j file _ _
    simp [writeConnections, connectionLines, unlines]
  | succ k ih =>
    intro j file hlen hp
    have hj : j < x.outboundConnections.length := by omega
    obtain ⟨p, e1, hdrop⟩ : ∃ p, x.outboundConnections[j]? = some p
        ∧ x.outboundConnections.drop j = p :: x.outboundConnections.drop (j + 1) :=
      ⟨_, List.getElem?_eq_getElem hj, List.drop_eq_getElem_cons hj⟩
    have hpj : p < g.length := by
      apply hp
      rw [hdrop, List.take_succ_cons]
      exact List.mem_cons_self _ _
    obtain ⟨y, e2⟩ : ∃ y, g[p]? = some y := ⟨_, List.getElem?_eq_getElem hpj⟩
    have hrec := ih (j + 1)
      (file ++ ("CONNECTION ".toList ++ decimal (j + 1) ++ ": ".toList
        ++ y.name ++ "\n".toList))
      (by omega)
      (by
        intro q hq
        apply hp
        rw [hdrop, List.take_succ_cons]
        exact List.mem_cons_of_mem _ hq)
    unfold writeConnections
    rw [e1]
    simp only
    rw [e2]
    simp only
    rw [hrec, hdrop, List.take_succ_cons, List.map_cons]
    have hn : nameAt g p = y.name := by simp [nameAt, e2]
    simp only [connectionLines, hn, unlines_cons]
    have : "\n".toList = ['\n'] := rfl
    simp [List.append_assoc, this]

theorem writeRoomFile_spec (g : List Room) (i : Nat) (x : Room) (hx : g[i]? = some x)
    (hk : x.numOutboundConnections ≤ x.outboundConnections.length)
    (hp : ∀ p ∈ connections g i, p < g.length) :
    writeRoomFile g x
      = some (unlines (roomFileLines x.name (neighbourNames g i) (RoomTypeString x.rType))) := by
  have hc := connections_eq hx
  have h := writeConnections_spec g x x.numOutboundConnections 0
    ("ROOM NAME: ".toList ++ x.name ++ "\n".toList) (by omega)
    (by rw [List.drop_zero, ← hc]; exact hp)
  unfold writeRoomFile
  rw [h]
  simp only [List.drop_zero, ← hc, roomFileLines, unlines_cons, unlines_append,
    unlines_singleton, neighbourNames]
  have : "\n".toList = ['\n'] := rfl
  simp [List.append_assoc, this, unlines_nil]


theorem fileNames_getElem? : ∀ i, i < 7 → fileNames[i]? = some ("room".toList ++ decimal i) := by
  decide

theorem writeRoomFilesFrom_spec (g : List Room) (content : Nat → List Char) :
    ∀ (k i : Nat), i + k ≤ 7 →
      (∀ t, i ≤ t → t < i + k → ∃ x, g[t]? = some x ∧ writeRoomFile g x = some (content t)) →
      ∃ files, writeRoomFilesFrom g k i = some files ∧ files.length = k
        ∧ ∀ t, t < k → files[t]? = some ("room".toList ++ decimal (i + t), content (i + t)) := by
  intro k
  induction k with
  | zero =>
    intro i _ _
    exact ⟨[], rfl, rfl, fun t ht => absurd ht (Nat.not_lt_zero t)⟩
  | succ k ih =>
    intro i hi h
    obtain ⟨x, hx, hw⟩ := h i (le_refl _) (by omega)
    obtain ⟨files, hf, hl, ht⟩ := ih (i + 1) (by omega)
      (fun t h1 h2 => h t (by omega) (by omega))
    refine ⟨("room".toList ++ decimal i, content i) :: files, ?_, by simp [hl], ?_⟩
    · unfold writeRoomFilesFrom
      rw [fileNames_getElem? i (by omega), hx]
      simp only
      rw [hw]
      simp only
      rw [hf]
    · intro t htk
      cases t with
      | zero => simp
      | succ t =>
        have := ht t (by omega)
        simp only [List.getElem?_cons_succ, this]
        have e : i + 1 + t = i + (t + 1) := by omega
        rw [e]

theorem length_connectionLines (j : Nat) (ns : List (List Char)) :
    (connectionLines j ns).length = ns.length := by
  induction ns generalizing j with
  | nil => rfl
  | cons n ns ih => simp [connectionLines, ih]

theorem connections_indexed {g : List Room}
    (hg : ∀ r ∈ g, r.numOutboundConnections ≤ 6 ∧ r.outboundConnections.length = 6
      ∧ ∀ p ∈ r.outboundConnections.take r.numOutboundConnections, p < 7) :
    ∀ (i : Nat) (r : Room), g[i]? = some r →
      r.numOutboundConnections ≤ 6 ∧ r.outboundConnections.length = 6
        ∧ ∀ p ∈ connections g i, p < 7 := by
  intro i r hr
  obtain ⟨h1, h2, h3⟩ := hg r (List.getElem?_mem hr)
  exact ⟨h1, h2, by rw [connections_eq hr]; exact h3⟩

theorem WriteRoomFiles_spec (g : List Room) (hlen : g.length = 7)
    (hg : ∀ (i : Nat) (r : Room), g[i]? = some r →
      r.numOutboundConnections ≤ 6 ∧ r.outboundConnections.length = 6
        ∧ ∀ p ∈ connections g i, p < 7) :
    ∃ files, WriteRoomFiles g 7 = some files ∧ files.length = 7
      ∧ ∀ (i : Nat) (r : Room), g[i]? = some r →
          files[i]? = some ("room".toList ++ decimal i,
            unlines (roomFileLines r.name (neighbourNames g i) (RoomTypeString r.rType)))
          ∧ (roomFileLines r.name (neighbourNames g i) (RoomTypeString r.rType)).length
              = r.numOutboundConnections + 2 := by
  obtain ⟨files, hf, hl, ht⟩ := writeRoomFilesFrom_spec g
    (fun t => match g[t]? with
      | some x => unlines (roomFileLines x.name (neighbourNames g t) (RoomTypeString x.rType))
      | none => []) 7 0 (by omega)
    (by
      intro t _ ht
      have hlt : t < g.length := by omega
      have hx := List.getElem?_eq_getElem hlt
      obtain ⟨h1, h2, h3⟩ := hg t _ hx
      refine ⟨g[t], hx, ?_⟩
      rw [writeRoomFile_spec g t _ hx (by omega) (fun p hp => by rw [hlen]; exact h3 p hp)]
      simp only [hx])
  refine ⟨files, hf, hl, ?_⟩
  intro i r hr
  have hi : i < 7 := by
    have := (List.getElem?_eq_some_iff.1 hr).1
    omega
  obtain ⟨h1, h2, _⟩ := hg i r hr
  refine ⟨?_, ?_⟩
  · have := ht i hi
    simp only [Nat.zero_add, hr] at this
    exact this
  · simp only [roomFileLines, List.length_cons, List.length_append, length_connectionLines,
      neighbourNames, List.length_map, connections_eq hr, List.length_take, List.length_nil]
    omega

theorem IsGraphFull_true {g : List Room} (hlen : g.length = 7)
    (h : IsGraphFull g NUM_ROOMS = true) : ∀ r ∈ g, 3 ≤ r.numOutboundConnections := by
  intro r hr
  unfold IsGraphFull at h
  rw [List.all_eq_true] at h
  have hr2 : r ∈ g.take NUM_ROOMS := by
    rw [List.take_of_length_le (by simp [NUM_ROOMS, hlen])]; exact hr
  have := h r hr2
  simp only [Bool.not_eq_true', decide_eq_false_iff_not, not_lt] at this
  exact this

theorem SlotsOK_bound {g : List Room} (h : SlotsOK g) :
    ∀ r ∈ g, r.numOutboundConnections ≤ 6 := by
  intro r hr
  obtain ⟨x, hx⟩ := List.getElem?_of_mem hr
  exact (h.room x r hx).2

theorem buildLoop_inv :
    ∀ (fuel : Nat) (rs : List Nat) (g : List Room) (trace : List (List Room))
      (final : List Room) (rest : List Nat),
      Inv g → buildLoop fuel rs g = some (trace, final, rest) →
      (∀ s ∈ trace, SlotsOK s) ∧ Inv final ∧ IsGraphFull final NUM_ROOMS = true := by
  intro fuel
  induction fuel with
  | zero => intro rs g trace final rest _ h; simp [buildLoop] at h
  | succ fuel ih =>
    intro rs g trace final rest hg h
    unfold buildLoop at h
    by_cases hfull : IsGraphFull g NUM_ROOMS = false
    · rw [if_pos hfull] at h
      cases hc : AddRandomConnection rs g NUM_ROOMS with
      | none => simp [hc] at h
      | some p =>
        obtain ⟨mid, next, rs1⟩ := p
        rw [hc] at h
        simp only at h
        obtain ⟨hmid, hnext⟩ := Inv_AddRandomConnection hg hc
        cases hb : buildLoop fuel rs1 next with
        | none => simp [hb] at h
        | some q =>
          obtain ⟨tr, fin, rs2⟩ := q
          rw [hb] at h
          simp only [Option.some.injEq, Prod.mk.injEq] at h
          obtain ⟨h1, h2, _⟩ := h
          subst h1; subst h2
          obtain ⟨i1, i2, i3⟩ := ih rs1 next tr fin rs2 hnext hb
          refine ⟨?_, i2, i3⟩
          intro s hs
          simp only [List.mem_cons] at hs
          rcases hs with e | e | e
          · rw [e]; exact hmid
          · rw [e]; exact hnext.slots
          · exact i1 s e
    · rw [if_neg hfull] at h
      simp only [Option.some.injEq, Prod.mk.injEq] at h
      obtain ⟨h1, h2, _⟩ := h
      subst h1; subst h2
      refine ⟨by simp, hg, ?_⟩
      simpa using hfull

/-- C1. Build loop of `main` at seven rooms, from seven rooms with zero
connections and for any `rand()` values for which the loop ends: in every state
the array goes through (the initial one and the one after each `ConnectRoom`) no
room has more than 6 outbound connections, and at loop exit there are seven
rooms, each with between 3 and 6 outbound connections. -/
theorem build_loop_degree_bounds (fuel : Nat) (rs : List Nat) (g0 : List Room)
    (trace : List (List Room)) (final : List Room) (rest : List Nat)
    (h0 : EmptyGraph g0) (h : buildLoop fuel rs g0 = some (trace, final, rest)) :
    (∀ g ∈ g0 :: trace, ∀ r ∈ g, r.numOutboundConnections ≤ 6)
      ∧ final.length = 7
      ∧ ∀ r ∈ final, 3 ≤ r.numOutboundConnections ∧ r.numOutboundConnections ≤ 6 := by
  have hinv := Inv_of_EmptyGraph h0
  obtain ⟨i1, i2, i3⟩ := buildLoop_inv fuel rs g0 trace final rest hinv h
  refine ⟨?_, i2.slots.len, ?_⟩
  · intro g hg
    rcases List.mem_cons.1 hg with e | e
    · rw [e]; exact SlotsOK_bound hinv.slots
    · exact SlotsOK_bound (i1 g e)
  · intro r hr
    exact ⟨IsGraphFull_true i2.slots.len i3 r hr, SlotsOK_bound i2.slots r hr⟩

theorem demoRooms_empty : EmptyGraph demoRooms := by
  unfold EmptyGraph
  decide

theorem demo_buildLoop_ne_none : buildLoop 13 demoRand demoRooms ≠ none := by
  decide

/-- The run of the build loop on `demoRand` from `demoRooms` ends, and the bounds
of `build_loop_degree_bounds` hold for it. -/
theorem build_loop_degree_bounds_witness :
    EmptyGraph demoRooms ∧
    ∃ trace final rest, buildLoop 13 demoRand demoRooms = some (trace, final, rest)
      ∧ (∀ g ∈ demoRooms :: trace, ∀ r ∈ g, r.numOutboundConnections ≤ 6)
      ∧ final.length = 7
      ∧ ∀ r ∈ final, 3 ≤ r.numOutboundConnections ∧ r.numOutboundConnections ≤ 6 :=
  ⟨demoRooms_empty,
    match h : buildLoop 13 demoRand demoRooms with
    | some (trace, final, rest) =>
      ⟨trace, final, rest, rfl,
        build_loop_degree_bounds 13 demoRand demoRooms trace final rest demoRooms_empty h⟩
    | none => absurd h demo_buildLoop_ne_none⟩

theorem demo_call :
    AddRandomConnection [0, 1] demoRooms NUM_ROOMS
      = some (connectAt demoRooms 0 1, connectAt (connectAt demoRooms 0 1) 1 0, []) := by
  decide

theorem demo_reachable : Reachable demoRooms (connectAt (connectAt demoRooms 0 1) 1 0) :=
  Reachable.call Reachable.start demo_call

/-- C2. In every state reachable from seven rooms with zero connections by
completed calls of `AddRandomConnection`, room `y` is among the connections of
room `x` if and only if room `x` is among the connections of room `y`. -/
theorem connections_symmetric (g0 g : List Room) (h0 : EmptyGraph g0)
    (h : Reachable g0 g) (x y : Nat) :
    y ∈ connections g x ↔ x ∈ connections g y :=
  ⟨(Inv_of_Reachable h0 h).sym x y, (Inv_of_Reachable h0 h).sym y x⟩

/-- After one call from `demoRooms`, rooms 0 and 1 list each other, as
`connections_symmetric` says. -/
theorem connections_symmetric_witness :
    EmptyGraph demoRooms ∧ Reachable demoRooms (connectAt (connectAt demoRooms 0 1) 1 0)
      ∧ (1 ∈ connections (connectAt (connectAt demoRooms 0 1) 1 0) 0
          ↔ 0 ∈ connections (connectAt (connectAt demoRooms 0 1) 1 0) 1) :=
  ⟨demoRooms_empty, demo_reachable,
    connections_symmetric demoRooms _ demoRooms_empty demo_reachable 0 1⟩

/-- C3. In every state reachable from seven rooms with zero connections by
completed calls of `AddRandomConnection`, no room is among its own connections
and the connections of a room (the first `numOutboundConnections` entries of its
`outboundConnections`) are pairwise distinct. -/
theorem no_self_no_duplicate (g0 g : List Room) (h0 : EmptyGraph g0)
    (h : Reachable g0 g) (x : Nat) :
    x ∉ connections g x ∧ (connections g x).Nodup :=
  ⟨(Inv_of_Reachable h0 h).noSelf x, (Inv_of_Reachable h0 h).nodup x⟩

/-- After one call from `demoRooms`, room 0 does not list itself and lists no
room twice, as `no_self_no_duplicate` says. -/
theorem no_self_no_duplicate_witness :
    EmptyGraph demoRooms ∧ Reachable demoRooms (connectAt (connectAt demoRooms 0 1) 1 0)
      ∧ 0 ∉ connections (connectAt (connectAt demoRooms 0 1) 1 0) 0
      ∧ (connections (connectAt (connectAt demoRooms 0 1) 1 0) 0).Nodup :=
  ⟨demoRooms_empty, demo_reachable,
    no_self_no_duplicate demoRooms _ demoRooms_empty demo_reachable 0⟩

theorem degree_of_Inv {g : List Room} (hg : Inv g)
    (hfull : ∀ r ∈ g, 3 ≤ r.numOutboundConnections) (x : Nat) (hx : x < 7) :
    3 ≤ degree g x := by
  have hlt : x < g.length := by rw [hg.slots.len]; exact hx
  have hx2 := List.getElem?_eq_getElem hlt
  have hs := hg.slots.room x _ hx2
  rw [degree_eq_of_nodup hx2 (by omega) (hg.nodup x)]
  exact hfull _ (List.getElem_mem hlt)

/-- C4. For every run of the build loop of `main` that ends, from seven rooms
with zero connections, there is a path of connections between any two of the
seven rooms of the finished graph.  This rests on the invariants alone: in any
array of seven rooms whose connections are symmetric, in which no room is
connected to itself and every room is connected to at least 3 rooms, there is a
path between any two rooms. -/
theorem generated_graph_connected (fuel : Nat) (rs : List Nat) (g0 : List Room)
    (trace : List (List Room)) (final : List Room) (rest : List Nat)
    (h0 : EmptyGraph g0) (h : buildLoop fuel rs g0 = some (trace, final, rest)) :
    (∀ u v, u < 7 → v < 7 → Path final u v)
      ∧ ∀ g : List Room, g.length = 7 →
          (∀ x y, y ∈ connections g x → x ∈ connections g y) →
          (∀ x, x ∉ connections g x) →
          (∀ x, x < 7 → 3 ≤ degree g x) →
          ∀ u v, u < 7 → v < 7 → Path g u v := by
  constructor
  · obtain ⟨_, i2, i3⟩ := buildLoop_inv fuel rs g0 trace final rest (Inv_of_EmptyGraph h0) h
    intro u v hu hv
    exact path_of_min_degree i2.slots.len i2.sym i2.noSelf
      (degree_of_Inv i2 (IsGraphFull_true i2.slots.len i3)) u v hu hv
  · intro g hlen hsym hself hdeg u v hu hv
    exact path_of_min_degree hlen hsym hself hdeg u v hu hv

/-- The graph built from `demoRooms` on `demoRand` is connected, as
`generated_graph_connected` says. -/
theorem generated_graph_connected_witness :
    EmptyGraph demoRooms ∧
    ∃ trace final rest, buildLoop 13 demoRand demoRooms = some (trace, final, rest)
      ∧ ∀ u v, u < 7 → v < 7 → Path final u v :=
  ⟨demoRooms_empty,
    match h : buildLoop 13 demoRand demoRooms with
    | some (trace, final, rest) =>
      ⟨trace, final, rest, rfl,
        (generated_graph_connected 13 demoRand demoRooms trace final rest demoRooms_empty h).1⟩
    | none => absurd h demo_buildLoop_ne_none⟩

theorem map_name_initRooms (names : List (List Char)) (stack : Nat → List Nat)
    (h : 7 ≤ names.length) : (initRooms names stack).map Room.name = names.take 7 := by
  apply List.ext_getElem
  · simp [initRooms, NUM_ROOMS, h]
  · intro i h1 h2
    have hi : i < 7 := by simpa [initRooms, NUM_ROOMS] using h1
    have hil : i < names.length := by omega
    simp [initRooms, initRoom, List.getD_eq_getElem?_getD, List.getElem?_eq_getElem hil]

/-- C10. For every list of names and all `rand()` values in `[0, RAND_MAX]` (one
for each of the `n - 1` iterations), `RoomNameListShuffle` returns a permutation
of the list.  Hence the rooms `main` initialises from the shuffled ten-name pool
are seven rooms with pairwise distinct names, each a name of the pool. -/
theorem shuffle_is_permutation (RAND_MAX : Nat) (rs : List Nat) (list : List (List Char))
    (hr : ∀ r ∈ rs, r ≤ RAND_MAX) (hlen : list.length - 1 ≤ rs.length) :
    (∃ out rest, RoomNameListShuffle RAND_MAX rs list list.length = some (out, rest)
        ∧ out.Perm list)
      ∧ (9 ≤ rs.length → ∀ stack : Nat → List Nat,
          ∃ rooms rest, mainInit RAND_MAX rs stack = some (rooms, rest)
            ∧ rooms.length = 7
            ∧ (rooms.map Room.name).Nodup
            ∧ ∀ r ∈ rooms, r.name ∈ roomNames) := by
  have key : ∀ l : List (List Char), l.length - 1 ≤ rs.length →
      ∃ out rest, RoomNameListShuffle RAND_MAX rs l l.length = some (out, rest)
        ∧ out.Perm l := by
    intro l hl
    unfold RoomNameListShuffle
    by_cases hn : l.length > 1
    · rw [if_pos hn]
      obtain ⟨out, ho, hp⟩ := shuffleLoop_perm RAND_MAX l.length (l.length - 1) 0 rs l rfl
        (by omega) hr hl
      exact ⟨out, _, ho, hp⟩
    · rw [if_neg hn]
      exact ⟨l, rs, rfl, List.Perm.refl _⟩
  refine ⟨key list hlen, ?_⟩
  intro h9 stack
  obtain ⟨out, rest, ho, hp⟩ := key roomNames (by simpa [roomNames] using h9)
  have ho2 : RoomNameListShuffle RAND_MAX rs roomNames 10 = some (out, rest) := ho
  have hlen10 : out.length = 10 := by rw [hp.length_eq]; rfl
  have hnd : roomNames.Nodup := by decide
  have hnames := map_name_initRooms out stack (by omega)
  refine ⟨initRooms out stack, rest, by simp [mainInit, ho2], by simp [initRooms, NUM_ROOMS],
    ?_, ?_⟩
  · rw [hnames]
    exact (List.take_sublist 7 out).nodup (hp.nodup_iff.2 hnd)
  · intro r hr2
    have : r.name ∈ (initRooms out stack).map Room.name := List.mem_map_of_mem _ hr2
    rw [hnames] at this
    exact hp.subset (List.mem_of_mem_take this)

/-- A shuffle of the ten-name pool with nine concrete `rand()` values below
`RAND_MAX = 32767`, as `shuffle_is_permutation` says. -/
theorem shuffle_is_permutation_witness :
    (∀ r ∈ [5, 32767, 0, 20000, 7, 12345, 30000, 1, 2], r ≤ 32767) ∧
    (∃ out rest, RoomNameListShuffle 32767 [5, 32767, 0, 20000, 7, 12345, 30000, 1, 2]
        roomNames roomNames.length = some (out, rest) ∧ out.Perm roomNames) :=
  ⟨by decide,
    (shuffle_is_permutation 32767 [5, 32767, 0, 20000, 7, 12345, 30000, 1, 2] roomNames
      (by decide) (by decide)).1⟩

theorem connectionLines_eq_enumFrom :
    ∀ (ns : List (List Char)) (j : Nat),
      connectionLines j ns
        = (ns.enumFrom j).map
            (fun p => "CONNECTION ".toList ++ (Nat.repr p.1).toList ++ ": ".toList ++ p.2) := by
  intro ns
  induction ns with
  | nil => intro j; rfl
  | cons n ns ih =>
    intro j
    simp only [connectionLines, List.enumFrom_cons, List.map_cons, ih (j + 1)]
    rfl

theorem roomFileLines_eq_formatLines (name : List Char) (ns : List (List Char))
    (t : RoomType) : roomFileLines name ns (RoomTypeString t) = formatLines name ns t := by
  unfold roomFileLines formatLines
  rw [connectionLines_eq_enumFrom]
  cases t <;> rfl

/-- C8. For a room with name `m`, type `t` and `k` connections, at most six, to
rooms named `n1, ..., nk` in list order, `WriteRoomFiles` writes the `k + 2`
lines `ROOM NAME: m`, then `CONNECTION j: nj` for `j = 1, ..., k` in list order,
then `ROOM TYPE: ` followed by `START_ROOM`, `MID_ROOM` or `END_ROOM` according to
`t`, each ended by a newline; the file of room `i` is named `room` followed by
`i` in decimal. -/
theorem write_room_files_format (g : List Room) (hlen : g.length = 7)
    (hg : ∀ r ∈ g, r.numOutboundConnections ≤ 6 ∧ r.outboundConnections.length = 6
      ∧ ∀ p ∈ r.outboundConnections.take r.numOutboundConnections, p < 7) :
    ∃ files, WriteRoomFiles g 7 = some files ∧ files.length = 7
      ∧ ∀ (i : Nat) (r : Room), g[i]? = some r →
          files[i]? = some ("room".toList ++ (Nat.repr i).toList,
            unlines (formatLines r.name (neighbourNames g i) r.rType))
          ∧ (formatLines r.name (neighbourNames g i) r.rType).length
              = r.numOutboundConnections + 2 := by
  obtain ⟨files, h1, h2, h3⟩ := WriteRoomFiles_spec g hlen (connections_indexed hg)
  refine ⟨files, h1, h2, ?_⟩
  intro i r hr
  have := h3 i r hr
  rw [roomFileLines_eq_formatLines] at this
  exact this

/-- The files written for `demoGraph`, as `write_room_files_format` says; the
file of room 0, connected to room 1 only, is `room0` with three lines. -/
theorem write_room_files_format_witness :
    (∃ files, WriteRoomFiles demoGraph 7 = some files ∧ files.length = 7
      ∧ ∀ (i : Nat) (r : Room), demoGraph[i]? = some r →
          files[i]? = some ("room".toList ++ (Nat.repr i).toList,
            unlines (formatLines r.name (neighbourNames demoGraph i) r.rType))
          ∧ (formatLines r.name (neighbourNames demoGraph i) r.rType).length
              = r.numOutboundConnections + 2)
      ∧ (WriteRoomFiles demoGraph 7).map (fun files => files[0]?)
          = some (some ("room0".toList,
              "ROOM NAME: Altuve\nCONNECTION 1: Beltran\nROOM TYPE: START_ROOM\n".toList)) :=
  ⟨write_room_files_format demoGraph (by decide) (by decide), by decide⟩

end Buildrooms

/-! ## The room files: writer and reader -/

namespace Adventure

open Buildrooms (roomNames decimal connectionLines RoomTypeString)

theorem cstr_of_not_mem {l : List Char} (h : '\x00' ∉ l) : cstr l = l := by
  unfold cstr
  rw [List.takeWhile_eq_self_iff]
  intro c hc
  simp only [ne_eq, decide_not, Bool.not_eq_true', decide_eq_false_iff_not]
  intro e
  exact h (e ▸ hc)

theorem cstr_line {t : List Char} (h : '\x00' ∉ t) : cstr (t ++ ['\n']) = t ++ ['\n'] := by
  apply cstr_of_not_mem
  intro hm
  rcases List.mem_append.1 hm with h1 | h1
  · exact h h1
  · simp at h1

theorem readLine_line (line rest : List Char) (hnl : '\n' ∉ line) :
    ∀ n, line.length < n → readLine n (line ++ '\n' :: rest) = (line ++ ['\n'], rest) := by
  induction line with
  | nil =>
    intro n hn
    cases n with
    | zero => simp at hn
    | succ n => simp [readLine]
  | cons c line ih =>
    intro n hn
    cases n with
    | zero => simp at hn
    | succ n =>
      have hc : c ≠ '\n' := fun e => hnl (by simp [e])
      have hl : '\n' ∉ line := fun h => hnl (List.mem_cons_of_mem _ h)
      have e := ih hl n (by simpa using hn)
      rw [List.cons_append]
      simp only [readLine, if_neg hc, e, List.cons_append]

theorem fgets_line (line rest : List Char) (hnl : '\n' ∉ line) (hlen : line.length < 79) :
    fgets 80 (line ++ '\n' :: rest) = some (line ++ ['\n'], rest) := by
  have h := readLine_line line rest hnl 79 hlen
  cases line with
  | nil => simp only [List.nil_append] at h ⊢; simp only [fgets]; rw [h]
  | cons c line => simp only [List.cons_append] at h ⊢; simp only [fgets]; rw [h]

theorem strstr_iff (haystack needle : List Char) :
    strstr haystack needle = true ↔ needle <:+: haystack := by
  induction haystack with
  | nil =>
    simp only [strstr, List.isEmpty_iff, List.infix_nil]
  | cons c haystack ih =>
    simp only [strstr, Bool.or_eq_true, List.isPrefixOf_iff_prefix, ih, List.infix_cons_iff]

theorem infix_append_singleton {needle line : List Char} {c : Char} (hc : c ∉ needle) :
    needle <:+: line ++ [c] ↔ needle <:+: line := by
  constructor
  · rintro ⟨s, t, h⟩
    rcases List.eq_nil_or_concat t with ht | ⟨t1, d, ht⟩
    · subst ht
      rw [List.append_nil] at h
      rcases List.eq_nil_or_concat needle with hn | ⟨n1, e, hn⟩
      · subst hn; exact List.nil_infix
      · subst hn
        rw [List.concat_eq_append, ← List.append_assoc] at h
        have := List.append_inj' h rfl
        have he : e = c := by simpa using this.2
        exact absurd (by simp [he]) hc
    · subst ht
      rw [List.concat_eq_append, ← List.append_assoc] at h
      have := List.append_inj' h rfl
      exact ⟨s, t1, this.1⟩
  · intro h
    exact List.IsInfix.trans h (List.infix_append' [] line [c])

theorem strstr_newline (line needle : List Char) (hn : '\n' ∉ needle) :
    strstr (line ++ ['\n']) needle = strstr line needle := by
  rw [Bool.eq_iff_iff, strstr_iff, strstr_iff, infix_append_singleton hn]

theorem strstr_false_of_prefix {l p m : List Char} (hp : p <+: l) (h : strstr l m = false) :
    strstr p m = false := by
  rw [Bool.eq_false_iff] at h ⊢
  intro h2
  apply h
  rw [strstr_iff] at h2 ⊢
  exact h2.trans hp.isInfix

theorem strstr_cstr_false {l m : List Char} (h : strstr l m = false) :
    strstr (cstr l) m = false :=
  strstr_false_of_prefix (List.takeWhile_prefix _) h

theorem dropWhile_word {w : List Char} (hw : Word w) (rest : List Char) :
    (w ++ rest).dropWhile isspace = w ++ rest := by
  obtain ⟨hne, hs, _⟩ := hw
  cases w with
  | nil => exact absurd rfl hne
  | cons c w =>
    have := hs c (List.mem_cons_self _ _)
    simp [List.dropWhile, this]

theorem takeWhile_word {w : List Char} (hs : ∀ c ∈ w, isspace c = false) (rest : List Char) :
    (w ++ '\n' :: rest).takeWhile (fun c => !isspace c) = w := by
  induction w with
  | nil => simp [List.takeWhile, isspace]
  | cons c w ih =>
    have h1 := hs c (List.mem_cons_self _ _)
    have h2 := ih (fun d hd => hs d (List.mem_cons_of_mem _ hd))
    simp [List.takeWhile, h1, h2]

theorem sscanf_str {w : List Char} (hw : Word w) (rest : List Char) (f : List Directive) :
    sscanf (w ++ '\n' :: rest) (Directive.str :: f) = some w := by
  have h1 := dropWhile_word hw ('\n' :: rest)
  obtain ⟨hne, hs, _⟩ := hw
  have h2 := takeWhile_word hs rest
  cases w with
  | nil => exact absurd rfl hne
  | cons c w =>
    simp only [sscanf, h1, h2]

theorem sscanf_space_str {w : List Char} (hw : Word w) (rest : List Char) (f : List Directive) :
    sscanf (' ' :: (w ++ '\n' :: rest)) (Directive.space :: Directive.str :: f) = some w := by
  have : (' ' :: (w ++ '\n' :: rest)).dropWhile isspace = w ++ '\n' :: rest := by
    have h := dropWhile_word hw ('\n' :: rest)
    simp only [List.dropWhile, isspace]
    simpa using h
  rw [sscanf, this, sscanf_str hw]

theorem isDigit_not_space {c : Char} (h : c.isDigit = true) :
    isspace c = false ∧ c ≠ '+' ∧ c ≠ '-' := by
  refine ⟨?_, ?_, ?_⟩
  · simp only [isspace, Bool.or_eq_false_iff, decide_eq_false_iff_not]
    refine ⟨⟨⟨⟨⟨?_, ?_⟩, ?_⟩, ?_⟩, ?_⟩, ?_⟩ <;> · intro e; subst e; revert h; decide
  · intro e; subst e; revert h; decide
  · intro e; subst e; revert h; decide

theorem dropWhile_digits (d : List Char) (hd : ∀ c ∈ d, c.isDigit = true) (rest : List Char) :
    (d ++ ':' :: rest).dropWhile Char.isDigit = ':' :: rest := by
  induction d with
  | nil =>
    have : Char.isDigit ':' = false := by decide
    simp [List.dropWhile, this]
  | cons c d ih =>
    have h1 := hd c (List.mem_cons_self _ _)
    have h2 := ih (fun x hx => hd x (List.mem_cons_of_mem _ hx))
    simp only [List.cons_append, List.dropWhile, h1]
    exact h2

theorem scanInt_digits {d : List Char} (hd : Digits d) (rest : List Char) :
    scanInt (d ++ ':' :: rest) = some (':' :: rest) := by
  obtain ⟨hne, hds⟩ := hd
  have hdrop := dropWhile_digits d hds rest
  cases d with
  | nil => exact absurd rfl hne
  | cons c d =>
    have hc := hds c (List.mem_cons_self _ _)
    obtain ⟨h1, h2, h3⟩ := isDigit_not_space hc
    simp only [List.cons_append] at hdrop ⊢
    unfold scanInt
    simp only [List.dropWhile, h1]
    split
    · rename_i heq
      split at heq
      · rename_i h; injection h with h _; exact absurd h h2
      · rename_i h; injection h with h _; exact absurd h h3
      · rename_i h; simp at heq
    · rename_i c1 t heq
      split at heq
      · rename_i h; injection h with h _; exact absurd h h2
      · rename_i h; injection h with h _; exact absurd h h3
      · injection heq with e1 e2
        subst e1; subst e2
        simp only [hc, if_true]
        simp only [List.dropWhile, hc] at hdrop
        rw [hdrop]

theorem sscanf_lit (c : Char) (s : List Char) (f : List Directive) :
    sscanf (c :: s) (Directive.lit c :: f) = sscanf s f := by
  simp [sscanf]

theorem sscanf_space_cons {c : Char} (hc : isspace c = false) (s : List Char)
    (f : List Directive) :
    sscanf (' ' :: c :: s) (Directive.space :: f) = sscanf (c :: s) f := by
  have h1 : isspace ' ' = true := by decide
  simp [sscanf, List.dropWhile, h1, hc]

theorem scanInto_name (buf w rest : List Char) (hw : Word w) :
    scanInto buf ("ROOM NAME: ".toList ++ w ++ '\n' :: rest) "ROOM NAME: %s\n" = w := by
  have hf : parseFormat "ROOM NAME: %s\n".toList
      = [.lit 'R', .lit 'O', .lit 'O', .lit 'M', .space, .lit 'N', .lit 'A', .lit 'M',
         .lit 'E', .lit ':', .space, .str, .space] := by rfl
  have hp : "ROOM NAME: ".toList ++ w ++ '\n' :: rest
      = 'R' :: 'O' :: 'O' :: 'M' :: ' ' :: 'N' :: 'A' :: 'M' :: 'E' :: ':' :: ' '
          :: (w ++ '\n' :: rest) := by
    simp [String.toList]
  have hN : isspace 'N' = false := by decide
  unfold scanInto
  rw [hf, hp]
  simp only [sscanf_lit]
  rw [sscanf_space_cons hN]
  simp only [sscanf_lit]
  rw [sscanf_space_str hw]

theorem scanInto_type (buf w rest : List Char) (hw : Word w) :
    scanInto buf ("ROOM TYPE: ".toList ++ w ++ '\n' :: rest) "ROOM TYPE: %s\n" = w := by
  have hf : parseFormat "ROOM TYPE: %s\n".toList
      = [.lit 'R', .lit 'O', .lit 'O', .lit 'M', .space, .lit 'T', .lit 'Y', .lit 'P',
         .lit 'E', .lit ':', .space, .str, .space] := by rfl
  have hp : "ROOM TYPE: ".toList ++ w ++ '\n' :: rest
      = 'R' :: 'O' :: 'O' :: 'M' :: ' ' :: 'T' :: 'Y' :: 'P' :: 'E' :: ':' :: ' '
          :: (w ++ '\n' :: rest) := by
    simp [String.toList]
  have hT : isspace 'T' = false := by decide
  unfold scanInto
  rw [hf, hp]
  simp only [sscanf_lit]
  rw [sscanf_space_cons hT]
  simp only [sscanf_lit]
  rw [sscanf_space_str hw]

theorem scanInto_connection (buf d w rest : List Char) (hd : Digits d) (hw : Word w) :
    scanInto buf ("CONNECTION ".toList ++ d ++ ": ".toList ++ w ++ '\n' :: rest)
      "CONNECTION %*d: %s\n" = w := by
  have hf : parseFormat "CONNECTION %*d: %s\n".toList
      = [.lit 'C', .lit 'O', .lit 'N', .lit 'N', .lit 'E', .lit 'C', .lit 'T', .lit 'I',
         .lit 'O', .lit 'N', .space, .skipInt, .lit ':', .space, .str, .space] := by rfl
  have hp : "CONNECTION ".toList ++ d ++ ": ".toList ++ w ++ '\n' :: rest
      = 'C' :: 'O' :: 'N' :: 'N' :: 'E' :: 'C' :: 'T' :: 'I' :: 'O' :: 'N' :: ' '
          :: (d ++ ':' :: ' ' :: (w ++ '\n' :: rest)) := by
    simp [String.toList]
  unfold scanInto
  rw [hf, hp]
  simp only [sscanf_lit]
  obtain ⟨hne, hds⟩ := hd
  have hsc := scanInt_digits ⟨hne, hds⟩ (' ' :: (w ++ '\n' :: rest))
  cases d with
  | nil => exact absurd rfl hne
  | cons c d =>
    have hc := (isDigit_not_space (hds c (List.mem_cons_self _ _))).1
    rw [List.cons_append, sscanf_space_cons hc]
    rw [List.cons_append] at hsc
    rw [sscanf, hsc]
    simp only [sscanf_lit]
    rw [sscanf_space_str hw]

theorem readLine_long (rest : List Char) :
    ∀ (n : Nat) (t : List Char), '\n' ∉ t → n ≤ t.length →
      readLine n (t ++ rest) = (t.take n, t.drop n ++ rest) := by
  intro n
  induction n with
  | zero => intro t _ _; simp [readLine]
  | succ n ih =>
    intro t hnl hn
    cases t with
    | nil => simp at hn
    | cons c t =>
      have hc : c ≠ '\n' := fun e => hnl (by simp [e])
      have hl : '\n' ∉ t := fun h => hnl (List.mem_cons_of_mem _ h)
      have e := ih t hl (by simpa using hn)
      rw [List.cons_append]
      simp only [readLine, if_neg hc, e, List.take_succ_cons, List.drop_succ_cons]

theorem fgets_long (t rest : List Char) (hnl : '\n' ∉ t) (hlen : 79 ≤ t.length) :
    fgets 80 (t ++ '\n' :: rest) = some (t.take 79, t.drop 79 ++ '\n' :: rest) := by
  have h := readLine_long ('\n' :: rest) 79 t hnl hlen
  cases t with
  | nil => simp at hlen
  | cons c t => simp only [List.cons_append] at h ⊢; simp only [fgets]; rw [h]

theorem strstr_take_drop {t needle : List Char} (h : strstr t needle = false) (n : Nat) :
    strstr (t.take n) needle = false ∧ strstr (t.drop n) needle = false := by
  have h1 : ¬ needle <:+: t := by rw [← strstr_iff]; simp [h]
  constructor
  · rw [Bool.eq_false_iff]
    intro h2
    rw [strstr_iff] at h2
    exact h1 (h2.trans (List.take_prefix n t).isInfix)
  · rw [Bool.eq_false_iff]
    intro h2
    rw [strstr_iff] at h2
    exact h1 (h2.trans (List.drop_suffix n t).isInfix)

theorem connectionsLoop_other_short (i : Nat) (d : List Room) (c : Nat)
    (buf rest t : List Char) (fuel : Nat) (hshort : t.length < 79) (hnl : '\n' ∉ t)
    (hs : strstr t "CONNECTION".toList = false) :
    connectionsLoop i (fuel + 1) (t ++ '\n' :: rest) d c buf
      = connectionsLoop i fuel rest d c buf := by
  have hmark : '\n' ∉ "CONNECTION".toList := by decide
  conv_lhs => unfold connectionsLoop
  rw [fgets_line t rest hnl hshort]
  simp only
  have hc : strstr (cstr (t ++ ['\n'])) "CONNECTION".toList = false :=
    strstr_cstr_false (by rw [strstr_newline _ _ hmark]; exact hs)
  rw [hc]
  simp only [Bool.false_eq_true, if_false]

theorem connectionsLoop_other (i : Nat) (d : List Room) (c : Nat) (buf rest : List Char) :
    ∀ (len : Nat) (t : List Char) (fuel : Nat), t.length ≤ len → '\n' ∉ t →
      strstr t "CONNECTION".toList = false → (t ++ '\n' :: rest).length < fuel →
      ∃ fuel1, rest.length < fuel1
        ∧ connectionsLoop i fuel (t ++ '\n' :: rest) d c buf
            = connectionsLoop i fuel1 rest d c buf := by
  intro len
  induction len with
  | zero =>
    intro t fuel ht hnl hs hfuel
    cases fuel with
    | zero => simp at hfuel
    | succ fuel =>
      exact ⟨fuel, by simp only [List.length_append, List.length_cons] at hfuel; omega,
        connectionsLoop_other_short i d c buf rest t fuel (by omega) hnl hs⟩
  | succ len ih =>
    intro t fuel ht hnl hs hfuel
    cases fuel with
    | zero => simp at hfuel
    | succ fuel =>
      by_cases hshort : t.length < 79
      · exact ⟨fuel, by simp only [List.length_append, List.length_cons] at hfuel; omega,
          connectionsLoop_other_short i d c buf rest t fuel hshort hnl hs⟩
      · obtain ⟨s1, s2⟩ := strstr_take_drop hs 79
        have hdl : (t.drop 79).length ≤ len := by simp only [List.length_drop]; omega
        have hdn : '\n' ∉ t.drop 79 := fun h => hnl (List.mem_of_mem_drop h)
        obtain ⟨fuel1, hf1, heq⟩ := ih (t.drop 79) fuel hdl hdn s2
          (by
            simp only [List.length_append, List.length_cons, List.length_drop] at hfuel ⊢
            omega)
        refine ⟨fuel1, hf1, ?_⟩
        rw [← heq]
        conv_lhs => unfold connectionsLoop
        rw [fgets_long t rest hnl (by omega)]
        simp only
        rw [strstr_cstr_false s1]
        simp only [Bool.false_eq_true, if_false]

theorem skipToRoomType_other_short (rest t cur : List Char) (fuel : Nat)
    (hshort : t.length < 79) (hnl : '\n' ∉ t) (hs : strstr t "ROOM TYPE".toList = false) :
    skipToRoomType (fuel + 1) (t ++ '\n' :: rest) cur
      = skipToRoomType fuel rest (t ++ ['\n']) := by
  have hmark : '\n' ∉ "ROOM TYPE".toList := by decide
  conv_lhs => unfold skipToRoomType
  rw [fgets_line t rest hnl hshort]
  simp only
  have hc : strstr (cstr (t ++ ['\n'])) "ROOM TYPE".toList = false :=
    strstr_cstr_false (by rw [strstr_newline _ _ hmark]; exact hs)
  rw [hc]
  simp only [Bool.false_eq_true, if_false]

theorem skipToRoomType_other (rest : List Char) :
    ∀ (len : Nat) (t : List Char) (fuel : Nat) (cur : List Char), t.length ≤ len → '\n' ∉ t →
      strstr t "ROOM TYPE".toList = false → (t ++ '\n' :: rest).length < fuel →
      ∃ fuel1 cur1, rest.length < fuel1
        ∧ skipToRoomType fuel (t ++ '\n' :: rest) cur = skipToRoomType fuel1 rest cur1 := by
  intro len
  induction len with
  | zero =>
    intro t fuel cur ht hnl hs hfuel
    cases fuel with
    | zero => simp at hfuel
    | succ fuel =>
      exact ⟨fuel, _, by simp only [List.length_append, List.length_cons] at hfuel; omega,
        skipToRoomType_other_short rest t cur fuel (by omega) hnl hs⟩
  | succ len ih =>
    intro t fuel cur ht hnl hs hfuel
    cases fuel with
    | zero => simp at hfuel
    | succ fuel =>
      by_cases hshort : t.length < 79
      · exact ⟨fuel, _, by simp only [List.length_append, List.length_cons] at hfuel; omega,
          skipToRoomType_other_short rest t cur fuel hshort hnl hs⟩
      · obtain ⟨s1, s2⟩ := strstr_take_drop hs 79
        have hdl : (t.drop 79).length ≤ len := by simp only [List.length_drop]; omega
        have hdn : '\n' ∉ t.drop 79 := fun h => hnl (List.mem_of_mem_drop h)
        obtain ⟨fuel1, cur1, hf1, heq⟩ := ih (t.drop 79) fuel (t.take 79) hdl hdn s2
          (by
            simp only [List.length_append, List.length_cons, List.length_drop] at hfuel ⊢
            omega)
        refine ⟨fuel1, cur1, hf1, ?_⟩
        rw [← heq]
        conv_lhs => unfold skipToRoomType
        rw [fgets_long t rest hnl (by omega)]
        simp only
        rw [strstr_cstr_false s1]
        simp only [Bool.false_eq_true, if_false]

theorem GetRoomPtrFromName_congr (n : List Char) {d d1 : List Room}
    (h : d.map Room.name = d1.map Room.name) :
    GetRoomPtrFromName n d = GetRoomPtrFromName n d1 := by
  have key : ∀ e : List Room, GetRoomPtrFromName n e
      = ((e.map Room.name).take NUM_ROOMS).findIdx? (fun m => decide (n = m)) := by
    intro e
    unfold GetRoomPtrFromName
    rw [← List.map_take, List.findIdx?_map]
    rfl
  rw [key, key, h]

theorem map_name_set {d : List Room} {i : Nat} {x : Room} (y : Room) (hx : d[i]? = some x)
    (hn : y.name = x.name) : (d.set i y).map Room.name = d.map Room.name := by
  apply List.ext_getElem?
  intro j
  simp only [List.getElem?_map, List.getElem?_set]
  by_cases hij : i = j
  · subst hij
    have hlt : i < d.length := (List.getElem?_eq_some_iff.1 hx).1
    simp [hlt, hx, hn]
  · simp [hij]

theorem strstr_self_append (needle rest : List Char) :
    strstr (needle ++ rest) needle = true := by
  rw [strstr_iff]
  exact (List.prefix_append needle rest).isInfix

theorem word_no_newline {w : List Char} (hw : Word w) : '\n' ∉ w := by
  intro h
  have := hw.2.1 _ h
  revert this
  decide

theorem digits_no_nul {d : List Char} (hd : Digits d) : '\x00' ∉ d := by
  intro h
  have := hd.2 _ h
  revert this
  decide

theorem digits_no_newline {d : List Char} (hd : Digits d) : '\n' ∉ d := by
  intro h
  have := hd.2 _ h
  revert this
  decide

theorem WellFormed_text {d0 : List Room} {l : FileLine} (h : l.WellFormed d0) :
    '\n' ∉ l.text := by
  cases l with
  | connection num n =>
    obtain ⟨hd, hw, _, _⟩ := h
    simp only [FileLine.text, List.mem_append, not_or]
    exact ⟨⟨⟨by decide, digits_no_newline hd⟩, by decide⟩, word_no_newline hw⟩
  | other t => exact h.1

theorem connection_text_no_nul {num n : List Char} (hd : Digits num) (hw : Word n) :
    '\x00' ∉ (FileLine.connection num n).text := by
  simp only [FileLine.text, List.mem_append, not_or]
  exact ⟨⟨⟨by decide, digits_no_nul hd⟩, by decide⟩, hw.2.2⟩

theorem connectionsLoop_lines (d0 : List Room) (i : Nat) :
    ∀ (ls : List FileLine) (fuel : Nat) (d : List Room) (c : Nat) (buf : List Char) (x : Room),
      (∀ l ∈ ls, l.WellFormed d0) → (unlines (ls.map FileLine.text)).length < fuel →
      d.map Room.name = d0.map Room.name → d[i]? = some x → x.doors.length = 6 →
      c + (connectionNames ls).length ≤ 6 →
      ∃ d1 x1, connectionsLoop i fuel (unlines (ls.map FileLine.text)) d c buf = some d1
        ∧ d1[i]? = some x1
        ∧ d1.map Room.name = d0.map Room.name
        ∧ d1.length = d.length
        ∧ (∀ j, j ≠ i → d1[j]? = d[j]?)
        ∧ x1.numDoors = x.numDoors + (connectionNames ls).length
        ∧ x1.doors.length = 6
        ∧ x1.doors.take (c + (connectionNames ls).length)
            = x.doors.take c ++ (connectionNames ls).map (fun n => GetRoomPtrFromName n d0)
        ∧ x1.id = x.id ∧ x1.name = x.name ∧ x1.rt = x.rt := by
  intro ls
  induction ls with
  | nil =>
    intro fuel d c buf x _ hfuel _ hx hdoors _
    cases fuel with
    | zero => simp at hfuel
    | succ fuel =>
      refine ⟨d, x, ?_, hx, ‹_›, rfl, fun _ _ => rfl, by simp [connectionNames], hdoors,
        by simp [connectionNames], rfl, rfl, rfl⟩
      simp [unlines, connectionsLoop, fgets]
  | cons l ls ih =>
    intro fuel d c buf x hwf hfuel hnames hx hdoors hc
    cases fuel with
    | zero => simp at hfuel
    | succ fuel =>
      have hl := hwf l (List.mem_cons_self _ _)
      have hrest : ∀ l1 ∈ ls, l1.WellFormed d0 := fun l1 h1 => hwf l1 (List.mem_cons_of_mem _ h1)
      have hnl := WellFormed_text hl
      have hmark : '\n' ∉ "CONNECTION".toList := by decide
      rw [List.map_cons, unlines_cons] at hfuel ⊢
      cases l with
      | other t =>
        obtain ⟨fuel1, hf1, heq⟩ := connectionsLoop_other i d c buf
          (unlines (ls.map FileLine.text)) t.length t (fuel + 1) (le_refl _) hl.1 hl.2 hfuel
        rw [show (FileLine.other t).text = t from rfl, heq]
        exact ih fuel1 d c buf x hrest hf1 hnames hx hdoors hc
      | connection num n =>
        have hfuel1 : (unlines (ls.map FileLine.text)).length < fuel := by
          simp only [List.length_append, List.length_cons] at hfuel
          omega
        have hg := fgets_line (FileLine.connection num n).text (unlines (ls.map FileLine.text))
          hnl hl.2.2.2
        unfold connectionsLoop
        rw [hg]
        simp only
        rw [cstr_line (connection_text_no_nul hl.1 hl.2.1), strstr_newline _ _ hmark]
        obtain ⟨hd, hw, _, _⟩ := hl
        have hs : strstr (FileLine.connection num n).text "CONNECTION".toList = true := by
          simp only [FileLine.text, List.append_assoc]
          have : "CONNECTION ".toList = "CONNECTION".toList ++ [' '] := by decide
          rw [this, List.append_assoc]
          exact strstr_self_append _ _
        have hscan : scanInto buf ((FileLine.connection num n).text ++ ['\n'])
            "CONNECTION %*d: %s\n" = n := by
          have := scanInto_connection buf num n [] hd hw
          simpa [FileLine.text, List.append_assoc] using this
        have hcount : (connectionNames (FileLine.connection num n :: ls)).length
            = (connectionNames ls).length + 1 := by simp [connectionNames]
        rw [hcount] at hc
        rw [hs, if_pos rfl, hx]
        simp only
        rw [if_pos (by omega), hscan, GetRoomPtrFromName_congr n hnames]
        have hlt : i < d.length := (List.getElem?_eq_some_iff.1 hx).1
        have hmap := map_name_set { x with
              doors := x.doors.set c (GetRoomPtrFromName n d0)
              numDoors := x.numDoors + 1 } hx rfl
        obtain ⟨d1, x1, h1, h2, h3, h4, h5, h6, h7, h8, h9, h10, h11⟩ :=
          ih fuel (d.set i { x with
              doors := x.doors.set c (GetRoomPtrFromName n d0)
              numDoors := x.numDoors + 1 }) (c + 1) n
            { x with
              doors := x.doors.set c (GetRoomPtrFromName n d0)
              numDoors := x.numDoors + 1 }
            hrest hfuel1
            (hmap.trans hnames)
            (by simp [List.getElem?_set, hlt])
            (by simp [hdoors]) (by omega)
        refine ⟨d1, x1, h1, h2, h3, by simpa using h4, ?_, ?_, h7, ?_, h9, h10, h11⟩
        · intro j hj
          rw [h5 j hj]
          simp [List.getElem?_set, Ne.symm hj]
        · rw [h6, hcount]; simp only; omega
        · rw [hcount]
          have e : c + ((connectionNames ls).length + 1) = c + 1 + (connectionNames ls).length := by
            omega
          rw [e, h8]
          simp only [connectionNames, List.map_cons]
          rw [Buildrooms.take_set_succ _ _ _ (by omega)]
          simp

theorem ParseRoomConnections_lines (d : List Room) (i : Nat) (x : Room) (first : List Char)
    (ls : List FileLine) (hx : d[i]? = some x) (hdoors : x.doors.length = 6)
    (hfirst : '\n' ∉ first ∧ first.length < 79)
    (hls : ∀ l ∈ ls, l.WellFormed d) (hcount : (connectionNames ls).length ≤ 6) :
    ∃ d1 x1, ParseRoomConnections (unlines (first :: ls.map FileLine.text)) d i = some d1
      ∧ d1[i]? = some x1
      ∧ d1.map Room.name = d.map Room.name
      ∧ d1.length = d.length
      ∧ (∀ j, j ≠ i → d1[j]? = d[j]?)
      ∧ x1.numDoors = x.numDoors + (connectionNames ls).length
      ∧ x1.doors.length = 6
      ∧ x1.doors.take (connectionNames ls).length
          = (connectionNames ls).map (fun n => GetRoomPtrFromName n d)
      ∧ x1.id = x.id ∧ x1.name = x.name ∧ x1.rt = x.rt := by
  have hg := fgets_line first (unlines (ls.map FileLine.text)) hfirst.1 hfirst.2
  have hfuel : (unlines (ls.map FileLine.text)).length
      < (unlines (ls.map FileLine.text)).length + 1 := Nat.lt_succ_self _
  obtain ⟨d1, x1, h1, h2, h3, h4, h5, h6, h7, h8, h9⟩ :=
    connectionsLoop_lines d i ls _ d 0 [] x hls hfuel rfl hx hdoors (by omega)
  refine ⟨d1, x1, ?_, h2, h3, h4, h5, h6, h7, ?_, h9⟩
  · unfold ParseRoomConnections
    rw [unlines_cons, hg]
    exact h1
  · simpa using h8

theorem skipToRoomType_lines (tl : List Char) (post : List (List Char))
    (htl : '\n' ∉ tl ∧ tl.length < 79) (hz : '\x00' ∉ tl)
    (hmark : strstr tl "ROOM TYPE".toList = true) :
    ∀ (pre : List (List Char)) (fuel : Nat) (cur : List Char),
      (∀ l ∈ pre, '\n' ∉ l ∧ strstr l "ROOM TYPE".toList = false) →
      (unlines (pre ++ tl :: post)).length < fuel →
      skipToRoomType fuel (unlines (pre ++ tl :: post)) cur = tl ++ ['\n'] := by
  have hm : '\n' ∉ "ROOM TYPE".toList := by decide
  intro pre
  induction pre with
  | nil =>
    intro fuel cur _ hfuel
    cases fuel with
    | zero => simp at hfuel
    | succ fuel =>
      rw [List.nil_append, unlines_cons]
      unfold skipToRoomType
      rw [fgets_line tl _ htl.1 htl.2]
      simp only
      rw [cstr_line hz, strstr_newline _ _ hm, hmark, if_pos rfl]
  | cons l pre ih =>
    intro fuel cur hpre hfuel
    obtain ⟨h1, h3⟩ := hpre l (List.mem_cons_self _ _)
    rw [List.cons_append, unlines_cons] at hfuel ⊢
    obtain ⟨fuel1, cur1, hf1, heq⟩ := skipToRoomType_other (unlines (pre ++ tl :: post))
      l.length l fuel cur (le_refl _) h1 h3 hfuel
    rw [heq]
    exact ih fuel1 cur1 (fun l1 hl1 => hpre l1 (List.mem_cons_of_mem _ hl1)) hf1

theorem ParseRoomFile_lines (room : Room) (name ty : List Char) (pre post : List (List Char))
    (hname : Word name) (hty : Word ty) (hname20 : name.length < 20) (hty20 : ty.length < 20)
    (hpre : ∀ l ∈ pre, '\n' ∉ l ∧ strstr l "ROOM TYPE".toList = false) :
    ParseRoomFile
        (unlines (("ROOM NAME: ".toList ++ name) :: (pre ++ ("ROOM TYPE: ".toList ++ ty) :: post)))
        room
      = some { room with name := name, rt := GetRoomTypeFromString ty } := by
  have h11 : "ROOM NAME: ".toList.length = 11 := by decide
  have h12 : "ROOM TYPE: ".toList.length = 11 := by decide
  have hfirst : ("ROOM NAME: ".toList ++ name).length < 79 := by
    rw [List.length_append, h11]; omega
  have hlast : ("ROOM TYPE: ".toList ++ ty).length < 79 := by
    rw [List.length_append, h12]; omega
  have hn1 : '\n' ∉ "ROOM NAME: ".toList ++ name := by
    simp only [List.mem_append, not_or]
    exact ⟨by decide, word_no_newline hname⟩
  have hn2 : '\n' ∉ "ROOM TYPE: ".toList ++ ty := by
    simp only [List.mem_append, not_or]
    exact ⟨by decide, word_no_newline hty⟩
  have hz1 : '\x00' ∉ "ROOM NAME: ".toList ++ name := by
    simp only [List.mem_append, not_or]
    exact ⟨by decide, hname.2.2⟩
  have hz2 : '\x00' ∉ "ROOM TYPE: ".toList ++ ty := by
    simp only [List.mem_append, not_or]
    exact ⟨by decide, hty.2.2⟩
  have hmark : strstr ("ROOM TYPE: ".toList ++ ty) "ROOM TYPE".toList = true := by
    have : "ROOM TYPE: ".toList = "ROOM TYPE".toList ++ [':', ' '] := by decide
    rw [this, List.append_assoc]
    exact strstr_self_append _ _
  have hg := fgets_line _ (unlines (pre ++ ("ROOM TYPE: ".toList ++ ty) :: post)) hn1 hfirst
  have hskip := skipToRoomType_lines _ post ⟨hn2, hlast⟩ hz2 hmark pre
    ((unlines (pre ++ ("ROOM TYPE: ".toList ++ ty) :: post)).length + 1)
    (("ROOM NAME: ".toList ++ name) ++ ['\n']) hpre
    (Nat.lt_succ_self _)
  have e1 : scanInto [] ("ROOM NAME: ".toList ++ name ++ ['\n']) "ROOM NAME: %s\n" = name :=
    scanInto_name [] name [] hname
  have e2 : scanInto [] ("ROOM TYPE: ".toList ++ ty ++ ['\n']) "ROOM TYPE: %s\n" = ty :=
    scanInto_type [] ty [] hty
  unfold ParseRoomFile
  rw [unlines_cons, hg]
  simp only [bufferAfter, streamAfter]
  rw [hskip, cstr_line hz1, cstr_line hz2, e1, e2, if_pos ⟨hname20, hty20⟩]

theorem GetRoomPtrFromName_some {n : List Char} {d : List Room} {p : Nat}
    (h : GetRoomPtrFromName n d = some p) :
    p < 7 ∧ ∃ y, d[p]? = some y ∧ y.name = n := by
  unfold GetRoomPtrFromName at h
  rw [List.findIdx?_eq_some_iff_getElem] at h
  obtain ⟨hp, hy, _⟩ := h
  have hp7 : p < 7 := by
    have := hp
    simp only [List.length_take, NUM_ROOMS] at this
    omega
  have hpd : p < d.length := by
    have := hp
    simp only [List.length_take] at this
    omega
  refine ⟨hp7, d[p], List.getElem?_eq_getElem hpd, ?_⟩
  simp only [List.getElem_take, decide_eq_true_eq] at hy
  exact hy.symm

theorem doorName_of_names {d d1 : List Room} (h : d1.map Room.name = d.map Room.name)
    (door : Option Nat) : doorName d1 door = doorName d door := by
  cases door with
  | none => rfl
  | some p =>
    have hp : (d1.map Room.name)[p]? = (d.map Room.name)[p]? := by rw [h]
    simp only [List.getElem?_map] at hp
    simp only [doorName]
    cases h1 : d1[p]? <;> cases h2 : d[p]? <;> simp [h1, h2] at hp ⊢
    exact hp

theorem doorName_GetRoomPtrFromName {n : List Char} {d : List Room}
    (h : GetRoomPtrFromName n d ≠ none) : doorName d (GetRoomPtrFromName n d) = some n := by
  cases hp : GetRoomPtrFromName n d with
  | none => exact absurd hp h
  | some p =>
    obtain ⟨_, y, hy, hn⟩ := GetRoomPtrFromName_some hp
    simp [doorName, hy, hn]

theorem connectionNames_named {d : List Room} :
    ∀ {ls : List FileLine}, (∀ l ∈ ls, l.WellFormed d) →
      ∀ n ∈ connectionNames ls, GetRoomPtrFromName n d ≠ none := by
  intro ls
  induction ls with
  | nil => intro _ n hn; simp [connectionNames] at hn
  | cons l ls ih =>
    intro h n hn
    have hrest := ih (fun l1 h1 => h l1 (List.mem_cons_of_mem _ h1))
    cases l with
    | other t => exact hrest n (by simpa [connectionNames] using hn)
    | connection num m =>
      simp only [connectionNames, List.mem_cons] at hn
      rcases hn with e | e
      · subst e
        exact (h _ (List.mem_cons_self _ _)).2.2.1
      · exact hrest n e

theorem WellFormed_congr {d d0 : List Room} (h : d.map Room.name = d0.map Room.name)
    {l : FileLine} (hl : l.WellFormed d0) : l.WellFormed d := by
  cases l with
  | other t => exact hl
  | connection num n =>
    obtain ⟨h1, h2, h3, h4⟩ := hl
    exact ⟨h1, h2, by rw [GetRoomPtrFromName_congr n h]; exact h3, h4⟩

theorem readRooms_spec (dir : List Char → Option (List Char)) (fp : Nat → List Char)
    (parsed : Nat → Room → Room) :
    ∀ (k i : Nat) (d : List Room), i + k ≤ d.length →
      (∀ t, i ≤ t → t < i + k → dir (roomFileName t) = some (fp t)
        ∧ ∀ x : Room, ParseRoomFile (fp t) x = some (parsed t x)) →
      ∃ d1, readRooms dir k i d = some d1 ∧ d1.length = d.length
        ∧ ∀ t, d1[t]? = if i ≤ t ∧ t < i + k then
            (d[t]?).map (fun x => parsed t { x with id := t, numDoors := 0 })
          else d[t]? := by
  intro k
  induction k with
  | zero =>
    intro i d _ _
    refine ⟨d, rfl, rfl, ?_⟩
    intro t
    rw [if_neg (by omega)]
  | succ k ih =>
    intro i d hlen hdir
    have hi : i < d.length := by omega
    have hx := List.getElem?_eq_getElem hi
    obtain ⟨d1, h1, h2, h3⟩ := ih (i + 1)
      (d.set i (parsed i { d[i] with id := i, numDoors := 0 }))
      (by simp only [List.length_set]; omega)
      (fun t ht1 ht2 => hdir t (by omega) (by omega))
    refine ⟨d1, ?_, by simpa using h2, ?_⟩
    · unfold readRooms
      rw [hx, (hdir i (le_refl _) (by omega)).1]
      simp only
      rw [(hdir i (le_refl _) (by omega)).2]
      exact h1
    · intro t
      rw [h3 t]
      by_cases ht : i + 1 ≤ t ∧ t < i + 1 + k
      · rw [if_pos ht, if_pos (by omega)]
        have hne : i ≠ t := by omega
        simp only [List.getElem?_set, hne, if_false]
      · rw [if_neg ht]
        by_cases hti : t = i
        · subst hti
          rw [if_pos (by omega)]
          simp [List.getElem?_set, hi, hx]
        · rw [if_neg (by omega)]
          have hne : i ≠ t := fun e => hti e.symm
          simp only [List.getElem?_set, hne, if_false]

theorem connectRooms_spec (dir : List Char → Option (List Char)) (d0 : List Room)
    (first : Nat → List Char) (ls : Nat → List FileLine) :
    ∀ (k i : Nat) (d : List Room),
      d.map Room.name = d0.map Room.name →
      (∀ t, i ≤ t → t < i + k →
        dir (roomFileName t) = some (unlines (first t :: (ls t).map FileLine.text))
          ∧ ('\n' ∉ first t ∧ (first t).length < 79)
          ∧ (∀ l ∈ ls t, l.WellFormed d0)
          ∧ (connectionNames (ls t)).length ≤ 6
          ∧ ∃ x, d[t]? = some x ∧ x.doors.length = 6) →
      ∃ d2, connectRooms dir k i d = some d2
        ∧ d2.map Room.name = d0.map Room.name
        ∧ d2.length = d.length
        ∧ (∀ t, ¬ (i ≤ t ∧ t < i + k) → d2[t]? = d[t]?)
        ∧ ∀ t, i ≤ t → t < i + k → ∃ x x2, d[t]? = some x ∧ d2[t]? = some x2
            ∧ x2.numDoors = x.numDoors + (connectionNames (ls t)).length
            ∧ x2.doors.take (connectionNames (ls t)).length
                = (connectionNames (ls t)).map (fun n => GetRoomPtrFromName n d0)
            ∧ x2.id = x.id ∧ x2.name = x.name ∧ x2.rt = x.rt := by
  intro k
  induction k with
  | zero =>
    intro i d hn _
    exact ⟨d, rfl, hn, rfl, fun _ _ => rfl, fun t h1 h2 => absurd h2 (by omega)⟩
  | succ k ih =>
    intro i d hn h
    obtain ⟨hdir, hfirst, hls, hcount, x, hx, hdoors⟩ := h i (le_refl _) (by omega)
    obtain ⟨d1, x1, p1, p2, p3, p4, p5, p6, p7, p8, p9, p10, p11⟩ :=
      ParseRoomConnections_lines d i x (first i) (ls i) hx hdoors hfirst
        (fun l hl => WellFormed_congr hn (hls l hl)) hcount
    have hn1 : d1.map Room.name = d0.map Room.name := p3.trans hn
    obtain ⟨d2, q1, q2, q3, q4, q5⟩ := ih (i + 1) d1 hn1
      (by
        intro t ht1 ht2
        obtain ⟨a1, a2, a3, a4, y, hy, a5⟩ := h t (by omega) (by omega)
        refine ⟨a1, a2, a3, a4, y, ?_, a5⟩
        rw [p5 t (by omega)]
        exact hy)
    refine ⟨d2, ?_, q2, q3.trans p4, ?_, ?_⟩
    · unfold connectRooms
      rw [hdir]
      simp only
      rw [p1]
      exact q1
    · intro t ht
      rw [q4 t (by omega), p5 t (by omega)]
    · intro t ht1 ht2
      by_cases hti : t = i
      · subst hti
        refine ⟨x, x1, hx, ?_, p6, ?_, p9, p10, p11⟩
        · rw [q4 t (by omega)]; exact p2
        · rw [p8, GetRoomPtrFromName_congr_fun hn]
      · obtain ⟨y, y2, b1, b2, b3⟩ := q5 t (by omega) (by omega)
        refine ⟨y, y2, ?_, b2, b3⟩
        rw [← p5 t hti]
        exact b1
where
  GetRoomPtrFromName_congr_fun {d d0 : List Room} (h : d.map Room.name = d0.map Room.name) :
      (fun n => GetRoomPtrFromName n d) = (fun n => GetRoomPtrFromName n d0) := by
    funext n
    exact GetRoomPtrFromName_congr n h

set_option maxRecDepth 100000 in
theorem pool_words : ∀ n ∈ roomNames,
    n ≠ [] ∧ (∀ c ∈ n, isspace c = false) ∧ '\x00' ∉ n := by
  decide

theorem pool_short : ∀ n ∈ roomNames, n.length < 20 := by
  decide

set_option maxRecDepth 100000 in
theorem pool_lines : ∀ n ∈ roomNames, ∀ k ∈ [1, 2, 3, 4, 5, 6],
    strstr ("CONNECTION ".toList ++ decimal k ++ ": ".toList ++ n) "ROOM TYPE".toList = false
      ∧ ("CONNECTION ".toList ++ decimal k ++ ": ".toList ++ n).length < 79
      ∧ '\n' ∉ "CONNECTION ".toList ++ decimal k ++ ": ".toList ++ n := by
  decide

theorem pool_name_lines : ∀ n ∈ roomNames, ("ROOM NAME: ".toList ++ n).length < 79 := by
  decide

theorem digits_small : ∀ k ∈ [1, 2, 3, 4, 5, 6],
    Nat.toDigits 10 k ≠ [] ∧ ∀ c ∈ Nat.toDigits 10 k, c.isDigit = true := by
  decide

theorem type_facts : ∀ t : RoomType,
    (RoomTypeString t ≠ [] ∧ (∀ c ∈ RoomTypeString t, isspace c = false)
        ∧ '\x00' ∉ RoomTypeString t)
      ∧ '\n' ∉ "ROOM TYPE: ".toList ++ RoomTypeString t
      ∧ strstr ("ROOM TYPE: ".toList ++ RoomTypeString t) "CONNECTION".toList = false
      ∧ ("ROOM TYPE: ".toList ++ RoomTypeString t).length < 79
      ∧ GetRoomTypeFromString (RoomTypeString t) = t := by
  intro t
  cases t <;> decide

theorem type_short : ∀ t : RoomType, (RoomTypeString t).length < 20 := by
  intro t
  cases t <;> decide

theorem GetRoomPtrFromName_index {d : List Room} (hlen : d.length = 7)
    (hnd : (d.map Room.name).Nodup) {p : Nat} {y : Room} (hy : d[p]? = some y) :
    GetRoomPtrFromName y.name d = some p := by
  have hp : p < d.length := (List.getElem?_eq_some_iff.1 hy).1
  have hyp : d[p] = y := by
    rw [List.getElem?_eq_getElem hp] at hy; injection hy
  unfold GetRoomPtrFromName
  have htake : d.take NUM_ROOMS = d := List.take_of_length_le (by simp [NUM_ROOMS, hlen])
  rw [htake, List.findIdx?_eq_some_iff_getElem]
  refine ⟨hp, by simp [hyp], ?_⟩
  intro j hj
  have hjl : j < d.length := by omega
  simp only [decide_eq_true_eq]
  intro e
  have hjm : j < (d.map Room.name).length := by simpa using hjl
  have hpm : p < (d.map Room.name).length := by simpa using hp
  have h1 : (d.map Room.name)[j] = (d.map Room.name)[p] := by
    simp only [List.getElem_map, hyp]
    exact e.symm
  have := (List.Nodup.getElem_inj_iff hnd).1 h1
  omega

theorem mem_connectionLines {j : Nat} {ns : List (List Char)} {l : List Char}
    (h : l ∈ connectionLines j ns) :
    ∃ k n, j ≤ k ∧ k < j + ns.length ∧ n ∈ ns
      ∧ l = "CONNECTION ".toList ++ decimal k ++ ": ".toList ++ n := by
  induction ns generalizing j with
  | nil => simp [connectionLines] at h
  | cons m ns ih =>
    simp only [connectionLines, List.mem_cons] at h
    rcases h with e | e
    · exact ⟨j, m, le_refl _, by simp, by simp, e⟩
    · obtain ⟨k, n, h1, h2, h3, h4⟩ := ih e
      exact ⟨k, n, by omega, by simp only [List.length_cons]; omega,
        List.mem_cons_of_mem _ h3, h4⟩

theorem map_text_writtenConnections (j : Nat) (ns : List (List Char)) :
    (writtenConnections j ns).map FileLine.text = connectionLines j ns := by
  induction ns generalizing j with
  | nil => rfl
  | cons n ns ih =>
    simp only [writtenConnections, connectionLines, List.map_cons, ih]
    rfl

theorem connectionNames_written (j : Nat) (ns : List (List Char)) (t : List Char) :
    connectionNames (writtenConnections j ns ++ [FileLine.other t]) = ns := by
  induction ns generalizing j with
  | nil => rfl
  | cons n ns ih =>
    simp only [writtenConnections, List.cons_append, connectionNames]
    exact congrArg _ (ih (j + 1))

theorem mem_writtenConnections {j : Nat} {ns : List (List Char)} {l : FileLine}
    (h : l ∈ writtenConnections j ns) :
    ∃ k n, j ≤ k ∧ k < j + ns.length ∧ n ∈ ns
      ∧ l = FileLine.connection (Nat.toDigits 10 k) n := by
  induction ns generalizing j with
  | nil => simp [writtenConnections] at h
  | cons m ns ih =>
    simp only [writtenConnections, List.mem_cons] at h
    rcases h with e | e
    · exact ⟨j, m, le_refl _, by simp, by simp, e⟩
    · obtain ⟨k, n, h1, h2, h3, h4⟩ := ih e
      exact ⟨k, n, by omega, by simp only [List.length_cons]; omega,
        List.mem_cons_of_mem _ h3, h4⟩

theorem small_index {k len : Nat} (h1 : 1 ≤ k) (h2 : k < 1 + len) (h3 : len ≤ 6) :
    k ∈ [1, 2, 3, 4, 5, 6] := by
  have : k ≤ 6 := by omega
  interval_cases k <;> simp

theorem directory_of_getElem? :
    ∀ (files : List (List Char × List Char)) (t : Nat) (n c : List Char),
      (files.map Prod.fst).Nodup → files[t]? = some (n, c) → directory files n = some c := by
  intro files
  induction files with
  | nil => intro t n c _ h; simp at h
  | cons f files ih =>
    intro t n c hnd h
    rw [List.map_cons, List.nodup_cons] at hnd
    cases t with
    | zero =>
      simp only [List.getElem?_cons_zero, Option.some.injEq] at h
      subst h
      simp [directory]
    | succ t =>
      simp only [List.getElem?_cons_succ] at h
      have hmem : n ∈ files.map Prod.fst :=
        List.mem_map.2 ⟨(n, c), List.getElem?_mem h, rfl⟩
      have hne : f.1 ≠ n := fun e => hnd.1 (e ▸ hmem)
      have := ih t n c hnd.2 h
      unfold directory at this ⊢
      rw [List.find?_cons_of_neg _ (by simpa using hne)]
      exact this

theorem roomFileNames_nodup :
    ((List.range 7).map (fun t => "room".toList ++ decimal t)).Nodup := by
  decide

theorem directory_written (files : List (List Char × List Char)) (content : Nat → List Char)
    (hl : files.length = 7)
    (hf : ∀ t, t < 7 → files[t]? = some ("room".toList ++ decimal t, content t))
    (t : Nat) (ht : t < 7) : directory files (roomFileName t) = some (content t) := by
  apply directory_of_getElem? files t
  · have : files.map Prod.fst = (List.range 7).map (fun t => "room".toList ++ decimal t) := by
      apply List.ext_getElem?
      intro j
      by_cases hj : j < 7
      · simp [hf j hj, List.getElem?_range hj]
      · have h1 : files[j]? = none := List.getElem?_eq_none (by omega)
        have h2 : (List.range 7)[j]? = none := List.getElem?_eq_none (by simp; omega)
        simp [h1, h2]
    rw [this]
    exact roomFileNames_nodup
  · exact hf t ht

/-- What the written files hold, read as the lines the reader meets: for every
room of a graph with names from the pool and connections into the room list, the
name line, the connection lines and the type line. -/
theorem written_file_lines (g : List Buildrooms.Room) (hlen : g.length = 7)
    (hpool : ∀ r ∈ g, r.name ∈ roomNames)
    (hconn : ∀ (i : Nat) (r : Buildrooms.Room), g[i]? = some r →
      r.numOutboundConnections ≤ 6 ∧ r.outboundConnections.length = 6
        ∧ ∀ p ∈ Buildrooms.connections g i, p < 7)
    (i : Nat) (r : Buildrooms.Room) (hr : g[i]? = some r) :
    (Buildrooms.neighbourNames g i).length = r.numOutboundConnections
      ∧ (∀ n ∈ Buildrooms.neighbourNames g i, n ∈ roomNames)
      ∧ Buildrooms.roomFileLines r.name (Buildrooms.neighbourNames g i) (RoomTypeString r.rType)
          = ("ROOM NAME: ".toList ++ r.name)
              :: (writtenConnections 1 (Buildrooms.neighbourNames g i)
                  ++ [FileLine.other ("ROOM TYPE: ".toList ++ RoomTypeString r.rType)]).map
                    FileLine.text := by
  obtain ⟨h1, h2, h3⟩ := hconn i r hr
  refine ⟨?_, ?_, ?_⟩
  · simp only [Buildrooms.neighbourNames, List.length_map, Buildrooms.connections_eq hr,
      List.length_take]
    omega
  · intro n hn
    simp only [Buildrooms.neighbourNames, List.mem_map] at hn
    obtain ⟨p, hp, rfl⟩ := hn
    have hp7 : p < g.length := by rw [hlen]; exact h3 p hp
    have := hpool g[p] (List.getElem_mem hp7)
    simpa [Buildrooms.nameAt, List.getElem?_eq_getElem hp7] using this
  · simp only [Buildrooms.roomFileLines, List.map_append, map_text_writtenConnections,
      List.map_cons, List.map_nil, FileLine.text]



theorem wellFormed_written (g : List Buildrooms.Room) (d1 : List Room)
    (i : Nat) (r : Buildrooms.Room)
    (hcount : (Buildrooms.neighbourNames g i).length ≤ 6)
    (hnames : ∀ n ∈ Buildrooms.neighbourNames g i,
      n ∈ roomNames ∧ GetRoomPtrFromName n d1 ≠ none) :
    ∀ l ∈ writtenConnections 1 (Buildrooms.neighbourNames g i)
        ++ [FileLine.other ("ROOM TYPE: ".toList ++ RoomTypeString r.rType)],
      l.WellFormed d1 := by
  intro l hl
  rcases List.mem_append.1 hl with h | h
  · obtain ⟨k, n, h1, h2, h3, rfl⟩ := mem_writtenConnections h
    have hk := small_index h1 h2 hcount
    obtain ⟨hp, hfound⟩ := hnames n h3
    exact ⟨digits_small k hk, pool_words n hp, hfound, (pool_lines n hp k hk).2.1⟩
  · simp only [List.mem_singleton] at h
    subst h
    obtain ⟨_, t2, t3, _, _⟩ := type_facts r.rType
    exact ⟨t2, t3⟩

theorem written_lines_plain (ns : List (List Char)) (hcount : ns.length ≤ 6)
    (hnames : ∀ n ∈ ns, n ∈ roomNames) :
    ∀ l ∈ connectionLines 1 ns, '\n' ∉ l ∧ strstr l "ROOM TYPE".toList = false := by
  intro l hl
  obtain ⟨k, n, h1, h2, h3, rfl⟩ := mem_connectionLines hl
  have hk := small_index h1 h2 hcount
  obtain ⟨p1, _, p3⟩ := pool_lines n (hnames n h3) k hk
  exact ⟨p3, p1⟩

theorem takeWhile_readLine (n : Nat) (s : List Char) :
    (readLine n s).1.takeWhile (fun c => c ≠ '\n') = (s.takeWhile (fun c => c ≠ '\n')).take n := by
  induction n generalizing s with
  | zero => simp [readLine]
  | succ n ih =>
    cases s with
    | nil => simp [readLine]
    | cons c s =>
      by_cases hc : c = '\n'
      · subst hc
        simp [readLine, List.takeWhile]
      · simp only [readLine, if_neg hc]
        have := ih s
        simp only [ne_eq, decide_not] at this
        simp [List.takeWhile, hc, this]

theorem take_eq_iff_of_short {E m : List Char} {n : Nat} (hm : m.length < n) :
    E.take n = m ↔ E = m := by
  constructor
  · intro h
    by_cases hE : E.length ≤ n
    · rw [List.take_of_length_le hE] at h; exact h
    · have : (E.take n).length = n := by simp; omega
      rw [h] at this
      omega
  · intro h
    subst h
    exact List.take_of_length_le (by omega)

theorem doorLoop_spec (dungeon : List Room) (loc : Room) (e : List Char) :
    ∀ (k i : Nat),
      (∀ j, i ≤ j → j < i + k → ∃ p y, loc.doors[j]? = some (some p) ∧ dungeon[p]? = some y) →
      ∃ b, doorLoop dungeon loc e k i = some b
        ∧ (b = true ↔ ∃ j, i ≤ j ∧ j < i + k ∧ doorName dungeon ((loc.doors[j]?).getD none) = some e) := by
  intro k
  induction k with
  | zero =>
    intro i _
    refine ⟨false, rfl, ?_⟩
    simp only [Bool.false_eq_true, false_iff, not_exists]
    intro j hj
    omega
  | succ k ih =>
    intro i h
    obtain ⟨p, y, hp, hy⟩ := h i (le_refl _) (by omega)
    obtain ⟨b, hb, hiff⟩ := ih (i + 1) (fun j h1 h2 => h j (by omega) (by omega))
    unfold doorLoop
    rw [hp]
    simp only
    rw [hy]
    simp only
    by_cases he : e = y.name
    · rw [if_pos he]
      refine ⟨true, rfl, ?_⟩
      simp only [true_iff]
      exact ⟨i, le_refl _, by omega, by simp [hp, doorName, hy, he]⟩
    · rw [if_neg he]
      refine ⟨b, hb, ?_⟩
      rw [hiff]
      constructor
      · rintro ⟨j, h1, h2, h3⟩
        exact ⟨j, by omega, by omega, h3⟩
      · rintro ⟨j, h1, h2, h3⟩
        by_cases hji : j = i
        · subst hji
          simp only [hp, Option.getD_some, doorName, hy, Option.some.injEq] at h3
          exact absurd h3.symm he
        · exact ⟨j, by omega, by omega, h3⟩

theorem mem_doorsOf_iff {dungeon : List Room} {location : Nat} {loc : Room}
    (hloc : dungeon[location]? = some loc) (hn : loc.numDoors ≤ loc.doors.length)
    (e : List Char) :
    (∃ j, 0 ≤ j ∧ j < 0 + loc.numDoors ∧ doorName dungeon ((loc.doors[j]?).getD none) = some e)
      ↔ ∃ door ∈ doorsOf dungeon location, doorName dungeon door = some e := by
  simp only [doorsOf, hloc]
  constructor
  · rintro ⟨j, _, hj, h⟩
    have hjl : j < loc.doors.length := by omega
    refine ⟨loc.doors[j], ?_, ?_⟩
    · rw [List.mem_take_iff_getElem]
      exact ⟨j, by simp; omega, rfl⟩
    · simpa [List.getElem?_eq_getElem hjl] using h
  · rintro ⟨door, hd, h⟩
    rw [List.mem_take_iff_getElem] at hd
    obtain ⟨j, hj, rfl⟩ := hd
    have hj2 : j < loc.numDoors ∧ j < loc.doors.length := by simpa using hj
    exact ⟨j, Nat.zero_le _, by omega, by simpa [List.getElem?_eq_getElem hj2.2] using h⟩

theorem GetRoomPtrFromName_ne_none {dungeon : List Room} {p : Nat} {y : Room}
    (hp : p < 7) (hy : dungeon[p]? = some y) : GetRoomPtrFromName y.name dungeon ≠ none := by
  intro h
  unfold GetRoomPtrFromName at h
  rw [List.findIdx?_eq_none_iff] at h
  have hpl : p < dungeon.length := (List.getElem?_eq_some_iff.1 hy).1
  have hmem : y ∈ dungeon.take NUM_ROOMS := by
    rw [List.mem_take_iff_getElem]
    refine ⟨p, by simp [NUM_ROOMS]; omega, ?_⟩
    rw [List.getElem?_eq_getElem hpl] at hy
    injection hy
  have := h y hmem
  simp at this

theorem cstr_takeWhile_readLine (n : Nat) (s : List Char) :
    (cstr (readLine n s).1).takeWhile (fun c => c ≠ '\n')
      = (s.takeWhile (fun c => c ≠ '\n' ∧ c ≠ '\x00')).take n := by
  induction n generalizing s with
  | zero => simp [readLine, cstr]
  | succ n ih =>
    cases s with
    | nil => simp [readLine, cstr]
    | cons c s =>
      by_cases hc : c = '\n'
      · subst hc
        simp [readLine, List.takeWhile, cstr]
      · simp only [readLine, if_neg hc]
        by_cases hz : c = '\x00'
        · subst hz
          simp [List.takeWhile, cstr]
        · have := ih s
          simp only [cstr, ne_eq, decide_not] at this
          simp [List.takeWhile, hc, hz, this, cstr]

theorem entry_eq (stdin : List Char) :
    (cstr (bufferAfter [] (fgets 200 stdin))).takeWhile (fun c => c ≠ '\n')
      = (stdin.takeWhile (fun c => c ≠ '\n' ∧ c ≠ '\x00')).take 199 := by
  cases stdin with
  | nil => simp [fgets, bufferAfter, cstr]
  | cons c s =>
    simp only [fgets, bufferAfter]
    exact cstr_takeWhile_readLine 199 (c :: s)

theorem doorName_short {dungeon : List Room} (hnames : ∀ r ∈ dungeon, r.name.length < 20)
    {door : Option Nat} {n : List Char} (h : doorName dungeon door = some n) : n.length < 20 := by
  cases door with
  | none => simp [doorName] at h
  | some p =>
    cases hy : dungeon[p]? with
    | none => simp [doorName, hy] at h
    | some y =>
      simp only [doorName, hy, Option.some.injEq] at h
      rw [← h]
      exact hnames y (List.getElem?_mem hy)

end Adventure

namespace Adventure

open Buildrooms (roomNames decimal connectionLines RoomTypeString)

/-- C9, as the code has it: room files on which the decoder does not do
what the marker rule says.  The dungeon is `demoDungeon` with room 4 as
`demoRoom` (no door yet).
In `longFirstFile` no line below the first has the marker `CONNECTION`, yet
`ParseRoomConnections` gives room 4 a door, to room 3: the 80-byte buffer cuts
the first line and its end is read as a line of its own.
In `longNumberFile` the one connection line names room 3, yet the door stored is
`NULL`: the line is cut inside its number and nothing is scanned.
In `spaceFile` the connection line names the room `Cor rea` of `spaceDungeon`,
room 3, yet the door stored is `NULL`: `%s` stops at the blank.
With `plainFile`, one connection line, called on a room that has 2 doors
already, `numDoors` ends at 3.
In `offsetTypeFile` the first line with `ROOM TYPE` says `MID_ROOM`, yet
`ParseRoomFile` gives `END_ROOM`: the line does not start with the marker.
In `offsetNameFile` the first line says `Gattis`, yet the name stays empty, and
in `nulNameFile` the name read ends at the NUL byte.
In `longNameFile` and `longTypeFile` a word of 20 characters overruns
`roomName[20]` or `roomType[20]`. -/
theorem decode_by_marker_counterexample :
    (ParseRoomConnections longFirstFile (demoDungeon.set 4 demoRoom) 4).map
          (fun d => (d[4]?).map (fun x => (x.numDoors, x.doors.take x.numDoors)))
        = some (some (1, [some 3]))
      ∧ (ParseRoomConnections longNumberFile (demoDungeon.set 4 demoRoom) 4).map
          (fun d => (d[4]?).map (fun x => (x.numDoors, x.doors.take x.numDoors)))
        = some (some (1, [none]))
      ∧ GetRoomPtrFromName "Correa".toList (demoDungeon.set 4 demoRoom) = some 3
      ∧ (ParseRoomConnections spaceFile spaceDungeon 4).map
          (fun d => (d[4]?).map (fun x => (x.numDoors, x.doors.take x.numDoors)))
        = some (some (1, [none]))
      ∧ GetRoomPtrFromName "Cor rea".toList spaceDungeon = some 3
      ∧ (ParseRoomConnections plainFile demoDungeon 4).map
          (fun d => (d[4]?).map (fun x => x.numDoors))
        = some (some 3)
      ∧ (ParseRoomFile offsetTypeFile demoRoom).map (fun x => (x.name, x.rt))
        = some ("Gattis".toList, RoomType.END_ROOM)
      ∧ (ParseRoomFile offsetNameFile demoRoom).map (fun x => (x.name, x.rt))
        = some ("".toList, RoomType.MID_ROOM)
      ∧ (ParseRoomFile nulNameFile demoRoom).map (fun x => (x.name, x.rt))
        = some ("Gat".toList, RoomType.MID_ROOM)
      ∧ ParseRoomFile longNameFile demoRoom = none
      ∧ ParseRoomFile longTypeFile demoRoom = none :=
  ⟨by decide, by decide, by decide, by decide, by decide, by decide, by decide, by decide,
    by decide, by decide, by decide⟩

/-- C9, amended.  Decoding goes by the marker a line carries, not by its
position.  Take a room file of newline-ended lines whose first line fits the
80-byte line buffer and in which every line below the first that carries the
marker `CONNECTION` reads `CONNECTION <number>: <name>` (digits, then a name
without white space that is the name of a room of the dungeon) and fits the line
buffer, at most six of them.  Then `ParseRoomConnections`, called as
`BuildDungeon` calls it (door counter at zero), stores in the doors of the room
the rooms named on those lines, in file order, and their count in `numDoors`,
and touches no other room, wherever the other lines (the `ROOM TYPE` line among
them) sit and however long they are.  And when the first line reads
`ROOM NAME: <name>` and the first line with the marker `ROOM TYPE` reads
`ROOM TYPE: <type>`, name and type being words of at most 19 characters,
`ParseRoomFile` takes the name from the first and the type from the second. -/
theorem decode_by_marker (dungeon : List Room) (i : Nat) (x : Room) (first : List Char)
    (ls : List FileLine) (hx : dungeon[i]? = some x) (hdoors : x.doors.length = 6)
    (hnum : x.numDoors = 0) (hfirst : '\n' ∉ first ∧ first.length < 79)
    (hls : ∀ l ∈ ls, l.WellFormed dungeon) (hcount : (connectionNames ls).length ≤ 6) :
    (∃ dungeon1 x1,
        ParseRoomConnections (unlines (first :: ls.map FileLine.text)) dungeon i = some dungeon1
          ∧ dungeon1[i]? = some x1
          ∧ x1.numDoors = (connectionNames ls).length
          ∧ x1.doors.take x1.numDoors
              = (connectionNames ls).map (fun n => GetRoomPtrFromName n dungeon)
          ∧ neighbourNames dungeon1 i = connectionNames ls
          ∧ ∀ j, j ≠ i → dungeon1[j]? = dungeon[j]?)
      ∧ ∀ (room : Room) (name ty : List Char) (pre post : List (List Char)),
          first = "ROOM NAME: ".toList ++ name → Word name → name.length < 20 →
          Word ty → ty.length < 20 →
          ls.map FileLine.text = pre ++ ("ROOM TYPE: ".toList ++ ty) :: post →
          (∀ l ∈ pre, strstr l "ROOM TYPE".toList = false) →
          ParseRoomFile (unlines (first :: ls.map FileLine.text)) room
            = some { room with name := name, rt := GetRoomTypeFromString ty } := by
  constructor
  · obtain ⟨d1, x1, h1, h2, h3, _, h5, h6, _, h8, _⟩ :=
      ParseRoomConnections_lines dungeon i x first ls hx hdoors hfirst hls hcount
    have hn : x1.numDoors = (connectionNames ls).length := by rw [h6, hnum]; omega
    refine ⟨d1, x1, h1, h2, hn, by rw [hn]; exact h8, ?_, h5⟩
    simp only [neighbourNames, doorsOf, h2, hn, h8, List.map_map]
    have hnamed := connectionNames_named hls
    calc List.map ((fun door => match doorName d1 door with
              | some n => n
              | none => []) ∘ fun n => GetRoomPtrFromName n dungeon) (connectionNames ls)
        = List.map id (connectionNames ls) := by
          apply List.map_congr_left
          intro n hn1
          simp only [Function.comp, id]
          rw [doorName_of_names h3, doorName_GetRoomPtrFromName (hnamed n hn1)]
      _ = connectionNames ls := List.map_id _
  · intro room name ty pre post hf hname hname20 hty hty20 hsplit hpre
    have htext : ∀ t ∈ ls.map FileLine.text, '\n' ∉ t := by
      intro t ht
      obtain ⟨l, hl, rfl⟩ := List.mem_map.1 ht
      exact WellFormed_text (hls l hl)
    rw [hsplit] at htext
    rw [hsplit, hf]
    apply ParseRoomFile_lines room name ty pre post hname hty hname20 hty20
    intro l hl
    exact ⟨htext l (by simp [hl]), hpre l hl⟩

/-- The room file of `demoLines` decoded into `demoRoom` (room 4 of
`demoDungeon` before its doors are read), as `decode_by_marker` says: the
doors are rooms 3 and 5 although a long line stands before the first connection
line and the type line between the two; name and type are read as well. -/
theorem decode_by_marker_witness :
    (∃ dungeon1 x1,
        ParseRoomConnections
            (unlines ("ROOM NAME: Gattis".toList :: demoLines.map FileLine.text))
            (demoDungeon.set 4 demoRoom) 4 = some dungeon1
          ∧ dungeon1[4]? = some x1
          ∧ x1.numDoors = (connectionNames demoLines).length
          ∧ x1.doors.take x1.numDoors
              = (connectionNames demoLines).map
                  (fun n => GetRoomPtrFromName n (demoDungeon.set 4 demoRoom))
          ∧ neighbourNames dungeon1 4 = connectionNames demoLines
          ∧ ∀ j, j ≠ 4 → dungeon1[j]? = (demoDungeon.set 4 demoRoom)[j]?)
      ∧ connectionNames demoLines = ["Correa".toList, "Gonzalez".toList]
      ∧ ParseRoomFile (unlines ("ROOM NAME: Gattis".toList :: demoLines.map FileLine.text))
            demoRoom
          = some { demoRoom with name := "Gattis".toList,
                                 rt := GetRoomTypeFromString "MID_ROOM".toList } :=
  ⟨(decode_by_marker (demoDungeon.set 4 demoRoom) 4 demoRoom "ROOM NAME: Gattis".toList
      demoLines (by decide) (by decide) (by decide) (by decide) (by decide) (by decide)).1,
    by decide,
    (decode_by_marker (demoDungeon.set 4 demoRoom) 4 demoRoom "ROOM NAME: Gattis".toList
      demoLines (by decide) (by decide) (by decide) (by decide) (by decide) (by decide)).2
      demoRoom "Gattis".toList "MID_ROOM".toList
      [List.replicate 100 '#', "CONNECTION 1: Correa".toList] ["CONNECTION 2: Gonzalez".toList]
      rfl (by decide) (by decide) (by decide) (by decide) (by decide) (by decide)⟩

/-- C5. Round trip.  Take a graph of seven rooms as the generator builds them:
pairwise distinct names from the ten-name pool, at most 6 connections a room,
every connection pointing into the room list.  `WriteRoomFiles` writes its seven
files, and the two loops of `BuildDungeon` over these files, from any dungeon
array of seven rooms, yield seven rooms such that room `i` has id `i` and the
name and the room type of room `i` of the graph, as many doors as that room has
connections, each door pointing to the room of the same index as the connection
it comes from, and so the same neighbour names in the same order.  In
particular room 0 (the Start room) and room 6 (the End room) are read back with
their names and types. -/
theorem round_trip (g : List Buildrooms.Room) (dungeon0 : List Room)
    (hlen : g.length = 7)
    (hnodup : (g.map Buildrooms.Room.name).Nodup)
    (hpool : ∀ r ∈ g, r.name ∈ roomNames)
    (hg : ∀ r ∈ g, r.numOutboundConnections ≤ 6 ∧ r.outboundConnections.length = 6
      ∧ ∀ p ∈ r.outboundConnections.take r.numOutboundConnections, p < 7)
    (hd0 : dungeon0.length = 7) (hdoors0 : ∀ x ∈ dungeon0, x.doors.length = 6) :
    ∃ files dungeon, Buildrooms.WriteRoomFiles g 7 = some files
      ∧ BuildDungeon (directory files) dungeon0 = some dungeon
      ∧ dungeon.length = 7
      ∧ ∀ (i : Nat) (r : Buildrooms.Room), g[i]? = some r →
          ∃ x, dungeon[i]? = some x ∧ x.id = i ∧ x.name = r.name ∧ x.rt = r.rType
            ∧ x.numDoors = r.numOutboundConnections
            ∧ x.doors.take x.numDoors = (Buildrooms.connections g i).map some
            ∧ neighbourNames dungeon i = Buildrooms.neighbourNames g i := by
  have hconn := Buildrooms.connections_indexed hg
  obtain ⟨files, hW, hl, hfiles⟩ := Buildrooms.WriteRoomFiles_spec g hlen hconn
  -- the content of file `t`, and its lines as the reader meets them
  let first : Nat → List Char := fun t => match g[t]? with
    | some r => "ROOM NAME: ".toList ++ r.name
    | none => []
  let ls : Nat → List FileLine := fun t => match g[t]? with
    | some r => writtenConnections 1 (Buildrooms.neighbourNames g t)
        ++ [FileLine.other ("ROOM TYPE: ".toList ++ RoomTypeString r.rType)]
    | none => []
  have hfile : ∀ t, t < 7 →
      directory files (roomFileName t) = some (unlines (first t :: (ls t).map FileLine.text)) := by
    apply directory_written files _ hl
    intro t ht
    have htl : t < g.length := by omega
    have hr := List.getElem?_eq_getElem htl
    rw [(hfiles t _ hr).1, (written_file_lines g hlen hpool hconn t _ hr).2.2]
    simp only [first, ls, hr]
  -- first pass
  let parsed : Nat → Room → Room := fun t x => match g[t]? with
    | some r => { x with name := r.name, rt := r.rType }
    | none => x
  have hparse : ∀ t, t < 7 → ∀ x : Room,
      ParseRoomFile (unlines (first t :: (ls t).map FileLine.text)) x = some (parsed t x) := by
    intro t ht x
    have htl : t < g.length := by omega
    have hr := List.getElem?_eq_getElem htl
    obtain ⟨w1, w2, _⟩ := written_file_lines g hlen hpool hconn t _ hr
    have hwf := written_lines_plain (Buildrooms.neighbourNames g t)
      (by rw [w1]; exact (hconn t _ hr).1) w2
    simp only [first, ls, parsed, hr, List.map_append, map_text_writtenConnections,
      List.map_cons, List.map_nil, FileLine.text]
    rw [ParseRoomFile_lines _ g[t].name (RoomTypeString g[t].rType) _ []
      (pool_words _ (hpool _ (List.getElem_mem htl))) (type_facts g[t].rType).1
      (pool_short _ (hpool _ (List.getElem_mem htl))) (type_short g[t].rType) hwf]
    rw [(type_facts g[t].rType).2.2.2.2]
  obtain ⟨d1, hd1, hd1len, hd1at⟩ := readRooms_spec (directory files)
    (fun t => unlines (first t :: (ls t).map FileLine.text)) parsed 7 0 dungeon0 (by omega)
    (fun t _ ht => ⟨hfile t (by omega), hparse t (by omega)⟩)
  have hd1room : ∀ (t : Nat) (r : Buildrooms.Room), g[t]? = some r →
      ∃ x0, dungeon0[t]? = some x0 ∧ x0.doors.length = 6
        ∧ d1[t]? = some { x0 with id := t, numDoors := 0, name := r.name, rt := r.rType } := by
    intro t r hr
    have ht : t < 7 := by
      have := (List.getElem?_eq_some_iff.1 hr).1
      omega
    have ht0 : t < dungeon0.length := by omega
    have hx0 := List.getElem?_eq_getElem ht0
    refine ⟨dungeon0[t], hx0, hdoors0 _ (List.getElem_mem ht0), ?_⟩
    rw [hd1at t, if_pos ⟨Nat.zero_le _, by omega⟩, hx0]
    simp only [Option.map_some', parsed, hr]
  have hd1names : d1.map Room.name = g.map Buildrooms.Room.name := by
    apply List.ext_getElem?
    intro t
    simp only [List.getElem?_map]
    by_cases ht : t < 7
    · have htl : t < g.length := by omega
      have hr := List.getElem?_eq_getElem htl
      obtain ⟨x0, _, _, h3⟩ := hd1room t _ hr
      rw [h3, hr]
      rfl
    · rw [List.getElem?_eq_none (by omega), List.getElem?_eq_none (by omega)]
      rfl
  have hd1nodup : (d1.map Room.name).Nodup := by rw [hd1names]; exact hnodup
  have hfind : ∀ (p : Nat), p < 7 → GetRoomPtrFromName (Buildrooms.nameAt g p) d1 = some p := by
    intro p hp
    have hpl : p < g.length := by omega
    have hr := List.getElem?_eq_getElem hpl
    obtain ⟨x0, _, _, h3⟩ := hd1room p _ hr
    have := GetRoomPtrFromName_index (by omega) hd1nodup h3
    simpa [Buildrooms.nameAt, hr] using this
  -- second pass
  obtain ⟨d2, hd2, hd2names, hd2len, _, hd2at⟩ := connectRooms_spec (directory files) d1 first ls
    7 0 d1 rfl
    (by
      intro t _ ht
      have htl : t < g.length := by omega
      have hr := List.getElem?_eq_getElem htl
      obtain ⟨x0, _, hx0d, h3⟩ := hd1room t _ hr
      obtain ⟨w1, w2, _⟩ := written_file_lines g hlen hpool hconn t _ hr
      obtain ⟨c1, _, c3⟩ := hconn t _ hr
      have hfirstline : first t = "ROOM NAME: ".toList ++ g[t].name := by simp only [first, hr]
      have hlines : ls t = writtenConnections 1 (Buildrooms.neighbourNames g t)
          ++ [FileLine.other ("ROOM TYPE: ".toList ++ RoomTypeString g[t].rType)] := by
        simp only [ls, hr]
      refine ⟨hfile t (by omega), ?_, ?_, ?_, _, h3, hx0d⟩
      · rw [hfirstline]
        refine ⟨?_, pool_name_lines _ (hpool _ (List.getElem_mem htl))⟩
        simp only [List.mem_append, not_or]
        exact ⟨by decide, word_no_newline (pool_words _ (hpool _ (List.getElem_mem htl)))⟩
      · rw [hlines]
        apply wellFormed_written g d1 t g[t] (by rw [w1]; exact c1)
        intro n hn
        refine ⟨w2 n hn, ?_⟩
        simp only [Buildrooms.neighbourNames, List.mem_map] at hn
        obtain ⟨p, hp, rfl⟩ := hn
        rw [hfind p (c3 p hp)]
        simp
      · rw [hlines, connectionNames_written, w1]
        exact c1)
  refine ⟨files, d2, hW, ?_, by omega, ?_⟩
  · unfold BuildDungeon
    rw [show NUM_ROOMS = 7 from rfl, hd1]
    exact hd2
  · intro i r hr
    have hi : i < 7 := by
      have := (List.getElem?_eq_some_iff.1 hr).1
      omega
    obtain ⟨x0, _, _, h3⟩ := hd1room i r hr
    obtain ⟨w1, _, _⟩ := written_file_lines g hlen hpool hconn i r hr
    obtain ⟨c1, _, c3⟩ := hconn i r hr
    obtain ⟨x, x2, e1, e2, e3, e4, e5, e6, e7⟩ := hd2at i (Nat.zero_le _) (by omega)
    have hlines : ls i = writtenConnections 1 (Buildrooms.neighbourNames g i)
        ++ [FileLine.other ("ROOM TYPE: ".toList ++ RoomTypeString r.rType)] := by
      simp only [ls, hr]
    rw [hlines, connectionNames_written] at e3 e4
    rw [h3] at e1
    injection e1 with e1
    subst e1
    have hnum : x2.numDoors = r.numOutboundConnections := by
      rw [e3, w1]; simp
    have hdoors : x2.doors.take x2.numDoors = (Buildrooms.connections g i).map some := by
      rw [hnum, ← w1, e4]
      simp only [Buildrooms.neighbourNames, List.map_map]
      apply List.map_congr_left
      intro p hp
      exact hfind p (c3 p hp)
    refine ⟨x2, e2, e5, e6, e7, hnum, hdoors, ?_⟩
    simp only [neighbourNames, doorsOf, e2, hdoors, List.map_map, Buildrooms.neighbourNames]
    apply List.map_congr_left
    intro p hp
    have hp7 := c3 p hp
    have hpl : p < g.length := by omega
    have hrp := List.getElem?_eq_getElem hpl
    obtain ⟨y0, _, _, hy⟩ := hd1room p _ hrp
    have hname2 : (d2.map Room.name)[p]? = (d1.map Room.name)[p]? := by rw [hd2names]
    simp only [List.getElem?_map, hy, Option.map_some'] at hname2
    cases hd2p : d2[p]? with
    | none => simp [hd2p] at hname2
    | some y2 =>
      simp only [hd2p, Option.map_some', Option.some.injEq] at hname2
      simp only [Function.comp, doorName, hd2p, Buildrooms.nameAt, hrp]
      exact hname2

/-- The files written for `demoGraph` read back into `demoDungeon0`, as
`round_trip` says. -/
theorem round_trip_witness :
    ∃ files dungeon, Buildrooms.WriteRoomFiles Buildrooms.demoGraph 7 = some files
      ∧ BuildDungeon (directory files) demoDungeon0 = some dungeon
      ∧ dungeon.length = 7
      ∧ ∀ (i : Nat) (r : Buildrooms.Room), Buildrooms.demoGraph[i]? = some r →
          ∃ x, dungeon[i]? = some x ∧ x.id = i ∧ x.name = r.name ∧ x.rt = r.rType
            ∧ x.numDoors = r.numOutboundConnections
            ∧ x.doors.take x.numDoors = (Buildrooms.connections Buildrooms.demoGraph i).map some
            ∧ neighbourNames dungeon i = Buildrooms.neighbourNames Buildrooms.demoGraph i :=
  round_trip Buildrooms.demoGraph demoDungeon0 (by decide) (by decide) (by decide) (by decide)
    (by decide) (by decide)

/-- C6, as the code has it.  In `demoDungeon` at room 0, whose doors are rooms
of the dungeon, the input line `time`, a NUL byte, `junk` is accepted: the C
string in the buffer ends at the NUL byte, so the entry is `time`.  The input up
to its first newline is neither `time` nor the name of a door. -/
theorem user_response_counterexample :
    (∀ door ∈ doorsOf demoDungeon 0, doorName demoDungeon door ≠ none)
      ∧ (GetUserResponse [] "time\x00junk\n".toList demoDungeon 0).map
          (fun resp => (resp.result, resp.uEntry)) = some (true, "time".toList)
      ∧ ("time\x00junk\n".toList).takeWhile (fun c => c ≠ '\n') ≠ "time".toList
      ∧ ∀ door ∈ doorsOf demoDungeon 0,
          doorName demoDungeon door
            ≠ some (("time\x00junk\n".toList).takeWhile (fun c => c ≠ '\n')) := by
  decide

/-- C6, amended.  In a dungeon of seven rooms (names shorter than the 20 bytes of
`name`) in which every door of the current location is a room of the dungeon,
`GetUserResponse`, called on a cleared buffer as `PlayGame` calls it, returns true
if and only if the entry, the input up to its first newline or NUL byte, is
`time` or the name of one of the doors of the current location; it then prints
nothing.  In every other case it returns false and has printed
`HUH? I DON'T UNDERSTAND THAT ROOM. TRY AGAIN.` between two newlines. -/
theorem user_response_accepts (dungeon : List Room) (location : Nat) (loc : Room)
    (stdin : List Char) (hlen : dungeon.length = 7)
    (hnames : ∀ r ∈ dungeon, r.name.length < 20)
    (hloc : dungeon[location]? = some loc)
    (hnum : loc.numDoors ≤ loc.doors.length)
    (hdoors : ∀ door ∈ doorsOf dungeon location, doorName dungeon door ≠ none) :
    ∃ resp, GetUserResponse [] stdin dungeon location = some resp
      ∧ (resp.result = true ↔
          stdin.takeWhile (fun c => c ≠ '\n' ∧ c ≠ '\x00') = "time".toList
            ∨ ∃ door ∈ doorsOf dungeon location,
                doorName dungeon door = some (stdin.takeWhile (fun c => c ≠ '\n' ∧ c ≠ '\x00')))
      ∧ (resp.result = true → resp.printed = [])
      ∧ (resp.result = false → resp.printed = "\nHUH? I DON'T UNDERSTAND THAT ROOM. TRY AGAIN.\n".toList) := by
  have hdoors : ∀ door ∈ doorsOf dungeon location, ∃ p, door = some p ∧ p < 7 := by
    intro door hd
    have hne := hdoors door hd
    cases door with
    | none => exact absurd rfl hne
    | some p =>
      refine ⟨p, rfl, ?_⟩
      cases hy : dungeon[p]? with
      | none => simp [doorName, hy] at hne
      | some y =>
        have := (List.getElem?_eq_some_iff.1 hy).1
        omega
  have hidx : ∀ j, 0 ≤ j → j < 0 + loc.numDoors →
      ∃ p y, loc.doors[j]? = some (some p) ∧ dungeon[p]? = some y := by
    intro j _ hj
    have hjl : j < loc.doors.length := by omega
    have hmem : loc.doors[j] ∈ doorsOf dungeon location := by
      simp only [doorsOf, hloc]
      rw [List.mem_take_iff_getElem]
      exact ⟨j, by simp; omega, rfl⟩
    obtain ⟨p, hp, hp7⟩ := hdoors _ hmem
    exact ⟨p, dungeon[p], by rw [List.getElem?_eq_getElem hjl, hp],
      List.getElem?_eq_getElem (by omega)⟩
  -- the entry the code works with is the first 199 characters of the line
  have hshort : ∀ m : List Char, m.length < 20 →
      ((stdin.takeWhile (fun c => c ≠ '\n' ∧ c ≠ '\x00')).take 199 = m
        ↔ stdin.takeWhile (fun c => c ≠ '\n' ∧ c ≠ '\x00') = m) :=
    fun m hm => take_eq_iff_of_short (by omega)
  have hdoor : (∃ door ∈ doorsOf dungeon location,
        doorName dungeon door = some ((stdin.takeWhile (fun c => c ≠ '\n' ∧ c ≠ '\x00')).take 199))
      ↔ ∃ door ∈ doorsOf dungeon location,
          doorName dungeon door = some (stdin.takeWhile (fun c => c ≠ '\n' ∧ c ≠ '\x00')) := by
    constructor
    · rintro ⟨door, hd, h⟩
      have := (hshort _ (doorName_short hnames h)).1 rfl
      exact ⟨door, hd, by rw [h]; exact congrArg some this.symm⟩
    · rintro ⟨door, hd, h⟩
      have := (hshort _ (doorName_short hnames h)).2 rfl
      exact ⟨door, hd, by rw [this]; exact h⟩
  have htime : (stdin.takeWhile (fun c => c ≠ '\n' ∧ c ≠ '\x00')).take 199 = "time".toList
      ↔ stdin.takeWhile (fun c => c ≠ '\n' ∧ c ≠ '\x00') = "time".toList :=
    hshort _ (by decide)
  obtain ⟨b, hb, hiff⟩ := doorLoop_spec dungeon loc
    ((stdin.takeWhile (fun c => c ≠ '\n' ∧ c ≠ '\x00')).take 199) loc.numDoors 0 hidx
  rw [mem_doorsOf_iff hloc hnum, hdoor] at hiff
  rw [← htime]
  unfold GetUserResponse
  simp only [entry_eq, hloc]
  by_cases hfound : GetRoomPtrFromName ((stdin.takeWhile (fun c => c ≠ '\n' ∧ c ≠ '\x00')).take 199) dungeon
      ≠ none
  · rw [if_pos hfound, hb]
    cases b with
    | true =>
      exact ⟨_, rfl, ⟨fun _ => Or.inr (hiff.1 rfl), fun _ => rfl⟩, fun _ => rfl,
        fun h => Bool.noConfusion h⟩
    | false =>
      have hno : ¬ ∃ door ∈ doorsOf dungeon location,
          doorName dungeon door = some (stdin.takeWhile (fun c => c ≠ '\n' ∧ c ≠ '\x00')) :=
        fun h => Bool.noConfusion (hiff.2 h)
      simp only
      by_cases ht : (stdin.takeWhile (fun c => c ≠ '\n' ∧ c ≠ '\x00')).take 199 = "time".toList
      · rw [if_pos ht]
        exact ⟨_, rfl, ⟨fun _ => Or.inl ht, fun _ => rfl⟩, fun _ => rfl,
          fun h => Bool.noConfusion h⟩
      · rw [if_neg ht]
        exact ⟨_, rfl, ⟨fun h => Bool.noConfusion h,
          fun h => h.elim (fun h1 => absurd h1 ht) (fun h1 => absurd h1 hno)⟩,
          fun h => Bool.noConfusion h, fun _ => rfl⟩
  · rw [if_neg hfound]
    have hno : ¬ ∃ door ∈ doorsOf dungeon location,
        doorName dungeon door = some (stdin.takeWhile (fun c => c ≠ '\n' ∧ c ≠ '\x00')) := by
      rw [← hdoor]
      rintro ⟨door, hd, h⟩
      obtain ⟨p, hp, hp7⟩ := hdoors door hd
      subst hp
      cases hy : dungeon[p]? with
      | none => simp [doorName, hy] at h
      | some y =>
        simp only [doorName, hy, Option.some.injEq] at h
        apply hfound
        rw [← h]
        exact GetRoomPtrFromName_ne_none hp7 hy
    simp only
    by_cases ht : (stdin.takeWhile (fun c => c ≠ '\n' ∧ c ≠ '\x00')).take 199 = "time".toList
    · rw [if_pos ht]
      exact ⟨_, rfl, ⟨fun _ => Or.inl ht, fun _ => rfl⟩, fun _ => rfl,
        fun h => Bool.noConfusion h⟩
    · rw [if_neg ht]
      exact ⟨_, rfl, ⟨fun h => Bool.noConfusion h,
        fun h => h.elim (fun h1 => absurd h1 ht) (fun h1 => absurd h1 hno)⟩,
        fun h => Bool.noConfusion h, fun _ => rfl⟩

/-- In `demoDungeon` at room 0 the line `Beltran` is accepted, as
`user_response_accepts` says. -/
theorem user_response_accepts_witness :
    ∃ resp, GetUserResponse [] "Beltran\nCorrea\n".toList demoDungeon 0 = some resp
      ∧ (resp.result = true ↔
          ("Beltran\nCorrea\n".toList).takeWhile (fun c => c ≠ '\n' ∧ c ≠ '\x00') = "time".toList
            ∨ ∃ door ∈ doorsOf demoDungeon 0,
                doorName demoDungeon door
                  = some (("Beltran\nCorrea\n".toList).takeWhile (fun c => c ≠ '\n' ∧ c ≠ '\x00')))
      ∧ (resp.result = true → resp.printed = [])
      ∧ (resp.result = false → resp.printed = "\nHUH? I DON'T UNDERSTAND THAT ROOM. TRY AGAIN.\n".toList) :=
  user_response_accepts demoDungeon 0 _ "Beltran\nCorrea\n".toList (by decide) (by decide) rfl
    (by decide) (by decide)

end Adventure

/-! ## The builder: effect of a call, types, counts -/

namespace Buildrooms

theorem AddRandomConnection_rooms {g mid next : List Room} {rs rs1 : List Nat}
    (h : AddRandomConnection rs g NUM_ROOMS = some (mid, next, rs1)) :
    ∃ A B a b, g[A]? = some a ∧ g[B]? = some b ∧ a.numOutboundConnections < 6
      ∧ b.numOutboundConnections < 6 ∧ A ≠ B ∧ B ∉ connections g A
      ∧ mid = connectAt g A B ∧ next = connectAt (connectAt g A B) B A
      ∧ next.length = g.length
      ∧ ∀ z, next[z]? = if z = B then some (ConnectRoom b A)
          else if z = A then some (ConnectRoom a B) else g[z]? := by
  unfold AddRandomConnection at h
  cases hc : chooseRooms rs g NUM_ROOMS with
  | none => simp [hc] at h
  | some p =>
    obtain ⟨A, B, rs2⟩ := p
    rw [hc] at h
    simp only [Option.some.injEq, Prod.mk.injEq] at h
    obtain ⟨a, b, ha, hb, hak, hbk, hne, hnc⟩ := chooseRooms_spec hc
    obtain ⟨h1, h2, _⟩ := h
    have hb1 : (connectAt g A B)[B]? = some b := by
      rw [getElem?_connectAt ha, if_neg (Ne.symm hne)]; exact hb
    refine ⟨A, B, a, b, ha, hb, hak, hbk, hne, hnc, h1.symm, h2.symm, ?_, ?_⟩
    · rw [← h2, length_connectAt, length_connectAt]
    · intro z
      rw [← h2, getElem?_connectAt hb1, getElem?_connectAt ha]

theorem TypedByPosition_AddRandomConnection {g mid next : List Room} {rs rs1 : List Nat}
    (hg : TypedByPosition g) (h : AddRandomConnection rs g NUM_ROOMS = some (mid, next, rs1)) :
    TypedByPosition next := by
  obtain ⟨A, B, a, b, ha, hb, _, _, _, _, _, _, hlen, hz⟩ := AddRandomConnection_rooms h
  refine ⟨hlen.trans hg.1, ?_⟩
  intro i r hr
  rw [hz i] at hr
  by_cases hiB : i = B
  · rw [if_pos hiB] at hr
    injection hr with hr
    subst hr
    subst hiB
    exact hg.2 i b hb
  · rw [if_neg hiB] at hr
    by_cases hiA : i = A
    · rw [if_pos hiA] at hr
      injection hr with hr
      subst hr
      subst hiA
      exact hg.2 i a ha
    · rw [if_neg hiA] at hr
      exact hg.2 i r hr

theorem TypedByPosition_buildLoop :
    ∀ (fuel : Nat) (rs : List Nat) (g : List Room) (trace : List (List Room))
      (final : List Room) (rest : List Nat),
      TypedByPosition g → buildLoop fuel rs g = some (trace, final, rest) →
      TypedByPosition final := by
  intro fuel
  induction fuel with
  | zero => intro rs g trace final rest _ h; simp [buildLoop] at h
  | succ fuel ih =>
    intro rs g trace final rest hg h
    unfold buildLoop at h
    by_cases hfull : IsGraphFull g NUM_ROOMS = false
    · rw [if_pos hfull] at h
      cases hc : AddRandomConnection rs g NUM_ROOMS with
      | none => simp [hc] at h
      | some p =>
        obtain ⟨mid, next, rs1⟩ := p
        rw [hc] at h
        simp only at h
        cases hb : buildLoop fuel rs1 next with
        | none => simp [hb] at h
        | some q =>
          obtain ⟨tr, fin, rs2⟩ := q
          rw [hb] at h
          simp only [Option.some.injEq, Prod.mk.injEq] at h
          obtain ⟨_, h2, _⟩ := h
          subst h2
          exact ih rs1 next tr fin rs2 (TypedByPosition_AddRandomConnection hg hc) hb
    · rw [if_neg hfull] at h
      simp only [Option.some.injEq, Prod.mk.injEq] at h
      obtain ⟨_, h2, _⟩ := h
      subst h2
      exact hg

theorem TypedByPosition_initRooms (names : List (List Char)) (stack : Nat → List Nat) :
    TypedByPosition (initRooms names stack) := by
  refine ⟨by simp [initRooms, NUM_ROOMS], ?_⟩
  intro i r hr
  have hi : i < 7 := by
    have := (List.getElem?_eq_some_iff.1 hr).1
    simpa [initRooms, NUM_ROOMS] using this
  have hr2 : r = initRoom i (names.getD i []) (stack i) := by
    simp only [initRooms, NUM_ROOMS, List.getElem?_map, List.getElem?_range hi,
      Option.map_some', Option.some.injEq] at hr
    exact hr.symm
  subst hr2
  interval_cases i <;> simp [initRoom, NUM_ROOMS]

theorem connections_ConnectRoom {g : List Room} {x y : Nat} {r : Room}
    (hx : g[x]? = some (ConnectRoom r y))
    (hk : r.numOutboundConnections < r.outboundConnections.length) :
    connections g x = r.outboundConnections.take r.numOutboundConnections ++ [y] := by
  rw [connections_eq hx]
  simp only [ConnectRoom]
  exact take_set_succ _ _ _ hk

/-- C11. The room types are fixed by position, whatever `rand()` returns: the
rooms `main` has initialised, and still the rooms the build loop ends with, are
seven rooms of which room `i` has id `i`, room 0 and no other has type
`START_ROOM`, room 6 and no other has type `END_ROOM`, and rooms 1 to 5 and no
others have type `MID_ROOM`. -/
theorem types_fixed_by_position (RAND_MAX : Nat) (rs rs1 : List Nat) (stack : Nat → List Nat)
    (rooms : List Room) (h : mainInit RAND_MAX rs stack = some (rooms, rs1)) :
    TypedByPosition rooms
      ∧ ∀ (fuel : Nat) (trace : List (List Room)) (final : List Room) (rest : List Nat),
          buildLoop fuel rs1 rooms = some (trace, final, rest) → TypedByPosition final := by
  have hrooms : TypedByPosition rooms := by
    unfold mainInit at h
    cases hs : RoomNameListShuffle RAND_MAX rs roomNames 10 with
    | none => simp [hs] at h
    | some p =>
      obtain ⟨names, rs2⟩ := p
      rw [hs] at h
      simp only [Option.some.injEq, Prod.mk.injEq] at h
      rw [← h.1]
      exact TypedByPosition_initRooms names stack
  exact ⟨hrooms, fun fuel trace final rest hb =>
    TypedByPosition_buildLoop fuel rs1 rooms trace final rest hrooms hb⟩

/-- The rooms `main` initialises from a concrete shuffle, as
`types_fixed_by_position` says. -/
theorem types_fixed_by_position_witness :
    ∃ rooms rs1,
      mainInit 32767 ([5, 32767, 0, 20000, 7, 12345, 30000, 1, 2] ++ demoRand)
          (fun _ => demoSlots) = some (rooms, rs1)
        ∧ TypedByPosition rooms
        ∧ ∀ (fuel : Nat) (trace : List (List Room)) (final : List Room) (rest : List Nat),
            buildLoop fuel rs1 rooms = some (trace, final, rest) → TypedByPosition final :=
  match h : mainInit 32767 ([5, 32767, 0, 20000, 7, 12345, 30000, 1, 2] ++ demoRand)
      (fun _ => demoSlots) with
  | some (rooms, rs1) =>
    ⟨rooms, rs1, rfl, types_fixed_by_position 32767 _ rs1 (fun _ => demoSlots) rooms h⟩
  | none => absurd h (by decide)

/-- C17. Every completed call of `AddRandomConnection`, on an array whose rooms
have their six slots, picks two distinct rooms `A` and `B` that each had fewer
than 6 connections, `B` not being among the connections of `A` (nor `A` among
those of `B` when connections are symmetric).  It stores `B` in the first free
slot of `A` and `A` in the first free slot of `B` and adds 1 to both counters, so
that `B` is appended to the connections of `A` and `A` to those of `B`.  Every
other slot of `A` and `B`, every other room, and the id, name and type of every
room are as before. -/
theorem add_random_connection_effect (rs rs1 : List Nat) (g mid next : List Room)
    (hslots : ∀ r ∈ g, r.outboundConnections.length = 6)
    (h : AddRandomConnection rs g NUM_ROOMS = some (mid, next, rs1)) :
    ∃ A B a b, A ≠ B ∧ g[A]? = some a ∧ g[B]? = some b
      ∧ a.numOutboundConnections < 6 ∧ b.numOutboundConnections < 6
      ∧ B ∉ connections g A
      ∧ ((∀ x y, y ∈ connections g x → x ∈ connections g y) → A ∉ connections g B)
      ∧ next.length = g.length
      ∧ next[A]? = some { a with
          outboundConnections := a.outboundConnections.set a.numOutboundConnections B
          numOutboundConnections := a.numOutboundConnections + 1 }
      ∧ next[B]? = some { b with
          outboundConnections := b.outboundConnections.set b.numOutboundConnections A
          numOutboundConnections := b.numOutboundConnections + 1 }
      ∧ (∀ z, z ≠ A → z ≠ B → next[z]? = g[z]?)
      ∧ connections next A = connections g A ++ [B]
      ∧ connections next B = connections g B ++ [A] := by
  obtain ⟨A, B, a, b, ha, hb, hak, hbk, hne, hnc, _, _, hlen, hz⟩ := AddRandomConnection_rooms h
  have hA : next[A]? = some (ConnectRoom a B) := by
    rw [hz A, if_neg hne, if_pos rfl]
  have hB : next[B]? = some (ConnectRoom b A) := by
    rw [hz B, if_pos rfl]
  have hla := hslots a (List.getElem?_mem ha)
  have hlb := hslots b (List.getElem?_mem hb)
  refine ⟨A, B, a, b, hne, ha, hb, hak, hbk, hnc, fun hsym hAB => hnc (hsym B A hAB), hlen,
    hA, hB, ?_, ?_, ?_⟩
  · intro z hzA hzB
    rw [hz z, if_neg hzB, if_neg hzA]
  · rw [connections_ConnectRoom hA (by omega), connections_eq ha]
  · rw [connections_ConnectRoom hB (by omega), connections_eq hb]

/-- The call that connects rooms 0 and 1 of `demoRooms`, as
`add_random_connection_effect` says. -/
theorem add_random_connection_effect_witness :
    ∃ A B a b, A ≠ B ∧ demoRooms[A]? = some a ∧ demoRooms[B]? = some b
      ∧ a.numOutboundConnections < 6 ∧ b.numOutboundConnections < 6
      ∧ B ∉ connections demoRooms A
      ∧ ((∀ x y, y ∈ connections demoRooms x → x ∈ connections demoRooms y)
          → A ∉ connections demoRooms B)
      ∧ (connectAt (connectAt demoRooms 0 1) 1 0).length = demoRooms.length
      ∧ (connectAt (connectAt demoRooms 0 1) 1 0)[A]? = some { a with
          outboundConnections := a.outboundConnections.set a.numOutboundConnections B
          numOutboundConnections := a.numOutboundConnections + 1 }
      ∧ (connectAt (connectAt demoRooms 0 1) 1 0)[B]? = some { b with
          outboundConnections := b.outboundConnections.set b.numOutboundConnections A
          numOutboundConnections := b.numOutboundConnections + 1 }
      ∧ (∀ z, z ≠ A → z ≠ B → (connectAt (connectAt demoRooms 0 1) 1 0)[z]? = demoRooms[z]?)
      ∧ connections (connectAt (connectAt demoRooms 0 1) 1 0) A = connections demoRooms A ++ [B]
      ∧ connections (connectAt (connectAt demoRooms 0 1) 1 0) B
          = connections demoRooms B ++ [A] :=
  add_random_connection_effect [0, 1] [] demoRooms _ _ (by decide) demo_call

theorem Reachable_runCalls {g0 : List Room} :
    ∀ (k : Nat) (rs rest : List Nat) (g s : List Room),
      Reachable g0 g → runCalls k rs g = some (s, rest) → Reachable g0 s := by
  intro k
  induction k with
  | zero =>
    intro rs rest g s hg h
    simp only [runCalls, Option.some.injEq, Prod.mk.injEq] at h
    rw [← h.1]
    exact hg
  | succ k ih =>
    intro rs rest g s hg h
    unfold runCalls at h
    cases hc : AddRandomConnection rs g NUM_ROOMS with
    | none => simp [hc] at h
    | some p =>
      obtain ⟨mid, next, rs1⟩ := p
      rw [hc] at h
      exact ih rs1 rest next s (Reachable.call hg hc) h

theorem staleState_run : runCalls 5 staleRand staleRooms = some (staleState, []) := by
  decide

/-- C15: the code at a failing input.  `staleRoom` has one connection, to room
3, so room 5 is not among its connections; `ConnectionAlreadyExists(staleRoom, 5)`
is true all the same, because the loop also reads the slot of index 1.  With
another value in that slot (`freshRoom`, the same counter and the same first
slot) the result is false. -/
theorem connection_exists_reads_next_slot :
    ConnectionAlreadyExists staleRoom 5 = true
      ∧ 5 ∉ staleRoom.outboundConnections.take staleRoom.numOutboundConnections
      ∧ freshRoom.numOutboundConnections = staleRoom.numOutboundConnections
      ∧ freshRoom.outboundConnections.take freshRoom.numOutboundConnections
          = staleRoom.outboundConnections.take staleRoom.numOutboundConnections
      ∧ ConnectionAlreadyExists freshRoom 5 = false := by
  decide

theorem staleState_rejects_all :
    ∀ B, B < 7 →
      (match staleState[0]?, staleState[B]? with
        | some a, some b =>
          (CanAddConnectionFrom b = false || IsSameRoom 0 B = true
            || ConnectionAlreadyExists a B = true)
        | _, _ => false) = true := by
  decide

theorem staleState_rejects (B : Nat) (hB : B < 7) :
    ∃ a b, staleState[0]? = some a ∧ staleState[B]? = some b
      ∧ (CanAddConnectionFrom b = false || IsSameRoom 0 B = true
          || ConnectionAlreadyExists a B = true) = true := by
  have h := staleState_rejects_all B hB
  cases h0 : staleState[0]? with
  | none => simp [h0] at h
  | some a =>
    cases hb : staleState[B]? with
    | none => simp [h0, hb] at h
    | some b =>
      rw [h0, hb] at h
      exact ⟨a, b, rfl, rfl, h⟩

theorem staleState_chooseB (a : Room) (ha : staleState[0]? = some a) :
    ∀ rs : List Nat, chooseB staleState NUM_ROOMS 0 a rs = none := by
  intro rs
  induction rs with
  | nil => rfl
  | cons r rs ih =>
    have hB : GetRandomRoom r NUM_ROOMS < 7 := Nat.mod_lt _ (by decide)
    obtain ⟨a1, b, h1, h2, h3⟩ := staleState_rejects _ hB
    rw [ha] at h1
    injection h1 with h1
    subst h1
    unfold chooseB
    rw [h2]
    simp only
    rw [if_pos h3]
    exact ih

theorem numOutboundConnections_eq_card {g : List Room} (hg : Inv g) {x : Nat} {r : Room}
    (hx : g[x]? = some r) : r.numOutboundConnections = (connections g x).toFinset.card := by
  have h := degree_eq_of_nodup hx (by have := hg.slots.room x r hx; omega) (hg.nodup x)
  unfold degree at h
  exact h.symm

/-- In a state that satisfies the invariant, a room with fewer than 6
connections always has a partner as the second loop of `AddRandomConnection`
looks for it: another room, with fewer than 6 connections, not among its
connections. -/
theorem exists_partner {g : List Room} (hg : Inv g) {A : Nat} {a : Room}
    (ha : g[A]? = some a) (hk : a.numOutboundConnections < 6) :
    ∃ B b, B ≠ A ∧ g[B]? = some b ∧ b.numOutboundConnections < 6 ∧ B ∉ connections g A := by
  have hA7 : A < 7 := by
    have := (List.getElem?_eq_some_iff.1 ha).1
    rw [hg.slots.len] at this
    exact this
  have hcardA : (Finset.range 7 \ {A}).card = 6 := by
    rw [Finset.card_sdiff (by simpa using hA7)]
    simp
  have hlt : (connections g A).toFinset.card < (Finset.range 7 \ {A}).card := by
    rw [hcardA, ← numOutboundConnections_eq_card hg ha]
    exact hk
  have hex : ∃ B ∈ Finset.range 7 \ {A}, B ∉ (connections g A).toFinset := by
    by_contra hno
    have hsub : Finset.range 7 \ {A} ⊆ (connections g A).toFinset := by
      intro y hy
      by_contra hy2
      exact hno ⟨y, hy, hy2⟩
    have := Finset.card_le_card hsub
    omega
  obtain ⟨B, hB, hBn⟩ := hex
  rw [List.mem_toFinset] at hBn
  simp only [Finset.mem_sdiff, Finset.mem_range, Finset.mem_singleton] at hB
  have hBl : B < g.length := by rw [hg.slots.len]; exact hB.1
  have hb := List.getElem?_eq_getElem hBl
  refine ⟨B, g[B], hB.2, hb, ?_, hBn⟩
  have hsub : (connections g B).toFinset ⊆ Finset.range 7 \ {B, A} := by
    intro y hy
    rw [List.mem_toFinset] at hy
    simp only [Finset.mem_sdiff, Finset.mem_range, Finset.mem_insert, Finset.mem_singleton,
      not_or]
    refine ⟨hg.range B y hy, ?_, ?_⟩
    · intro e; exact hg.noSelf B (e ▸ hy)
    · intro e; exact hBn (hg.sym B A (e ▸ hy))
  have hcard : (Finset.range 7 \ {B, A}).card = 5 := by
    have hs : ({B, A} : Finset Nat) ⊆ Finset.range 7 := by
      intro y hy
      simp only [Finset.mem_insert, Finset.mem_singleton] at hy
      rcases hy with e | e
      · rw [e]; exact Finset.mem_range.2 hB.1
      · rw [e]; exact Finset.mem_range.2 hA7
    rw [Finset.card_sdiff hs, Finset.card_range, Finset.card_pair hB.2]
  have := Finset.card_le_card hsub
  rw [hcard, ← numOutboundConnections_eq_card hg hb] at this
  omega

theorem staleRooms_empty : EmptyGraph staleRooms := by
  unfold EmptyGraph
  decide

theorem staleState_reachable : Reachable staleRooms staleState :=
  Reachable_runCalls 5 staleRand [] staleRooms staleState Reachable.start staleState_run

/-- C16: the code at a failing input.  `staleState` is reached from the empty
graph `staleRooms` by five completed calls and is not full.  Room 0 has 5
connections; room 6 is another room, with fewer than 6 connections, that room 0
is not connected to: the pick the second loop needs.  But
`ConnectionAlreadyExists` reads the slot after the last connection of room 0,
which holds a pointer to room 6 from the start, and answers that the connection
exists.  So once the first loop has settled on room 0, the second loop rejects
every room and the call never completes, whatever `rand()` returns. -/
theorem second_loop_rejects_every_room :
    EmptyGraph staleRooms ∧ Reachable staleRooms staleState
      ∧ IsGraphFull staleState NUM_ROOMS = false
      ∧ (∃ a b, staleState[0]? = some a ∧ staleState[6]? = some b
          ∧ a.numOutboundConnections < 6 ∧ b.numOutboundConnections < 6
          ∧ 6 ∉ connections staleState 0 ∧ ConnectionAlreadyExists a 6 = true)
      ∧ ∀ rs : List Nat, AddRandomConnection (0 :: rs) staleState NUM_ROOMS = none := by
  refine ⟨staleRooms_empty, staleState_reachable, by decide, ?_, ?_⟩
  · exact ⟨staleState.getD 0 staleRoom, staleState.getD 6 staleRoom, by decide, by decide,
      by decide, by decide, by decide, by decide⟩
  · intro rs
    obtain ⟨a, _, ha, _, _⟩ := staleState_rejects 0 (by decide)
    have hcan : CanAddConnectionFrom a = true := by
      have h : (match staleState[0]? with
        | some x => CanAddConnectionFrom x
        | none => false) = true := by decide
      rw [ha] at h
      exact h
    have h0 : GetRandomRoom 0 NUM_ROOMS = 0 := rfl
    unfold AddRandomConnection chooseRooms
    simp only [chooseA, h0, ha, hcan, if_true]
    rw [staleState_chooseB a ha rs]

theorem shuffleSteps_shuffleLoop (RAND_MAX n : Nat) :
    ∀ (k i : Nat) (rs : List Nat) (list : List (List Char)),
      (shuffleSteps RAND_MAX n k i rs list).map (fun x => x.2)
        = shuffleLoop RAND_MAX n k i rs list := by
  intro k
  induction k with
  | zero => intro i rs list; simp [shuffleSteps, shuffleLoop]
  | succ k ih =>
    intro i rs list
    cases rs with
    | nil => simp [shuffleSteps, shuffleLoop]
    | cons r rs =>
      simp only [shuffleSteps, shuffleLoop, swapIndex]
      cases h1 : list[i + r / (RAND_MAX / (n - i) + 1)]? with
      | none => simp
      | some tmp =>
        cases h2 : list[i]? with
        | none => simp
        | some li =>
          show Option.map (fun x => x.2)
              (match shuffleSteps RAND_MAX n k (i + 1) rs
                  ((list.set (i + r / (RAND_MAX / (n - i) + 1)) li).set i tmp) with
                | some (steps, out, rest) =>
                  some ((i, i + r / (RAND_MAX / (n - i) + 1)) :: steps, out, rest)
                | none => none)
            = shuffleLoop RAND_MAX n k (i + 1) rs
                ((list.set (i + r / (RAND_MAX / (n - i) + 1)) li).set i tmp)
          rw [← ih (i + 1) rs]
          cases shuffleSteps RAND_MAX n k (i + 1) rs
            ((list.set (i + r / (RAND_MAX / (n - i) + 1)) li).set i tmp) with
          | none => simp
          | some x => simp

theorem shuffleRun_shuffle (RAND_MAX : Nat) (rs : List Nat) (list : List (List Char)) (n : Nat) :
    (shuffleRun RAND_MAX rs list n).map (fun x => x.2)
      = RoomNameListShuffle RAND_MAX rs list n := by
  unfold shuffleRun RoomNameListShuffle
  split
  · exact shuffleSteps_shuffleLoop RAND_MAX n (n - 1) 0 rs list
  · rfl

theorem swapIndex_range (RAND_MAX n i r : Nat) (hn : 2 ≤ n) (hi : i ≤ n - 2)
    (hr : r ≤ RAND_MAX) :
    i ≤ swapIndex RAND_MAX n i r ∧ swapIndex RAND_MAX n i r ≤ n - 1 := by
  have := swap_index_le RAND_MAX n i r (by omega) hr
  unfold swapIndex
  generalize r / (RAND_MAX / (n - i) + 1) = q at this ⊢
  omega

theorem shuffleSteps_spec (RAND_MAX n : Nat) :
    ∀ (k i : Nat) (rs : List Nat) (list : List (List Char)),
      list.length = n → i + k + 1 = n → (∀ r ∈ rs, r ≤ RAND_MAX) → k ≤ rs.length →
      ∃ steps out, shuffleSteps RAND_MAX n k i rs list = some (steps, out, rs.drop k)
        ∧ steps.map Prod.fst = List.range' i k
        ∧ steps.map Prod.snd
            = (List.range' i k).zipWith (fun x r => swapIndex RAND_MAX n x r) (rs.take k) := by
  intro k
  induction k with
  | zero =>
    intro i rs list _ _ _ _
    exact ⟨[], list, by simp [shuffleSteps], by simp, by simp⟩
  | succ k ih =>
    intro i rs list hlen hik hrs hk
    cases rs with
    | nil => simp at hk
    | cons r rs =>
      have hr : r ≤ RAND_MAX := hrs r (List.mem_cons_self _ _)
      have hj := swap_index_le RAND_MAX n i r (by omega) hr
      have hjl : swapIndex RAND_MAX n i r < list.length := by unfold swapIndex; omega
      have hil : i < list.length := by omega
      have e1 := List.getElem?_eq_getElem hjl
      have e2 := List.getElem?_eq_getElem hil
      obtain ⟨steps, out, ho, h1, h2⟩ := ih (i + 1) rs
        ((list.set (swapIndex RAND_MAX n i r) list[i]).set i list[swapIndex RAND_MAX n i r])
        (by simpa using hlen) (by omega)
        (fun x hx => hrs x (List.mem_cons_of_mem _ hx)) (by simpa using hk)
      refine ⟨(i, swapIndex RAND_MAX n i r) :: steps, out, ?_, ?_, ?_⟩
      · simp only [shuffleSteps, e1, e2, List.drop_succ_cons, ho]
      · simp [List.range'_succ, h1]
      · simp [List.range'_succ, h2]

/-- C18: the swap index of `RoomNameListShuffle` stays in range.  For `n >= 2`,
`i <= n - 2` and a `rand()` value `r <= RAND_MAX`, the index
`j = i + r / (RAND_MAX / (n - i) + 1)` satisfies `i <= j <= n - 1`.  On a list of
`n >= 2` entries the loop completes, visits `i = 0, 1, ..., n - 2` in that order,
computes each `j` from the next `rand()` value, and every swap touches entries of
the list only.  For `n <= 1` the function does nothing. -/
theorem shuffle_swap_index_in_range (RAND_MAX n : Nat) :
    (∀ i r : Nat, 2 ≤ n → i ≤ n - 2 → r ≤ RAND_MAX →
        i ≤ swapIndex RAND_MAX n i r ∧ swapIndex RAND_MAX n i r ≤ n - 1)
      ∧ (∀ (rs : List Nat) (list : List (List Char)),
          2 ≤ n → list.length = n → (∀ r ∈ rs, r ≤ RAND_MAX) → n - 1 ≤ rs.length →
          ∃ steps out, shuffleRun RAND_MAX rs list n = some (steps, out, rs.drop (n - 1))
            ∧ RoomNameListShuffle RAND_MAX rs list n = some (out, rs.drop (n - 1))
            ∧ steps.map Prod.fst = List.range (n - 1)
            ∧ steps.map Prod.snd
                = (List.range (n - 1)).zipWith (fun i r => swapIndex RAND_MAX n i r)
                    (rs.take (n - 1))
            ∧ ∀ p ∈ steps, p.1 ≤ p.2 ∧ p.2 < list.length)
      ∧ (∀ (rs : List Nat) (list : List (List Char)), n ≤ 1 →
          shuffleRun RAND_MAX rs list n = some ([], list, rs)
            ∧ RoomNameListShuffle RAND_MAX rs list n = some (list, rs)) := by
  refine ⟨fun i r hn hi hr => swapIndex_range RAND_MAX n i r hn hi hr, ?_, ?_⟩
  · intro rs list hn hlen hrs hk
    obtain ⟨steps, out, ho, h1, h2⟩ :=
      shuffleSteps_spec RAND_MAX n (n - 1) 0 rs list hlen (by omega) hrs hk
    have hrun : shuffleRun RAND_MAX rs list n = some (steps, out, rs.drop (n - 1)) := by
      unfold shuffleRun
      rw [if_pos (by omega)]
      exact ho
    have hsh := shuffleRun_shuffle RAND_MAX rs list n
    rw [hrun] at hsh
    rw [List.range_eq_range']
    refine ⟨steps, out, hrun, hsh.symm, h1, h2, ?_⟩
    intro p hp
    obtain ⟨m, hm, hpm⟩ := List.getElem_of_mem hp
    have hlen1 : steps.length = n - 1 := by
      have := congrArg List.length h1
      simpa using this
    have hfst : p.1 = m := by
      have := congrArg (fun l => l[m]?) h1
      simp only [List.getElem?_map, List.getElem?_eq_getElem hm, hpm, Option.map_some'] at this
      rw [List.getElem?_range' _ _ (by omega)] at this
      simpa using this
    have hmr : m < (rs.take (n - 1)).length := by
      rw [List.length_take]; omega
    have hsnd : p.2 = swapIndex RAND_MAX n m ((rs.take (n - 1))[m]) := by
      have := congrArg (fun l => l[m]?) h2
      simp only [List.getElem?_map, List.getElem?_eq_getElem hm, hpm, Option.map_some'] at this
      rw [List.getElem?_zipWith, List.getElem?_range' _ _ (by omega),
        List.getElem?_eq_getElem hmr] at this
      simpa using this
    have hrm : (rs.take (n - 1))[m] ≤ RAND_MAX :=
      hrs _ (List.mem_of_mem_take (List.getElem_mem hmr))
    have := swapIndex_range RAND_MAX n m _ hn (by omega) hrm
    rw [hfst, hsnd, hlen]
    omega
  · intro rs list hn
    unfold shuffleRun RoomNameListShuffle
    rw [if_neg (by omega), if_neg (by omega)]
    exact ⟨rfl, rfl⟩

/-- The shuffle of the ten-name pool with the nine values of `shuffleRand`, as
`shuffle_swap_index_in_range` says. -/
theorem shuffle_swap_index_in_range_witness :
    ∃ steps out, shuffleRun 32767 shuffleRand roomNames 10
        = some (steps, out, shuffleRand.drop (10 - 1))
      ∧ RoomNameListShuffle 32767 shuffleRand roomNames 10
        = some (out, shuffleRand.drop (10 - 1))
      ∧ steps.map Prod.fst = List.range (10 - 1)
      ∧ steps.map Prod.snd
          = (List.range (10 - 1)).zipWith (fun i r => swapIndex 32767 10 i r)
              (shuffleRand.take (10 - 1))
      ∧ ∀ p ∈ steps, p.1 ≤ p.2 ∧ p.2 < roomNames.length :=
  (shuffle_swap_index_in_range 32767 10).2.1 shuffleRand roomNames (by decide) (by decide)
    (by decide) (by decide)

theorem totalConnections_set (g : List Room) :
    ∀ (x : Nat) (r r2 : Room), g[x]? = some r →
      totalConnections (g.set x r2) + r.numOutboundConnections
        = totalConnections g + r2.numOutboundConnections := by
  induction g with
  | nil => intro x r r2 h; simp at h
  | cons a t ih =>
    intro x r r2 h
    cases x with
    | zero =>
      simp only [List.getElem?_cons_zero, Option.some.injEq] at h
      subst h
      simp only [totalConnections, List.set_cons_zero, List.map_cons, List.sum_cons]
      omega
    | succ x =>
      simp only [List.getElem?_cons_succ] at h
      have := ih x r r2 h
      simp only [totalConnections, List.set_cons_succ, List.map_cons, List.sum_cons] at this ⊢
      omega

theorem totalConnections_connectAt {g : List Room} {x y : Nat} {rx : Room}
    (hx : g[x]? = some rx) : totalConnections (connectAt g x y) = totalConnections g + 1 := by
  have := totalConnections_set g x rx (ConnectRoom rx y) hx
  simp only [connectAt, hx]
  simp only [ConnectRoom] at this ⊢
  omega

theorem totalConnections_AddRandomConnection {g mid next : List Room} {rs rs1 : List Nat}
    (h : AddRandomConnection rs g NUM_ROOMS = some (mid, next, rs1)) :
    totalConnections next = totalConnections g + 2 := by
  obtain ⟨A, B, a, b, ha, hb, _, _, hne, _, _, hnext, _, _⟩ := AddRandomConnection_rooms h
  have hb1 : (connectAt g A B)[B]? = some b := by
    rw [getElem?_connectAt ha, if_neg (Ne.symm hne)]; exact hb
  rw [hnext, totalConnections_connectAt hb1, totalConnections_connectAt ha]

theorem totalConnections_eq_sum {g : List Room} (hlen : g.length = 7) :
    totalConnections g
      = ∑ x in Finset.range 7, ((g[x]?).map Room.numOutboundConnections).getD 0 := by
  match g, hlen with
  | [r0, r1, r2, r3, r4, r5, r6], _ =>
    simp [totalConnections, Finset.sum_range_succ]
    omega

theorem totalConnections_eq_degree {g : List Room} (hg : Inv g) :
    totalConnections g = ∑ x in Finset.range 7, (connections g x).toFinset.card := by
  rw [totalConnections_eq_sum hg.slots.len]
  apply Finset.sum_congr rfl
  intro x hx
  have hx7 : x < g.length := by rw [hg.slots.len]; exact Finset.mem_range.1 hx
  have e := List.getElem?_eq_getElem hx7
  rw [← numOutboundConnections_eq_card hg e, e]
  rfl

theorem exists_of_not_full {g : List Room} (hlen : g.length = 7)
    (h : IsGraphFull g NUM_ROOMS = false) :
    ∃ (v : Nat) (r : Room), g[v]? = some r ∧ r.numOutboundConnections < 3 := by
  unfold IsGraphFull at h
  rw [List.take_of_length_le (by simp [NUM_ROOMS, hlen])] at h
  rw [List.all_eq_false] at h
  obtain ⟨r, hr, hr2⟩ := h
  obtain ⟨v, hv, e⟩ := List.getElem_of_mem hr
  refine ⟨v, r, ?_, by simpa using hr2⟩
  rw [List.getElem?_eq_getElem hv, e]

/-- In a state that satisfies the invariant and is not full, the counters sum to
at most 34: a room `v` has at most 2 connections, every other room has at most 5
connections apart from one to `v`, and at most 2 rooms are connected to `v`. -/
theorem totalConnections_le_of_not_full {g : List Room} (hg : Inv g)
    (h : IsGraphFull g NUM_ROOMS = false) : totalConnections g ≤ 34 := by
  obtain ⟨v, r, hv, hr⟩ := exists_of_not_full hg.slots.len h
  have hv7 : v < 7 := by
    have := (List.getElem?_eq_some_iff.1 hv).1
    rw [hg.slots.len] at this
    exact this
  have hdv : (connections g v).toFinset.card < 3 := by
    rw [← numOutboundConnections_eq_card hg hv]; exact hr
  rw [totalConnections_eq_degree hg]
  have hvm : v ∈ Finset.range 7 := Finset.mem_range.2 hv7
  rw [← Finset.add_sum_erase _ _ hvm]
  have hbound : ∀ x ∈ (Finset.range 7).erase v,
      (connections g x).toFinset.card
        ≤ 5 + (if x ∈ (connections g v).toFinset then 1 else 0) := by
    intro x hx
    have hxv : x ≠ v := (Finset.mem_erase.1 hx).1
    have hx7 : x < 7 := Finset.mem_range.1 (Finset.mem_erase.1 hx).2
    by_cases hm : x ∈ (connections g v).toFinset
    · rw [if_pos hm]
      have hsub : (connections g x).toFinset ⊆ (Finset.range 7).erase x := by
        intro y hy
        rw [List.mem_toFinset] at hy
        rw [Finset.mem_erase, Finset.mem_range]
        exact ⟨fun e => hg.noSelf x (e ▸ hy), hg.range x y hy⟩
      have := Finset.card_le_card hsub
      rw [Finset.card_erase_of_mem (Finset.mem_range.2 hx7), Finset.card_range] at this
      omega
    · rw [if_neg hm]
      have hsub : (connections g x).toFinset ⊆ ((Finset.range 7).erase x).erase v := by
        intro y hy
        rw [List.mem_toFinset] at hy
        rw [Finset.mem_erase, Finset.mem_erase, Finset.mem_range]
        refine ⟨?_, fun e => hg.noSelf x (e ▸ hy), hg.range x y hy⟩
        intro e
        apply hm
        rw [List.mem_toFinset]
        exact hg.sym x v (e ▸ hy)
      have := Finset.card_le_card hsub
      rw [Finset.card_erase_of_mem (by
          rw [Finset.mem_erase, Finset.mem_range]; exact ⟨Ne.symm hxv, hv7⟩),
        Finset.card_erase_of_mem (Finset.mem_range.2 hx7), Finset.card_range] at this
      omega
  have hsum := Finset.sum_le_sum hbound
  rw [Finset.sum_add_distrib, Finset.sum_const, Finset.card_erase_of_mem hvm,
    Finset.card_range, Finset.sum_ite_mem, Finset.sum_const] at hsum
  have hinter : ((Finset.range 7).erase v ∩ (connections g v).toFinset).card
      ≤ (connections g v).toFinset.card := Finset.card_le_card Finset.inter_subset_right
  simp only [smul_eq_mul, mul_one] at hsum
  omega

theorem buildLoop_total :
    ∀ (fuel : Nat) (rs : List Nat) (g : List Room) (trace : List (List Room))
      (final : List Room) (rest : List Nat),
      Inv g → buildLoop fuel rs g = some (trace, final, rest) →
      runCalls (trace.length / 2) rs g = some (final, rest)
        ∧ trace.length = 2 * (trace.length / 2)
        ∧ totalConnections final = totalConnections g + trace.length
        ∧ (trace = [] ∨ totalConnections final ≤ 36) := by
  intro fuel
  induction fuel with
  | zero => intro rs g trace final rest _ h; simp [buildLoop] at h
  | succ fuel ih =>
    intro rs g trace final rest hg h
    unfold buildLoop at h
    by_cases hfull : IsGraphFull g NUM_ROOMS = false
    · rw [if_pos hfull] at h
      cases hc : AddRandomConnection rs g NUM_ROOMS with
      | none => simp [hc] at h
      | some p =>
        obtain ⟨mid, next, rs1⟩ := p
        rw [hc] at h
        simp only at h
        obtain ⟨_, hnext⟩ := Inv_AddRandomConnection hg hc
        cases hb : buildLoop fuel rs1 next with
        | none => simp [hb] at h
        | some q =>
          obtain ⟨tr, fin, rs2⟩ := q
          rw [hb] at h
          simp only [Option.some.injEq, Prod.mk.injEq] at h
          obtain ⟨h1, h2, h3⟩ := h
          subst h1; subst h2; subst h3
          obtain ⟨i1, i2, i3, i4⟩ := ih rs1 next tr fin rs2 hnext hb
          have ht := totalConnections_AddRandomConnection hc
          have hle := totalConnections_le_of_not_full hg hfull
          have hlen : (mid :: next :: tr).length / 2 = tr.length / 2 + 1 := by
            simp only [List.length_cons]
            omega
          refine ⟨?_, ?_, ?_, Or.inr ?_⟩
          · rw [hlen]
            simp only [runCalls, hc]
            exact i1
          · simp only [List.length_cons]
            omega
          · simp only [List.length_cons]
            omega
          · rcases i4 with e | e
            · rw [e] at i3
              simp only [List.length_nil] at i3
              omega
            · exact e
    · rw [if_neg hfull] at h
      simp only [Option.some.injEq, Prod.mk.injEq] at h
      obtain ⟨h1, h2, h3⟩ := h
      subst h1; subst h2; subst h3
      exact ⟨rfl, rfl, rfl, Or.inl rfl⟩

theorem totalConnections_ge_of_full {g : List Room} (hlen : g.length = 7)
    (h : ∀ r ∈ g, 3 ≤ r.numOutboundConnections) : 21 ≤ totalConnections g := by
  match g, hlen, h with
  | [r0, r1, r2, r3, r4, r5, r6], _, h =>
    have h0 := h r0 (by simp)
    have h1 := h r1 (by simp)
    have h2 := h r2 (by simp)
    have h3 := h r3 (by simp)
    have h4 := h r4 (by simp)
    have h5 := h r5 (by simp)
    have h6 := h r6 (by simp)
    simp only [totalConnections, List.map_cons, List.map_nil, List.sum_cons, List.sum_nil]
    omega

theorem totalConnections_of_EmptyGraph {g : List Room} (h : EmptyGraph g) :
    totalConnections g = 0 := by
  unfold totalConnections
  apply List.sum_eq_zero
  intro n hn
  obtain ⟨r, hr, e⟩ := List.mem_map.1 hn
  rw [← e]
  exact (h.2 r hr).1

/-- C20: every run of the build loop of `main` that ends, from seven rooms with
zero connections, makes between 11 and 18 calls of `AddRandomConnection` (the
array at loop exit is the array after that many calls one after the other, and
the loop goes through two arrays a call), and at loop exit the sum of
`numOutboundConnections` over the seven rooms is twice the number of calls: even,
at least 22 and at most 36. -/
theorem build_loop_call_count (fuel : Nat) (rs : List Nat) (g0 : List Room)
    (trace : List (List Room)) (final : List Room) (rest : List Nat)
    (h0 : EmptyGraph g0) (h : buildLoop fuel rs g0 = some (trace, final, rest)) :
    ∃ calls, runCalls calls rs g0 = some (final, rest) ∧ trace.length = 2 * calls
      ∧ 11 ≤ calls ∧ calls ≤ 18
      ∧ totalConnections final = 2 * calls
      ∧ Even (totalConnections final)
      ∧ 22 ≤ totalConnections final ∧ totalConnections final ≤ 36 := by
  have hinv := Inv_of_EmptyGraph h0
  obtain ⟨_, i2, i3⟩ := buildLoop_inv fuel rs g0 trace final rest hinv h
  obtain ⟨j1, j2, j3, j4⟩ := buildLoop_total fuel rs g0 trace final rest hinv h
  have h21 := totalConnections_ge_of_full i2.slots.len (IsGraphFull_true i2.slots.len i3)
  have hz := totalConnections_of_EmptyGraph h0
  have hle : totalConnections final ≤ 36 := by
    rcases j4 with e | e
    · rw [e] at j3
      simp only [List.length_nil] at j3
      omega
    · exact e
  refine ⟨trace.length / 2, j1, j2, by omega, by omega, by omega, ?_, by omega, hle⟩
  exact ⟨trace.length / 2, by omega⟩

/-- The run of the build loop on `demoRand` from `demoRooms` ends, and the counts
of `build_loop_call_count` hold for it. -/
theorem build_loop_call_count_witness :
    EmptyGraph demoRooms ∧
    ∃ trace final rest, buildLoop 13 demoRand demoRooms = some (trace, final, rest)
      ∧ ∃ calls, runCalls calls demoRand demoRooms = some (final, rest)
        ∧ trace.length = 2 * calls
        ∧ 11 ≤ calls ∧ calls ≤ 18
        ∧ totalConnections final = 2 * calls
        ∧ Even (totalConnections final)
        ∧ 22 ≤ totalConnections final ∧ totalConnections final ≤ 36 :=
  ⟨demoRooms_empty,
    match h : buildLoop 13 demoRand demoRooms with
    | some (trace, final, rest) =>
      ⟨trace, final, rest, rfl,
        build_loop_call_count 13 demoRand demoRooms trace final rest demoRooms_empty h⟩
    | none => absurd h demo_buildLoop_ne_none⟩

end Buildrooms

/-! ## The player: lookups, directory choice, navigation -/

namespace Adventure

open Buildrooms (RoomTypeString)

/-- C12. In a dungeon of seven rooms, `GetRoomPtrFromName(s, dungeon)` is `NULL`
if and only if no room has the name `s`, and it is the pointer to room `p` if and
only if room `p` has the name `s` and no room of lower index has.  The function
only reads the dungeon: its result is this pointer and nothing else. -/
theorem get_room_ptr_lowest_index (dungeon : List Room) (s : List Char)
    (hlen : dungeon.length = 7) :
    (GetRoomPtrFromName s dungeon = none ↔ ∀ r ∈ dungeon, r.name ≠ s)
      ∧ ∀ p, GetRoomPtrFromName s dungeon = some p ↔
          (∃ r, dungeon[p]? = some r ∧ r.name = s)
            ∧ ∀ (j : Nat) (r : Room), j < p → dungeon[j]? = some r → r.name ≠ s := by
  have htake : dungeon.take NUM_ROOMS = dungeon :=
    List.take_of_length_le (by simp [NUM_ROOMS, hlen])
  unfold GetRoomPtrFromName
  rw [htake]
  constructor
  · rw [List.findIdx?_eq_none_iff]
    constructor
    · intro h r hr e
      have := h r hr
      simp [e] at this
    · intro h r hr
      simp only [decide_eq_false_iff_not]
      exact fun e => h r hr e.symm
  · intro p
    rw [List.findIdx?_eq_some_iff_getElem]
    constructor
    · rintro ⟨hp, hy, hlow⟩
      refine ⟨⟨dungeon[p], List.getElem?_eq_getElem hp, ?_⟩, ?_⟩
      · simp only [decide_eq_true_eq] at hy
        exact hy.symm
      · intro j r hj hr e
        have hjl : j < dungeon.length := by omega
        have := hlow j hj
        rw [List.getElem?_eq_getElem hjl] at hr
        injection hr with hr
        rw [hr] at this
        simp [e] at this
    · rintro ⟨⟨r, hr, hn⟩, hlow⟩
      have hp : p < dungeon.length := (List.getElem?_eq_some_iff.1 hr).1
      have hrp : dungeon[p] = r := by
        rw [List.getElem?_eq_getElem hp] at hr; injection hr
      refine ⟨hp, by simp [hrp, hn], ?_⟩
      intro j hj
      have hjl : j < dungeon.length := by omega
      have := hlow j dungeon[j] hj (List.getElem?_eq_getElem hjl)
      simp only [decide_eq_true_eq]
      exact fun e => this e.symm

/-- In `demoDungeon` the name `Correa` is found at room 3 and the name `time` at
no room, as `get_room_ptr_lowest_index` says. -/
theorem get_room_ptr_lowest_index_witness :
    (GetRoomPtrFromName "time".toList demoDungeon = none
        ↔ ∀ r ∈ demoDungeon, r.name ≠ "time".toList)
      ∧ (GetRoomPtrFromName "Correa".toList demoDungeon = some 3 ↔
          (∃ r, demoDungeon[3]? = some r ∧ r.name = "Correa".toList)
            ∧ ∀ (j : Nat) (r : Room), j < 3 → demoDungeon[j]? = some r
                → r.name ≠ "Correa".toList)
      ∧ GetRoomPtrFromName "Correa".toList demoDungeon = some 3 :=
  ⟨(get_room_ptr_lowest_index demoDungeon "time".toList (by decide)).1,
    (get_room_ptr_lowest_index demoDungeon "Correa".toList (by decide)).2 3, by decide⟩

/-- C13. `GetRoomTypeFromString(s)` is `START_ROOM` exactly when `s` is
`START_ROOM`, `MID_ROOM` exactly when `s` is `MID_ROOM`, and `END_ROOM` for every
other string, the empty string among them; no string is refused.  So
`GetRoomTypeFromString(RoomTypeString(t))` is `t` for each room type `t`. -/
theorem room_type_from_string (s : List Char) :
    (GetRoomTypeFromString s = RoomType.START_ROOM ↔ s = "START_ROOM".toList)
      ∧ (GetRoomTypeFromString s = RoomType.MID_ROOM ↔ s = "MID_ROOM".toList)
      ∧ (GetRoomTypeFromString s = RoomType.END_ROOM
          ↔ s ≠ "START_ROOM".toList ∧ s ≠ "MID_ROOM".toList)
      ∧ GetRoomTypeFromString [] = RoomType.END_ROOM
      ∧ ∀ t : RoomType, GetRoomTypeFromString (RoomTypeString t) = t := by
  have key : ∀ a b : List Char, a ≠ b →
      ((if s = a then RoomType.START_ROOM else if s = b then RoomType.MID_ROOM
          else RoomType.END_ROOM) = RoomType.START_ROOM ↔ s = a)
        ∧ ((if s = a then RoomType.START_ROOM else if s = b then RoomType.MID_ROOM
          else RoomType.END_ROOM) = RoomType.MID_ROOM ↔ s = b)
        ∧ ((if s = a then RoomType.START_ROOM else if s = b then RoomType.MID_ROOM
          else RoomType.END_ROOM) = RoomType.END_ROOM ↔ s ≠ a ∧ s ≠ b) := by
    intro a b hab
    by_cases h1 : s = a
    · have h2 : s ≠ b := fun e => hab (h1.symm.trans e)
      simp [h1, hab]
    · by_cases h2 : s = b
      · simp [h1, h2, Ne.symm hab]
      · simp [h1, h2]
  obtain ⟨k1, k2, k3⟩ := key "START_ROOM".toList "MID_ROOM".toList (by decide)
  exact ⟨k1, k2, k3, by decide, fun t => by cases t <;> decide⟩

theorem toInt32_of_range {t : Int} (h0 : 0 ≤ t) (h1 : t < 2147483648) : toInt32 t = t := by
  unfold toInt32
  omega

theorem newestLoop_spec :
    ∀ (entries : List (List Char × Int)) (T : Int) (N : List Char),
      (∀ e ∈ entries, 0 ≤ e.2 ∧ e.2 < 2147483648) →
      ((∀ e ∈ entries, strstr e.1 "kilgorep.rooms".toList = true → e.2 ≤ T)
          ∧ newestLoop entries T N = N)
        ∨ ∃ (i : Nat) (t : Int), entries[i]? = some (newestLoop entries T N, t)
            ∧ strstr (newestLoop entries T N) "kilgorep.rooms".toList = true
            ∧ T < t
            ∧ (∀ e ∈ entries, strstr e.1 "kilgorep.rooms".toList = true → e.2 ≤ t)
            ∧ ∀ (j : Nat) (e : List Char × Int), j < i → entries[j]? = some e →
                strstr e.1 "kilgorep.rooms".toList = true → e.2 < t := by
  intro entries
  induction entries with
  | nil =>
    intro T N _
    left
    exact ⟨fun e he => absurd he (List.not_mem_nil e), rfl⟩
  | cons e entries ih =>
    intro T N hr
    obtain ⟨n, t⟩ := e
    have hrt := hr (n, t) (List.mem_cons_self _ _)
    have hrest : ∀ e ∈ entries, 0 ≤ e.2 ∧ e.2 < 2147483648 :=
      fun e he => hr e (List.mem_cons_of_mem _ he)
    by_cases hm : strstr n "kilgorep.rooms".toList = true
    · by_cases hgt : t > T
      · have hstep : newestLoop ((n, t) :: entries) T N = newestLoop entries t n := by
          simp only [newestLoop, hm, if_true, if_pos hgt, toInt32_of_range hrt.1 hrt.2]
        rw [hstep]
        right
        rcases ih t n hrest with ⟨hall, hres⟩ | ⟨i, t1, h1, h2, h3, h4, h5⟩
        · refine ⟨0, t, by simp [hres], by rw [hres]; exact hm, hgt, ?_, ?_⟩
          · intro e he hme
            rcases List.mem_cons.1 he with rfl | he
            · exact le_refl _
            · exact hall e he hme
          · intro j e hj
            exact absurd hj (Nat.not_lt_zero j)
        · refine ⟨i + 1, t1, by simpa using h1, h2, lt_trans hgt h3, ?_, ?_⟩
          · intro e he hme
            rcases List.mem_cons.1 he with rfl | he
            · exact le_of_lt h3
            · exact h4 e he hme
          · intro j e hj hje hme
            cases j with
            | zero =>
              simp only [List.getElem?_cons_zero, Option.some.injEq] at hje
              subst hje
              exact h3
            | succ j =>
              simp only [List.getElem?_cons_succ] at hje
              exact h5 j e (by omega) hje hme
      · have hstep : newestLoop ((n, t) :: entries) T N = newestLoop entries T N := by
          simp only [newestLoop, hm, if_true, if_neg hgt]
        rw [hstep]
        rcases ih T N hrest with ⟨hall, hres⟩ | ⟨i, t1, h1, h2, h3, h4, h5⟩
        · left
          refine ⟨?_, hres⟩
          intro e he hme
          rcases List.mem_cons.1 he with rfl | he
          · exact not_lt.1 hgt
          · exact hall e he hme
        · right
          have htT : t ≤ T := not_lt.1 hgt
          refine ⟨i + 1, t1, by simpa using h1, h2, h3, ?_, ?_⟩
          · intro e he hme
            rcases List.mem_cons.1 he with rfl | he
            · exact le_of_lt (lt_of_le_of_lt htT h3)
            · exact h4 e he hme
          · intro j e hj hje hme
            cases j with
            | zero =>
              simp only [List.getElem?_cons_zero, Option.some.injEq] at hje
              subst hje
              exact lt_of_le_of_lt htT h3
            | succ j =>
              simp only [List.getElem?_cons_succ] at hje
              exact h5 j e (by omega) hje hme
    · have hstep : newestLoop ((n, t) :: entries) T N = newestLoop entries T N := by
        simp only [newestLoop, hm, Bool.false_eq_true, if_false]
      rw [hstep]
      rcases ih T N hrest with ⟨hall, hres⟩ | ⟨i, t1, h1, h2, h3, h4, h5⟩
      · left
        refine ⟨?_, hres⟩
        intro e he hme
        rcases List.mem_cons.1 he with rfl | he
        · exact absurd hme hm
        · exact hall e he hme
      · right
        refine ⟨i + 1, t1, by simpa using h1, h2, h3, ?_, ?_⟩
        · intro e he hme
          rcases List.mem_cons.1 he with rfl | he
          · exact absurd hme hm
          · exact h4 e he hme
        · intro j e hj hje hme
          cases j with
          | zero =>
            simp only [List.getElem?_cons_zero, Option.some.injEq] at hje
            subst hje
            exact absurd hme hm
          | succ j =>
            simp only [List.getElem?_cons_succ] at hje
            exact h5 j e (by omega) hje hme

theorem GetRoomsDirectoryName_late :
    GetRoomsDirectoryName lateEntries = "kilgorep.rooms.2".toList := by
  decide

/-- C14: the code at a failing input.  Of the two rooms directories of
`lateEntries`, with times that are not negative, the first has the greater
modification time, `2 ^ 31`; `GetRoomsDirectoryName` returns the second, which is
not the newest: the time of the first is compared as a `time_t` but kept in an
`int`, and `(int)` turns `2 ^ 31` into `- 2 ^ 31`. -/
theorem newest_directory_counterexample :
    (∀ e ∈ lateEntries, 0 ≤ e.2)
      ∧ GetRoomsDirectoryName lateEntries = "kilgorep.rooms.2".toList
      ∧ ¬ Newest lateEntries (GetRoomsDirectoryName lateEntries) := by
  refine ⟨by decide, GetRoomsDirectoryName_late, ?_⟩
  rw [GetRoomsDirectoryName_late]
  rintro ⟨i, t, h1, _, h3, _⟩
  have hfirst := h3 ("kilgorep.rooms.1".toList, 2147483648) (by simp [lateEntries]) (by decide)
  simp only at hfirst
  cases i with
  | zero =>
    simp only [lateEntries, List.getElem?_cons_zero, Option.some.injEq, Prod.mk.injEq] at h1
    exact absurd h1.1 (by decide)
  | succ i =>
    cases i with
    | zero =>
      simp only [lateEntries, List.getElem?_cons_succ, List.getElem?_cons_zero,
        Option.some.injEq, Prod.mk.injEq] at h1
      omega
    | succ i =>
      simp [lateEntries] at h1

/-- Where no time is cut by the conversion to `int` the function does what its
comment says.  For directory entries given with name and modification time in
scan order, the times from 0 to `2 ^ 31 - 1`: when some entry name contains
`kilgorep.rooms`, `GetRoomsDirectoryName` returns the name of such an entry whose
time is the greatest among them, the first of them in scan order when several
share that time; when no entry name contains it, the result is the empty
string. -/
theorem newest_directory (entries : List (List Char × Int))
    (hr : ∀ e ∈ entries, 0 ≤ e.2 ∧ e.2 < 2147483648) :
    ((∃ e ∈ entries, strstr e.1 "kilgorep.rooms".toList = true)
        → Newest entries (GetRoomsDirectoryName entries))
      ∧ ((∀ e ∈ entries, strstr e.1 "kilgorep.rooms".toList = false)
        → GetRoomsDirectoryName entries = []) := by
  unfold GetRoomsDirectoryName
  rcases newestLoop_spec entries (-1) [] hr with ⟨hall, hres⟩ | ⟨i, t, h1, h2, _, h4, h5⟩
  · constructor
    · rintro ⟨e, he, hme⟩
      have h1 := hall e he hme
      have h2 := (hr e he).1
      omega
    · intro _
      exact hres
  · constructor
    · intro _
      exact ⟨i, t, h1, h2, h4, h5⟩
    · intro hnone
      have hmem := List.getElem?_mem h1
      have := hnone _ hmem
      simp only at this
      rw [this] at h2
      exact absurd h2 (by decide)

/-- Of the entries `demoEntries`, the one chosen is `kilgorep.rooms.8`, the first
of the two rooms directories with the greatest time, as `newest_directory`
says. -/
theorem newest_directory_witness :
    (∀ e ∈ demoEntries, 0 ≤ e.2 ∧ e.2 < 2147483648)
      ∧ Newest demoEntries (GetRoomsDirectoryName demoEntries)
      ∧ GetRoomsDirectoryName demoEntries = "kilgorep.rooms.8".toList :=
  ⟨by decide, (newest_directory demoEntries (by decide)).1
      ⟨("kilgorep.rooms.7".toList, 500), by decide, by decide⟩,
    by decide⟩

end Adventure
